import Mathlib

/-! ## Matrix.hpp: a dense matrix container, its operators and `solve`

Shallow embedding of `src/Matrix.hpp`.

Modelling conventions

* The scalar type `T` is an exact ordered field `K` (for instance `ℚ`); a `double`
  factor (`alpha`, `coef`) is a value of the same field.  Division follows the field
  convention `x / 0 = 0`; like IEEE division it raises nothing.  Where the value of a
  division by zero matters (the pivot search of `solve` after a zero pivot), the pivot loop
  is also given over `Ieee K`: the finite values of `K` with exact arithmetic, the two
  zeros, the infinities and NaN, with the operations of IEEE 754 on them.
* `std::size_t` values are natural numbers.  In the constructors, in `operator=` and in
  the arithmetic operators the product `rows * columns` wraps modulo `2 ^ 64` (`sizeMul`).
  The loops of `uniform_`, `norm` and `operator==` and the offsets `i * columns + j` are
  those of a matrix whose buffer holds `rows * columns` cells, where nothing wraps.
  Memory never runs out.
* `new T[len]{ 0 }` yields `len` zero cells.  For `len = 0` there are more initialisers
  than cells and the expression throws `std::bad_array_new_length`.
* The owned buffer `pMem` is the list of its cells.  A raw access `pMem[off]` outside
  the allocated cells is undefined behaviour in C++; the embedding makes it visible as
  the outcome `Error.out_of_buffer`, which is not a C++ exception.  `Matrix.getPast` is
  the accessor of an execution in which such a read returns the value found in memory.
* A C++ exception is the `Except.error` outcome carrying its kind.
* The local `std::vector`s of `solve` (`sys`, `v`) are only indexed inside their loop
  bounds, so they are total maps from indices to scalars.
* What the standard library computes is a parameter: `std::sqrt` in `norm`, the values
  drawn by the generator in `uniform_`.  A source pointer is `none` when null, otherwise
  the cells readable from it.
-/

/-- Square matrices of the linear-algebra library, used to say "non-singular". -/
abbrev SquareMatrix (n : Nat) (K : Type) : Type := Matrix (Fin n) (Fin n) K

namespace MatrixLib

set_option linter.unusedSectionVars false
set_option linter.unusedVariables false

/-- Outcomes other than a normal return. -/
inductive Error where
  /-- `std::invalid_argument` -/
  | invalid_argument
  /-- `std::range_error` -/
  | range_error
  /-- `std::bad_array_new_length`, thrown by `new T[0]{ 0 }` -/
  | bad_array_new_length
  /-- a raw `pMem[off]` outside the allocated buffer (undefined behaviour, not an exception) -/
  | out_of_buffer
deriving DecidableEq, Repr

/-- The class `Matrix<T>`: `rows`, `columns` and the owned buffer `pMem`. -/
structure Matrix (K : Type) where
  rows : Nat
  columns : Nat
  pMem : List K
deriving DecidableEq, Repr

/-- The shape invariant: the buffer holds `rows * columns` cells. -/
def Matrix.WellFormed {K : Type} (m : Matrix K) : Prop :=
  m.pMem.length = m.rows * m.columns

instance {K : Type} (m : Matrix K) : Decidable m.WellFormed :=
  inferInstanceAs (Decidable (m.pMem.length = m.rows * m.columns))

/-! ## Loops -/

/-- The loop `for (i = lo; i < lo + cnt; ++i) s = body(i, s)` whose body may fail. -/
def iterM {σ : Type} (body : Nat → σ → Except Error σ) : Nat → Nat → σ → Except Error σ
  | _, 0, s => .ok s
  | lo, cnt + 1, s =>
    match body lo s with
    | .ok s' => iterM body (lo + 1) cnt s'
    | .error e => .error e

/-- The loop `for (i = lo; i < hi; ++i)` whose body may fail. -/
def forM {σ : Type} (lo hi : Nat) (body : Nat → σ → Except Error σ) (s : σ) : Except Error σ :=
  iterM body lo (hi - lo) s

/-- The loop `for (i = lo; i < lo + cnt; ++i) s = body(i, s)`. -/
def iter {σ : Type} (body : Nat → σ → σ) : Nat → Nat → σ → σ
  | _, 0, s => s
  | lo, cnt + 1, s => iter body (lo + 1) cnt (body lo s)

/-- The loop `for (i = lo; i < hi; ++i)`. -/
def forLoop {σ : Type} (lo hi : Nat) (body : Nat → σ → σ) (s : σ) : σ :=
  iter body lo (hi - lo) s

/-- The loop `for (int i = hi - 1; i >= 0; --i) s = body(i, s)`. -/
def forDown {σ : Type} (body : Nat → σ → σ) : Nat → σ → σ
  | 0, s => s
  | i + 1, s => forDown body i (body i s)

/-! ## Storage and accessors -/

section Storage
variable {K : Type}

/-- Raw read `pMem[off]`. -/
def Matrix.read (m : Matrix K) (off : Nat) : Except Error K :=
  match m.pMem[off]? with
  | some x => .ok x
  | none => .error .out_of_buffer

/-- Raw write `pMem[off] = x`. -/
def Matrix.write (m : Matrix K) (off : Nat) (x : K) : Except Error (Matrix K) :=
  if off < m.pMem.length then .ok { m with pMem := m.pMem.set off x }
  else .error .out_of_buffer

/-- `Matrix()`: no rows, no columns, no buffer. -/
def Matrix.empty : Matrix K := ⟨0, 0, []⟩

/-- The number of values of `std::size_t`, taken 64 bits wide. -/
def sizeMax : Nat := 2 ^ 64

/-- The product `a * b` of two `std::size_t` values: it wraps. -/
def sizeMul (a b : Nat) : Nat := (a * b) % sizeMax

/-- `new T[len]{ 0 }`: `len` zero cells.  With no cell to take the initialiser `0` the
expression throws `std::bad_array_new_length`. -/
def newArray [Zero K] (len : Nat) : Except Error (List K) :=
  if len = 0 then .error .bad_array_new_length else .ok (List.replicate len 0)

/-- `Matrix(m, n)`: `rows{ m }, columns{ n }`, then `pMem = new T[rows * columns]{ 0 }`. -/
def Matrix.sized [Zero K] (m n : Nat) : Except Error (Matrix K) :=
  match newArray (sizeMul m n) with
  | .ok cells => .ok ⟨m, n, cells⟩
  | .error e => .error e

/-- `Matrix(std::vector<T> vec)`: a column; the zeroed buffer is overwritten by the copy. -/
def Matrix.fromVector [Zero K] (vec : List K) : Except Error (Matrix K) :=
  if vec.isEmpty then .error .invalid_argument
  else .ok ⟨vec.length, 1, vec ++ (List.replicate (vec.length * 1) 0).drop vec.length⟩

/-- `size()`. -/
def Matrix.size (m : Matrix K) : Nat × Nat := (m.rows, m.columns)

/-- `set(elem, i, j)`: an unchecked raw write at `i * columns + j`. -/
def Matrix.set (m : Matrix K) (elem : K) (i j : Nat) : Except Error (Matrix K) :=
  m.write (i * m.columns + j) elem

/-- `get(i, j)`: the guard `rows < i || columns < j`, then a raw read at `i * columns + j`. -/
def Matrix.get (m : Matrix K) (i j : Nat) : Except Error K :=
  if m.rows < i ∨ m.columns < j then .error .range_error
  else m.read (i * m.columns + j)

/-- `get(i, j)` as a typical execution runs it: the same guard, and a raw read that returns
what the memory holds.  Past the end of the buffer the C++ standard gives the read no
meaning; `past off` stands for the value found there. -/
def Matrix.getPast (past : Nat → K) (m : Matrix K) (i j : Nat) : Except Error K :=
  if m.rows < i ∨ m.columns < j then .error .range_error
  else
    match m.pMem[i * m.columns + j]? with
    | some x => .ok x
    | none => .ok (past (i * m.columns + j))

/-- `data(i)`: the guard `rows < i`, then the pointer `pMem + i * columns`, given as its offset. -/
def Matrix.data (m : Matrix K) (i : Nat) : Except Error Nat :=
  if m.rows < i then .error .range_error
  else .ok (i * m.columns)

/-- `std::copy(src, src + cnt, dst)`: the first `cnt` cells of `dst` become those of `src`;
a range that leaves either buffer is undefined behaviour. -/
def stdCopy (src : List K) (cnt : Nat) (dst : List K) : Except Error (List K) :=
  if cnt ≤ src.length ∧ cnt ≤ dst.length then .ok (src.take cnt ++ dst.drop cnt)
  else .error .out_of_buffer

/-- `Matrix(const T* mem, std::size_t m)`: `mem` is `none` for the null pointer, otherwise
the cells that can be read from `mem` on. -/
def Matrix.fromPointer [Zero K] (mem : Option (List K)) (m : Nat) : Except Error (Matrix K) :=
  match mem with
  | none => .error .invalid_argument
  | some src =>
    match newArray (sizeMul m 1) with
    | .error e => .error e
    | .ok buffer =>
      match stdCopy src m buffer with
      | .ok cells => .ok ⟨m, 1, cells⟩
      | .error e => .error e

/-- `Matrix(const Matrix<T>& other)`. -/
def Matrix.copy [Zero K] (other : Matrix K) : Except Error (Matrix K) :=
  match newArray (sizeMul other.rows other.columns) with
  | .error e => .error e
  | .ok buffer =>
    match stdCopy other.pMem (sizeMul other.rows other.columns) buffer with
    | .ok cells => .ok ⟨other.rows, other.columns, cells⟩
    | .error e => .error e

/-- `operator=`; the result is the receiver after the assignment.  `sameObject` is the
outcome of the test `this == &other`.  When the shapes differ the receiver takes the shape of
`other`, its buffer is deleted and a new one allocated; if that `new` throws, the receiver
is left with the new shape and the deleted buffer. -/
def Matrix.assign [Zero K] (sameObject : Bool) (self other : Matrix K) :
    Except Error (Matrix K) :=
  if sameObject then .ok self
  else if self.rows ≠ other.rows ∨ self.columns ≠ other.columns then
    match newArray (sizeMul other.rows other.columns) with
    | .error e => .error e
    | .ok buffer =>
      match stdCopy other.pMem (sizeMul other.rows other.columns) buffer with
      | .ok cells => .ok ⟨other.rows, other.columns, cells⟩
      | .error e => .error e
  else
    match stdCopy other.pMem (sizeMul self.rows self.columns) self.pMem with
    | .ok cells => .ok ⟨self.rows, self.columns, cells⟩
    | .error e => .error e

/-- `uniform_()`: `draws i` is the `i`-th value that `distr(gen)` yields. -/
def Matrix.uniform_ (draws : Nat → K) (m : Matrix K) : Except Error (Matrix K) :=
  forM 0 (m.rows * m.columns) (fun i res => res.write i (draws i)) m

/-- `norm()`: `sqrt` stands for `std::sqrt`, `x ^ 2` for `std::pow(x, 2)`. -/
def Matrix.norm [Field K] (sqrt : K → K) (m : Matrix K) : Except Error K :=
  match forM 0 (m.rows * m.columns)
      (fun i innerProduct =>
        match m.read i with
        | .ok x => .ok (innerProduct + x ^ 2)
        | .error e => .error e) 0 with
  | .ok innerProduct => .ok (sqrt innerProduct)
  | .error e => .error e

end Storage

/-! ## Operators -/

section Operators
variable {K : Type}

/-- The comparison loop of `operator==`, from offset `i`, `cnt` cells to go. -/
def eqLoop [DecidableEq K] (lhs rhs : Matrix K) : Nat → Nat → Except Error Bool
  | _, 0 => .ok true
  | i, cnt + 1 =>
    match lhs.read i, rhs.read i with
    | .ok a, .ok b => if a ≠ b then .ok false else eqLoop lhs rhs (i + 1) cnt
    | .error e, _ => .error e
    | _, .error e => .error e

/-- `operator==`.  `samePMem` is the outcome of the pointer test `lhs.pMem == rhs.pMem`:
buffers are exclusively owned, so it is true only for one and the same matrix (or two
matrices without a buffer). -/
def operatorEq [DecidableEq K] (samePMem : Bool) (lhs rhs : Matrix K) : Except Error Bool :=
  if samePMem then .ok true
  else if lhs.rows ≠ rhs.rows ∨ lhs.columns ≠ rhs.columns then .ok false
  else eqLoop lhs rhs 0 (lhs.rows * lhs.columns)

/-- `operator!=`: `!(lhs == rhs)`. -/
def operatorNe [DecidableEq K] (samePMem : Bool) (lhs rhs : Matrix K) : Except Error Bool :=
  match operatorEq samePMem lhs rhs with
  | .ok r => .ok (!r)
  | .error e => .error e

/-- `operator+`. -/
def operatorAdd [Zero K] [Add K] (lhs rhs : Matrix K) : Except Error (Matrix K) :=
  if lhs.rows ≠ rhs.rows ∨ lhs.columns ≠ rhs.columns then .error .invalid_argument
  else
    match Matrix.sized lhs.rows lhs.columns with
    | .error e => .error e
    | .ok res =>
      forM 0 (sizeMul lhs.rows lhs.columns)
        (fun i res =>
          match lhs.read i, rhs.read i with
          | .ok a, .ok b => res.write i (a + b)
          | .error e, _ => .error e
          | _, .error e => .error e)
        res

/-- `operator*(const Matrix<T>&, const double)`. -/
def operatorScale [Zero K] [Mul K] (lhs : Matrix K) (alpha : K) : Except Error (Matrix K) :=
  match Matrix.sized lhs.rows lhs.columns with
  | .error e => .error e
  | .ok res =>
    forM 0 (sizeMul lhs.rows lhs.columns)
      (fun i res =>
        match lhs.read i with
        | .ok a => res.write i (a * alpha)
        | .error e => .error e)
      res

/-- `operator-`: `lhs + rhs * (-1.0)`. -/
def operatorSub [Zero K] [One K] [Neg K] [Add K] [Mul K] (lhs rhs : Matrix K) :
    Except Error (Matrix K) :=
  match operatorScale rhs (-1) with
  | .ok negated => operatorAdd lhs negated
  | .error e => .error e

/-- The statement `res.pMem[i * rhs.columns + j] += lhs.get(i, k) * rhs.get(k, j)`. -/
def mulCell [Add K] [Mul K] (lhs rhs : Matrix K) (i j k : Nat) (res : Matrix K) :
    Except Error (Matrix K) :=
  match lhs.get i k, rhs.get k j with
  | .ok a, .ok b =>
    match res.read (i * rhs.columns + j) with
    | .ok cur => res.write (i * rhs.columns + j) (cur + a * b)
    | .error e => .error e
  | .error e, _ => .error e
  | _, .error e => .error e

/-- `operator*(const Matrix<T>&, const Matrix<T>&)`. -/
def operatorMul [Zero K] [Add K] [Mul K] (lhs rhs : Matrix K) : Except Error (Matrix K) :=
  if lhs.columns ≠ rhs.rows then .error .invalid_argument
  else
    match Matrix.sized lhs.rows rhs.columns with
    | .error e => .error e
    | .ok res =>
      forM 0 lhs.rows
        (fun i res => forM 0 rhs.columns
          (fun j res => forM 0 lhs.columns (fun k res => mulCell lhs rhs i j k res) res) res)
        res

end Operators

/-! ## The solver -/

section Solve
variable {K : Type}

/-- The local `std::vector<std::vector<T>> sys` of `solve`: `n` rows of `n + 1` cells;
`cell r c` is `sys[r][c]`. -/
structure Sys (K : Type) where
  cell : Nat → Nat → K

/-- The assignment `sys[r][c] = x`. -/
def Sys.put (sys : Sys K) (r c : Nat) (x : K) : Sys K :=
  ⟨fun r' c' => if r' = r ∧ c' = c then x else sys.cell r' c'⟩

/-- The assignment `v[i] = x`. -/
def vecPut (v : Nat → K) (i : Nat) (x : K) : Nat → K :=
  fun i' => if i' = i then x else v i'

/-- `for i < n, for j < n: sys[i][j] = A.get(i, j)`. -/
def loadCoefficients (A : Matrix K) (n : Nat) (sys : Sys K) : Except Error (Sys K) :=
  forM 0 n
    (fun i sys => forM 0 n
      (fun j sys =>
        match A.get i j with
        | .ok a => .ok (sys.put i j a)
        | .error e => .error e) sys) sys

/-- `for i < n: sys[i][n] = b.get(i, 0)`. -/
def loadRhs (b : Matrix K) (n : Nat) (sys : Sys K) : Except Error (Sys K) :=
  forM 0 n
    (fun i sys =>
      match b.get i 0 with
      | .ok x => .ok (sys.put i n x)
      | .error e => .error e) sys

/-- "Search for maximum in this column": the final `(maxElem, maxRow)`. -/
def searchPivot [LinearOrderedField K] (sys : Sys K) (n i : Nat) : K × Nat :=
  forLoop (i + 1) n
    (fun j st => if |sys.cell j i| > st.1 then (|sys.cell j i|, j) else st)
    (|sys.cell i i|, i)

/-- "Swap maximum row with current row": columns `i .. n` only. -/
def swapRows (sys : Sys K) (n i maxRow : Nat) : Sys K :=
  forLoop i (n + 1)
    (fun j sys =>
      let tmp := sys.cell maxRow j
      (sys.put maxRow j (sys.cell i j)).put i j tmp) sys

/-- The body of the elimination loop for one row `j` below the pivot row `i`, in the exact
field: a zero pivot gives `coef = 0`.  Over `double`s, where `-0 / 0` is NaN, the same body
is `eliminateRowWith ieeeOps`. -/
def eliminateRow [Field K] (sys : Sys K) (n i j : Nat) : Sys K :=
  let coef := -(sys.cell j i) / sys.cell i i
  forLoop i (n + 1)
    (fun k sys =>
      if i = k then sys.put j k 0
      else sys.put j k (sys.cell j k + coef * sys.cell i k)) sys

/-- "Make all rows below this one 0 in current column". -/
def eliminateBelow [Field K] (sys : Sys K) (n i : Nat) : Sys K :=
  forLoop (i + 1) n (fun j sys => eliminateRow sys n i j) sys

/-- One iteration of the pivot loop of `solve`. -/
def pivotStep [LinearOrderedField K] (n i : Nat) (sys : Sys K) : Sys K :=
  let maxRow := (searchPivot sys n i).2
  eliminateBelow (swapRows sys n i maxRow) n i

/-- The pivot loop `for (i = 0; i < n; i++)` of `solve`. -/
def forwardElimination [LinearOrderedField K] (n : Nat) (sys : Sys K) : Sys K :=
  forLoop 0 n (fun i sys => pivotStep n i sys) sys

/-- One iteration of "Reverse substitution" on the state `(sys, v)`, in the exact field:
it agrees with the `double` computation as long as the pivot `sys[i][i]` is not zero. -/
def backStep [Field K] (n i : Nat) (st : Sys K × (Nat → K)) : Sys K × (Nat → K) :=
  let v := vecPut st.2 i (st.1.cell i n / st.1.cell i i)
  (forDown (fun j sys => sys.put j n (sys.cell j n - sys.cell j i * v i)) i st.1, v)

/-- "Reverse substitution": `for (int i = n - 1; i >= 0; --i)`, from `v` all zero. -/
def backSubstitute [Field K] (n : Nat) (sys : Sys K) : Sys K × (Nat → K) :=
  forDown (backStep n) n (sys, fun _ => 0)

/-- `solve(A, b)`. -/
def solve [LinearOrderedField K] (A b : Matrix K) : Except Error (Matrix K) :=
  if A.rows ≠ b.rows then .error .invalid_argument
  else
    let n := max A.size.1 A.size.2
    match loadCoefficients A n ⟨fun _ _ => 0⟩ with
    | .error e => .error e
    | .ok sys =>
      match loadRhs b n sys with
      | .error e => .error e
      | .ok sys =>
        let sys := forwardElimination n sys
        let v := (backSubstitute n sys).2
        Matrix.fromVector ((List.range n).map v)

/-- The loop of `loadCoefficients`, reading through the accessor `getA` instead of
`A.get`. -/
def loadCoefficientsVia (getA : Nat → Nat → Except Error K) (n : Nat) (sys : Sys K) :
    Except Error (Sys K) :=
  forM 0 n
    (fun i sys => forM 0 n
      (fun j sys =>
        match getA i j with
        | .ok a => .ok (sys.put i j a)
        | .error e => .error e) sys) sys

/-- The loop of `loadRhs`, reading through the accessor `getB` instead of `b.get`. -/
def loadRhsVia (getB : Nat → Nat → Except Error K) (n : Nat) (sys : Sys K) :
    Except Error (Sys K) :=
  forM 0 n
    (fun i sys =>
      match getB i 0 with
      | .ok x => .ok (sys.put i n x)
      | .error e => .error e) sys

/-- The body of `solve(A, b)` with the calls `A.get(i, j)` and `b.get(i, 0)` made through
`getA` and `getB`; `solveVia A.get b.get A b` is `solve A b`. -/
def solveVia [LinearOrderedField K] (getA getB : Nat → Nat → Except Error K)
    (A b : Matrix K) : Except Error (Matrix K) :=
  if A.rows ≠ b.rows then .error .invalid_argument
  else
    let n := max A.size.1 A.size.2
    match loadCoefficientsVia getA n ⟨fun _ _ => 0⟩ with
    | .error e => .error e
    | .ok sys =>
      match loadRhsVia getB n sys with
      | .error e => .error e
      | .ok sys =>
        let sys := forwardElimination n sys
        let v := (backSubstitute n sys).2
        Matrix.fromVector ((List.range n).map v)

/-- The function `solve(A, b)` in an execution where a read past the end of a buffer returns
a value: `pastA` and `pastB` give what follows the buffers of `A` and of `b`. -/
def solvePast [LinearOrderedField K] (pastA pastB : Nat → K) (A b : Matrix K) :
    Except Error (Matrix K) :=
  solveVia (A.getPast pastA) (b.getPast pastB) A b

/-! ### The pivot loop over `double` values with infinities and NaN -/

/-- A `double` as IEEE 754 defines it, with exact arithmetic on the finite values (no
rounding, no overflow): a finite value (`fin 0` is `+0`), the negative zero, an infinity
with its sign bit, or NaN. -/
inductive Ieee (K : Type) where
  | fin (x : K)
  | negZero
  | inf (negative : Bool)
  | nan
deriving DecidableEq, Repr

/-- The value of a finite `double`; none for an infinity and for NaN. -/
def Ieee.val [Zero K] : Ieee K → Option K
  | .fin x => some x
  | .negZero => some 0
  | .inf _ => none
  | .nan => none

/-- The sign bit (of no use for NaN). -/
def Ieee.sign [LinearOrderedField K] : Ieee K → Bool
  | .fin x => decide (x < 0)
  | .negZero => true
  | .inf s => s
  | .nan => false

/-- The zero with sign bit `s`. -/
def Ieee.signedZero [Zero K] (s : Bool) : Ieee K :=
  if s then .negZero else .fin 0

/-- The `double` of an operation whose exact result is the finite `x`; `s` is the sign bit
that IEEE 754 gives the result when it is a zero. -/
def Ieee.ofExact [LinearOrderedField K] (x : K) (s : Bool) : Ieee K :=
  if x = 0 then Ieee.signedZero s else .fin x

/-- Unary minus: the sign bit is flipped. -/
def Ieee.neg [LinearOrderedField K] : Ieee K → Ieee K
  | .fin x => if x = 0 then .negZero else .fin (-x)
  | .negZero => .fin 0
  | .inf s => .inf (!s)
  | .nan => .nan

/-- `std::abs`: the sign bit is cleared. -/
def Ieee.abs [LinearOrderedField K] : Ieee K → Ieee K
  | .fin x => .fin |x|
  | .negZero => .fin 0
  | .inf _ => .inf false
  | .nan => .nan

/-- Multiplication: NaN propagates, `0 * inf` is NaN, the sign bit is the exclusive or. -/
def Ieee.mul [LinearOrderedField K] (a b : Ieee K) : Ieee K :=
  match a, b with
  | .nan, _ => .nan
  | _, .nan => .nan
  | .inf s, .inf t => .inf (xor s t)
  | .inf s, y => if y.val = some 0 then .nan else .inf (xor s y.sign)
  | x, .inf t => if x.val = some 0 then .nan else .inf (xor x.sign t)
  | x, y => Ieee.ofExact (x.val.getD 0 * y.val.getD 0) (xor x.sign y.sign)

/-- Division: NaN propagates, `inf / inf` and `0 / 0` are NaN, a non-zero value divided by
a zero is an infinity, the sign bit is the exclusive or. -/
def Ieee.div [LinearOrderedField K] (a b : Ieee K) : Ieee K :=
  match a, b with
  | .nan, _ => .nan
  | _, .nan => .nan
  | .inf _, .inf _ => .nan
  | .inf s, y => .inf (xor s y.sign)
  | x, .inf t => Ieee.signedZero (xor x.sign t)
  | x, y =>
    if y.val = some 0 then
      (if x.val = some 0 then .nan else .inf (xor x.sign y.sign))
    else Ieee.ofExact (x.val.getD 0 / y.val.getD 0) (xor x.sign y.sign)

/-- Addition: NaN propagates, `inf + (-inf)` is NaN; an exact sum that is zero is `+0`
unless both operands are negative zeros. -/
def Ieee.add [LinearOrderedField K] (a b : Ieee K) : Ieee K :=
  match a, b with
  | .nan, _ => .nan
  | _, .nan => .nan
  | .inf s, .inf t => if s = t then .inf s else .nan
  | .inf s, _ => .inf s
  | _, .inf t => .inf t
  | x, y => Ieee.ofExact (x.val.getD 0 + y.val.getD 0) (x.sign && y.sign)

/-- The comparison `a > b`: false as soon as an operand is NaN; the two zeros are equal. -/
def Ieee.gt [LinearOrderedField K] (a b : Ieee K) : Bool :=
  match a, b with
  | .nan, _ => false
  | _, .nan => false
  | .inf s, .inf t => !s && t
  | .inf s, _ => !s
  | _, .inf t => t
  | x, y => decide (x.val.getD 0 > y.val.getD 0)

/-- The scalar operations that the pivot loop of `solve` applies to its type `T`. -/
structure ScalarOps (S : Type) where
  /-- the literal `0` -/
  zero : S
  /-- `std::abs(x)` -/
  abs : S → S
  /-- `x > y` -/
  gt : S → S → Bool
  /-- `-x` -/
  neg : S → S
  /-- `x / y` -/
  div : S → S → S
  /-- `x * y` -/
  mul : S → S → S
  /-- `x + y` -/
  add : S → S → S

/-- The operations of the exact field. -/
def exactOps [LinearOrderedField K] : ScalarOps K :=
  ⟨0, fun x => |x|, fun x y => decide (x > y), fun x => -x, fun x y => x / y,
    fun x y => x * y, fun x y => x + y⟩

/-- The operations of `double`. -/
def ieeeOps [LinearOrderedField K] : ScalarOps (Ieee K) :=
  ⟨.fin 0, Ieee.abs, Ieee.gt, Ieee.neg, Ieee.div, Ieee.mul, Ieee.add⟩

variable {S : Type}

/-- "Search for maximum in this column", over the operations `ops`. -/
def searchPivotWith (ops : ScalarOps S) (sys : Sys S) (n i : Nat) : S × Nat :=
  forLoop (i + 1) n
    (fun j st =>
      if ops.gt (ops.abs (sys.cell j i)) st.1 then (ops.abs (sys.cell j i), j) else st)
    (ops.abs (sys.cell i i), i)

/-- The body of the elimination loop for one row `j`, over the operations `ops`:
`coef = -sys[j][i] / sys[i][i]`, then `sys[j][k] = 0` or `sys[j][k] += coef * sys[i][k]`. -/
def eliminateRowWith (ops : ScalarOps S) (sys : Sys S) (n i j : Nat) : Sys S :=
  let coef := ops.div (ops.neg (sys.cell j i)) (sys.cell i i)
  forLoop i (n + 1)
    (fun k sys =>
      if i = k then sys.put j k ops.zero
      else sys.put j k (ops.add (sys.cell j k) (ops.mul coef (sys.cell i k)))) sys

/-- "Make all rows below this one 0 in current column", over the operations `ops`. -/
def eliminateBelowWith (ops : ScalarOps S) (sys : Sys S) (n i : Nat) : Sys S :=
  forLoop (i + 1) n (fun j sys => eliminateRowWith ops sys n i j) sys

/-- One iteration of the pivot loop of `solve`, over the operations `ops`. -/
def pivotStepWith (ops : ScalarOps S) (n i : Nat) (sys : Sys S) : Sys S :=
  let maxRow := (searchPivotWith ops sys n i).2
  eliminateBelowWith ops (swapRows sys n i maxRow) n i

end Solve

/-! ## Vocabulary of the statements -/

section Vocabulary
variable {K : Type}

/-- A buffer of `r * c` cells can be allocated by `new T[r * c]{ 0 }`: it has a cell, and
the product does not wrap. -/
def fits (r c : Nat) : Prop := 0 < r * c ∧ r * c < sizeMax

instance (r c : Nat) : Decidable (fits r c) :=
  inferInstanceAs (Decidable (0 < r * c ∧ r * c < sizeMax))

/-- The `r × c` matrix of zeros: what `Matrix(r, c)` holds when its allocation succeeds
without wrapping. -/
def Matrix.zeros [Zero K] (r c : Nat) : Matrix K := ⟨r, c, List.replicate (r * c) 0⟩

/-- The cell of row `i`, column `j` in the row-major buffer (zero outside the buffer). -/
def Matrix.elem [Zero K] (m : Matrix K) (i j : Nat) : K :=
  m.pMem.getD (i * m.columns + j) 0

/-- The coefficients of an `n × n` matrix as a square matrix of the linear-algebra library. -/
def Matrix.toSquare [Zero K] (m : Matrix K) (n : Nat) : SquareMatrix n K :=
  Matrix.of fun i j => m.elem i.val j.val

/-- The `r × c` matrix whose buffer cell at offset `k` is `f k`. -/
def Matrix.ofCells (r c : Nat) (f : Nat → K) : Matrix K :=
  ⟨r, c, (List.range (r * c)).map f⟩

/-- The sum that `operator*` accumulates for cell `(i, j)` after `t` rounds of its inner loop. -/
def dot [Zero K] [Add K] [Mul K] (lhs rhs : Matrix K) (i j t : Nat) : K :=
  (List.range t).foldl (fun acc k => acc + lhs.elem i k * rhs.elem k j) 0

/-- The state of the result of `operator*` when the cells before offset `p` are finished and
the others are still zero. -/
def mulDone [Zero K] [Add K] [Mul K] (lhs rhs : Matrix K) (p : Nat) (res : Matrix K) : Prop :=
  res.rows = lhs.rows ∧ res.columns = rhs.columns ∧
    res.pMem.length = lhs.rows * rhs.columns ∧
    ∀ o, o < lhs.rows * rhs.columns → res.pMem.getD o 0 =
      if o < p then dot lhs rhs (o / rhs.columns) (o % rhs.columns) lhs.columns else 0

/-- The vector `x` solves the augmented system with its right-hand side scaled by `t`:
`t = 1` is the system itself, `t = 0` the homogeneous one. -/
def Sys.satisfies [Field K] (n : Nat) (sys : Sys K) (x : Nat → K) (t : K) : Prop :=
  ∀ r, r < n → ∑ c in Finset.range n, sys.cell r c * x c = t * sys.cell r n

/-- Below the diagonal, the columns before `i` of the system are zero. -/
def Sys.lowerZero [Zero K] (n i : Nat) (sys : Sys K) : Prop :=
  ∀ r c, c < i → c < r → r < n → sys.cell r c = 0

/-- The augmented system when the pivot loop of `solve` reaches iteration `i`. -/
def systemAt [LinearOrderedField K] (n i : Nat) (sys : Sys K) : Sys K :=
  forLoop 0 i (fun k sys => pivotStep n k sys) sys

/-- The value `sys[i][i]` by which iteration `i` of the pivot loop divides (after its swap). -/
def pivotAt [LinearOrderedField K] (n i : Nat) (sys : Sys K) : K :=
  (swapRows (systemAt n i sys) n i (searchPivot (systemAt n i sys) n i).2).cell i i

/-- The augmented system when the pivot loop reaches iteration `i`, over the operations
`ops`. -/
def systemAtWith {S : Type} (ops : ScalarOps S) (n i : Nat) (sys : Sys S) : Sys S :=
  forLoop 0 i (fun k sys => pivotStepWith ops n k sys) sys

/-- The value `sys[i][i]` by which iteration `i` of the pivot loop divides, over the
operations `ops`. -/
def pivotAtWith {S : Type} (ops : ScalarOps S) (n i : Nat) (sys : Sys S) : S :=
  (swapRows (systemAtWith ops n i sys) n i
    (searchPivotWith ops (systemAtWith ops n i sys) n i).2).cell i i

/-- A `double` that is `+0` or `-0`. -/
def Ieee.isZero [Zero K] [DecidableEq K] (a : Ieee K) : Bool := decide (a.val = some 0)

/-- A `double` that is neither an infinity nor NaN. -/
def Ieee.isFinite [Zero K] (a : Ieee K) : Bool := a.val.isSome

/-- The exact values of a system of finite `double`s. -/
def Sys.exact [Zero K] (t : Sys (Ieee K)) : Sys K :=
  ⟨fun r c => (t.cell r c).val.getD 0⟩

/-- Every cell of the `double` system `t` is finite and has the value of the same cell of
`s`. -/
def Sys.tracks [Zero K] (t : Sys (Ieee K)) (s : Sys K) : Prop :=
  ∀ r c, (t.cell r c).val = some (s.cell r c)

/-- The coefficient part of the augmented system as a square matrix. -/
def Sys.toSquare (sys : Sys K) (n : Nat) : SquareMatrix n K :=
  Matrix.of fun i j => sys.cell i.val j.val

/-- The identity of the tests: `Matrix(n, n)` followed by `set(1, i, i)` for every `i < n`. -/
def identity [Zero K] [One K] (n : Nat) : Except Error (Matrix K) :=
  match Matrix.sized n n with
  | .error e => .error e
  | .ok E => forM 0 n (fun i E => E.set 1 i i) E

/-- Elementwise difference, as the specification words subtraction. -/
def subSpec [Sub K] (lhs rhs : Matrix K) : Matrix K :=
  ⟨lhs.rows, lhs.columns, List.zipWith (fun a b => a - b) lhs.pMem rhs.pMem⟩

/-- A 2 × 2 non-singular coefficient matrix over the rationals. -/
def sampleA : Matrix ℚ := ⟨2, 2, [2, 1, 1, 3]⟩

/-- A right-hand side for `sampleA`. -/
def sampleB : Matrix ℚ := ⟨2, 1, [3, 5]⟩

/-- Five rationals in memory, as a source for the pointer constructor. -/
def sampleCells : List ℚ := [1, 2, 3, 4, 5]

/-- A singular 2 × 2 coefficient matrix: the second row is twice the first. -/
def sampleSingular : Matrix ℚ := ⟨2, 2, [1, 2, 2, 4]⟩

/-- The augmented system that `solve` builds from `sampleSingular` and `sampleB`. -/
def sampleSingularSys : Sys ℚ :=
  ⟨fun r c => if r = 0 then (if c = 0 then 1 else if c = 1 then 2 else 3)
    else (if c = 0 then 2 else if c = 1 then 4 else 5)⟩

/-- A 3 × 1 matrix, taller than wide by two. -/
def sampleTall : Matrix ℚ := ⟨3, 1, [1, 2, 3]⟩

/-- The column of the test of `norm`. -/
def sampleColumn34 : Matrix ℚ := ⟨2, 1, [3, 4]⟩

/-- The same buffer as `sampleColumn34`, shaped as a row. -/
def sampleRow34 : Matrix ℚ := ⟨1, 2, [3, 4]⟩

/-- The 2 × 3 matrix of the rationals 1 .. 6. -/
def sampleWide : Matrix ℚ := ⟨2, 3, [1, 2, 3, 4, 5, 6]⟩

end Vocabulary

/-! ## Loop lemmas -/

section LoopLemmas
variable {σ : Type}

theorem iterM_invariant (body : Nat → σ → Except Error σ) (P : Nat → σ → Prop) :
    ∀ (cnt lo : Nat) (s : σ), P lo s →
      (∀ i s, lo ≤ i → i < lo + cnt → P i s → ∃ s', body i s = .ok s' ∧ P (i + 1) s') →
      ∃ s', iterM body lo cnt s = .ok s' ∧ P (lo + cnt) s'
  | 0, lo, s, h0, _ => ⟨s, rfl, by simpa using h0⟩
  | cnt + 1, lo, s, h0, hstep => by
    obtain ⟨s1, hb, h1⟩ := hstep lo s (le_refl _) (by omega) h0
    obtain ⟨s2, hi, h2⟩ := iterM_invariant body P cnt (lo + 1) s1 h1
      (fun i s hlo hhi hP => hstep i s (by omega) (by omega) hP)
    refine ⟨s2, ?_, ?_⟩
    · simp only [iterM, hb]
      exact hi
    · have hsum : lo + (cnt + 1) = lo + 1 + cnt := by omega
      rw [hsum]
      exact h2

theorem forM_invariant (body : Nat → σ → Except Error σ) (P : Nat → σ → Prop)
    (lo hi : Nat) (s : σ) (hle : lo ≤ hi) (h0 : P lo s)
    (hstep : ∀ i s, lo ≤ i → i < hi → P i s → ∃ s', body i s = .ok s' ∧ P (i + 1) s') :
    ∃ s', forM lo hi body s = .ok s' ∧ P hi s' := by
  have h := iterM_invariant body P (hi - lo) lo s h0
    (fun i s hlo hhi hP => hstep i s hlo (by omega) hP)
  have hsum : lo + (hi - lo) = hi := by omega
  rw [hsum] at h
  exact h

theorem iter_invariant (body : Nat → σ → σ) (P : Nat → σ → Prop) :
    ∀ (cnt lo : Nat) (s : σ), P lo s →
      (∀ i s, lo ≤ i → i < lo + cnt → P i s → P (i + 1) (body i s)) →
      P (lo + cnt) (iter body lo cnt s)
  | 0, lo, s, h0, _ => by simpa [iter] using h0
  | cnt + 1, lo, s, h0, hstep => by
    have h1 := hstep lo s (le_refl _) (by omega) h0
    have h2 := iter_invariant body P cnt (lo + 1) (body lo s) h1
      (fun i s hlo hhi hP => hstep i s (by omega) (by omega) hP)
    have hsum : lo + (cnt + 1) = lo + 1 + cnt := by omega
    rw [hsum]
    simpa [iter] using h2

theorem forLoop_invariant (body : Nat → σ → σ) (P : Nat → σ → Prop)
    (lo hi : Nat) (s : σ) (hle : lo ≤ hi) (h0 : P lo s)
    (hstep : ∀ i s, lo ≤ i → i < hi → P i s → P (i + 1) (body i s)) :
    P hi (forLoop lo hi body s) := by
  have h := iter_invariant body P (hi - lo) lo s h0
    (fun i s hlo hhi hP => hstep i s hlo (by omega) hP)
  have hsum : lo + (hi - lo) = hi := by omega
  rw [hsum] at h
  exact h

theorem forLoop_empty (body : Nat → σ → σ) (lo hi : Nat) (s : σ) (h : hi ≤ lo) :
    forLoop lo hi body s = s := by
  have hz : hi - lo = 0 := by omega
  simp [forLoop, hz, iter]

theorem forDown_invariant (body : Nat → σ → σ) (P : Nat → σ → Prop) :
    ∀ (n : Nat) (s : σ), P n s →
      (∀ i s, i < n → P (i + 1) s → P i (body i s)) →
      P 0 (forDown body n s)
  | 0, s, h0, _ => by simpa [forDown] using h0
  | n + 1, s, h0, hstep => by
    have h1 := hstep n s (by omega) h0
    have h2 := forDown_invariant body P n (body n s) h1
      (fun i s hi hP => hstep i s (by omega) hP)
    simpa [forDown] using h2

end LoopLemmas

/-! ## Storage lemmas -/

section StorageLemmas
variable {K : Type}

theorem offset_lt {r c i j : Nat} (hi : i < r) (hj : j < c) : i * c + j < r * c := by
  have h1 : (i + 1) * c ≤ r * c := Nat.mul_le_mul_right c hi
  have h2 : (i + 1) * c = i * c + c := by ring
  omega

theorem read_of_lt (m : Matrix K) (off : Nat) (h : off < m.pMem.length) :
    m.read off = .ok (m.pMem.get ⟨off, h⟩) := by
  simp [Matrix.read, List.getElem?_eq_getElem h]

theorem read_of_le (m : Matrix K) (off : Nat) (h : m.pMem.length ≤ off) :
    m.read off = .error .out_of_buffer := by
  simp [Matrix.read, List.getElem?_eq_none h]

theorem read_getD [Zero K] (m : Matrix K) (off : Nat) (h : off < m.pMem.length) :
    m.read off = .ok (m.pMem.getD off 0) := by
  simp [Matrix.read, List.getElem?_eq_getElem h, List.getD_eq_getElem?_getD]

theorem read_ne_range_error (m : Matrix K) (off : Nat) :
    m.read off ≠ .error .range_error := by
  unfold Matrix.read
  cases m.pMem[off]? <;> simp

theorem get_eq_elem [Zero K] (m : Matrix K) (hm : m.WellFormed) (i j : Nat)
    (hi : i < m.rows) (hj : j < m.columns) : m.get i j = .ok (m.elem i j) := by
  have hoff : i * m.columns + j < m.pMem.length := by
    rw [hm]
    exact offset_lt hi hj
  have hg : ¬ (m.rows < i ∨ m.columns < j) := by omega
  simp only [Matrix.get, hg, if_false, Matrix.elem]
  exact read_getD m _ hoff

end StorageLemmas

/-! ## Equality lemmas -/

section EqualityLemmas
variable {K : Type} [LinearOrderedField K]

theorem eqLoop_spec (lhs rhs : Matrix K) :
    ∀ (cnt i : Nat), i + cnt ≤ lhs.pMem.length → i + cnt ≤ rhs.pMem.length →
      ∃ r, eqLoop lhs rhs i cnt = .ok r ∧
        (r = true ↔ ∀ k, i ≤ k → k < i + cnt → lhs.pMem.getD k 0 = rhs.pMem.getD k 0)
  | 0, i, _, _ => ⟨true, rfl, by simp; intro k h1 h2; omega⟩
  | cnt + 1, i, hl, hr => by
    have hli : i < lhs.pMem.length := by omega
    have hri : i < rhs.pMem.length := by omega
    obtain ⟨r, hr1, hr2⟩ := eqLoop_spec lhs rhs cnt (i + 1) (by omega) (by omega)
    by_cases hne : lhs.pMem.getD i 0 = rhs.pMem.getD i 0
    · refine ⟨r, ?_, ?_⟩
      · simp only [eqLoop, read_getD lhs i hli, read_getD rhs i hri]
        rw [if_neg (not_not.mpr hne)]
        exact hr1
      · rw [hr2]
        constructor
        · intro h k hk1 hk2
          by_cases hki : k = i
          · rw [hki]; exact hne
          · exact h k (by omega) (by omega)
        · intro h k hk1 hk2
          exact h k (by omega) (by omega)
    · refine ⟨false, ?_, ?_⟩
      · simp only [eqLoop, read_getD lhs i hli, read_getD rhs i hri]
        rw [if_pos hne]
      · simp only [Bool.false_eq_true, false_iff]
        intro h
        exact hne (h i (le_refl _) (by omega))

theorem eq_of_cells (A B : Matrix K) (hA : A.WellFormed) (hB : B.WellFormed)
    (hr : A.rows = B.rows) (hc : A.columns = B.columns)
    (h : ∀ k, k < A.rows * A.columns → A.pMem.getD k 0 = B.pMem.getD k 0) : A = B := by
  obtain ⟨ar, ac, ap⟩ := A
  obtain ⟨br, bc, bp⟩ := B
  simp only [Matrix.WellFormed] at hA hB
  simp only at hr hc h
  subst hr hc
  have hp : ap = bp := by
    apply List.ext_getElem (by rw [hA, hB])
    intro k h1 h2
    have hk := h k (by rw [← hA]; exact h1)
    simpa [List.getD_eq_getElem?_getD, List.getElem?_eq_getElem h1,
      List.getElem?_eq_getElem h2] using hk
  rw [hp]

theorem elem_offset (A : Matrix K) (k : Nat) (hk : k < A.rows * A.columns) :
    k / A.columns < A.rows ∧ k % A.columns < A.columns ∧
      A.elem (k / A.columns) (k % A.columns) = A.pMem.getD k 0 := by
  have hc : 0 < A.columns := by
    rcases Nat.eq_zero_or_pos A.columns with h0 | h0
    · rw [h0] at hk; simp at hk
    · exact h0
  refine ⟨?_, Nat.mod_lt _ hc, ?_⟩
  · rw [Nat.div_lt_iff_lt_mul hc]; exact hk
  · simp only [Matrix.elem]
    rw [Nat.div_add_mod' k A.columns]

theorem eq_of_elems (A B : Matrix K) (hA : A.WellFormed) (hB : B.WellFormed)
    (hr : A.rows = B.rows) (hc : A.columns = B.columns)
    (h : ∀ i j, i < A.rows → j < A.columns → A.elem i j = B.elem i j) : A = B := by
  apply eq_of_cells A B hA hB hr hc
  intro k hk
  obtain ⟨h1, h2, h3⟩ := elem_offset A k hk
  obtain ⟨_, _, h6⟩ := elem_offset B k (by rw [← hr, ← hc]; exact hk)
  rw [← h3, ← h6, ← hc]
  exact h _ _ h1 h2

theorem operatorEq_iff_eq (s : Bool) (A B : Matrix K) (hA : A.WellFormed) (hB : B.WellFormed)
    (hs : s = true → A = B) : operatorEq s A B = .ok true ↔ A = B := by
  cases s with
  | true => simp [operatorEq, hs rfl]
  | false =>
    by_cases hshape : A.rows ≠ B.rows ∨ A.columns ≠ B.columns
    · simp only [operatorEq, Bool.false_eq_true, if_false, hshape, if_true]
      constructor
      · intro h; simp at h
      · intro h
        rw [h] at hshape
        simp at hshape
    · have hr : A.rows = B.rows := by tauto
      have hc : A.columns = B.columns := by tauto
      obtain ⟨r, h1, h2⟩ := eqLoop_spec A B (A.rows * A.columns) 0
        (by rw [hA]; omega) (by rw [hB, hr, hc]; omega)
      simp only [operatorEq, Bool.false_eq_true, if_false, hshape, h1]
      constructor
      · intro h
        have hrt : r = true := by simpa using h
        apply eq_of_cells A B hA hB hr hc
        intro k hk
        exact h2.mp hrt k (Nat.zero_le _) (by omega)
      · intro h
        have hrt : r = true := by
          rw [h2]
          intro k _ _
          rw [h]
        rw [hrt]

theorem operatorEq_total (s : Bool) (A B : Matrix K) (hA : A.WellFormed) (hB : B.WellFormed) :
    ∃ r, operatorEq s A B = .ok r := by
  cases s with
  | true => exact ⟨true, by simp [operatorEq]⟩
  | false =>
    by_cases hshape : A.rows ≠ B.rows ∨ A.columns ≠ B.columns
    · exact ⟨false, by simp [operatorEq, hshape]⟩
    · have hr : A.rows = B.rows := by tauto
      have hc : A.columns = B.columns := by tauto
      obtain ⟨r, h1, _⟩ := eqLoop_spec A B (A.rows * A.columns) 0
        (by rw [hA]; omega) (by rw [hB, hr, hc]; omega)
      exact ⟨r, by simp only [operatorEq, Bool.false_eq_true, if_false, hshape, h1]⟩

end EqualityLemmas

/-! ## Buffers written cell by cell -/

section FillLemmas
variable {K : Type} [LinearOrderedField K]

theorem ofCells_wellFormed (r c : Nat) (f : Nat → K) : (Matrix.ofCells r c f).WellFormed := by
  simp [Matrix.ofCells, Matrix.WellFormed]

theorem ofCells_getD (r c : Nat) (f : Nat → K) (k : Nat) (hk : k < r * c) :
    (Matrix.ofCells r c f).pMem.getD k 0 = f k := by
  simp [Matrix.ofCells, List.getD_eq_getElem?_getD, List.getElem?_map, List.getElem?_range hk]

theorem ofCells_elem (r c : Nat) (f : Nat → K) (i j : Nat) (hi : i < r) (hj : j < c) :
    (Matrix.ofCells r c f).elem i j = f (i * c + j) := by
  have h := ofCells_getD r c f (i * c + j) (offset_lt hi hj)
  simpa [Matrix.elem, Matrix.ofCells] using h

theorem eq_ofCells (m : Matrix K) (r c : Nat) (f : Nat → K) (hr : m.rows = r)
    (hc : m.columns = c) (hlen : m.pMem.length = r * c)
    (h : ∀ k, k < r * c → m.pMem.getD k 0 = f k) : m = Matrix.ofCells r c f := by
  apply eq_of_cells m _ (by rw [Matrix.WellFormed, hlen, hr, hc]) (ofCells_wellFormed r c f)
    (by simp [Matrix.ofCells, hr]) (by simp [Matrix.ofCells, hc])
  intro k hk
  rw [hr, hc] at hk
  rw [h k hk, ofCells_getD r c f k hk]

theorem ofCells_congr (r c : Nat) (f g : Nat → K) (h : ∀ k, k < r * c → f k = g k) :
    Matrix.ofCells r c f = Matrix.ofCells r c g := by
  refine eq_ofCells _ r c g rfl rfl (ofCells_wellFormed r c f) ?_
  intro k hk
  rw [ofCells_getD r c f k hk, h k hk]

theorem getD_set (l : List K) (i k : Nat) (x : K) (hi : i < l.length) :
    (l.set i x).getD k 0 = if k = i then x else l.getD k 0 := by
  by_cases hk : k = i
  · subst hk
    simp [List.getD_eq_getElem?_getD, hi]
  · have hne : i ≠ k := fun h => hk h.symm
    simp [List.getD_eq_getElem?_getD, List.getElem?_set_ne hne, hk]

theorem write_ok (m : Matrix K) (off : Nat) (x : K) (h : off < m.pMem.length) :
    m.write off x = .ok ⟨m.rows, m.columns, m.pMem.set off x⟩ := by
  simp [Matrix.write, h]

theorem sizeMul_fits {r c : Nat} (h : fits r c) : sizeMul r c = r * c :=
  Nat.mod_eq_of_lt h.2

theorem sized_ok (r c : Nat) (h : fits r c) :
    (Matrix.sized r c : Except Error (Matrix K)) = .ok (Matrix.zeros r c) := by
  have hne : ¬ r * c = 0 := by have := h.1; omega
  simp only [Matrix.sized, newArray, sizeMul_fits h, if_neg hne, Matrix.zeros]

theorem sized_empty (r c : Nat) (h : sizeMul r c = 0) :
    (Matrix.sized r c : Except Error (Matrix K)) = .error .bad_array_new_length := by
  simp only [Matrix.sized, newArray, h, if_true]

theorem fill_spec (r c : Nat) (f : Nat → K)
    (body : Nat → Matrix K → Except Error (Matrix K))
    (hbody : ∀ i res, i < r * c → body i res = res.write i (f i)) :
    forM 0 (r * c) body (Matrix.zeros r c) = .ok (Matrix.ofCells r c f) := by
  obtain ⟨res, h1, hr, hc, hlen, hcells⟩ := forM_invariant body
    (fun i res => res.rows = r ∧ res.columns = c ∧ res.pMem.length = r * c ∧
      ∀ k, k < i → res.pMem.getD k 0 = f k)
    0 (r * c) (Matrix.zeros r c) (Nat.zero_le _)
    ⟨rfl, rfl, by simp [Matrix.zeros], fun k hk => absurd hk (Nat.not_lt_zero k)⟩
    (by
      intro i res _ hi ⟨hr, hc, hlen, hcells⟩
      refine ⟨⟨res.rows, res.columns, res.pMem.set i (f i)⟩, ?_, hr, hc, ?_, ?_⟩
      · rw [hbody i res hi]
        exact write_ok res i (f i) (by rw [hlen]; exact hi)
      · simp [hlen]
      · intro k hk
        show (res.pMem.set i (f i)).getD k 0 = f k
        rw [getD_set _ _ _ _ (by rw [hlen]; exact hi)]
        by_cases hki : k = i
        · simp [hki]
        · simp only [hki, if_false]
          exact hcells k (by omega))
  rw [h1, eq_ofCells res r c f hr hc hlen hcells]

theorem operatorAdd_spec (lhs rhs : Matrix K) (hl : lhs.WellFormed) (hr : rhs.WellFormed)
    (hrows : lhs.rows = rhs.rows) (hcols : lhs.columns = rhs.columns)
    (hfit : fits lhs.rows lhs.columns) :
    operatorAdd lhs rhs = .ok (Matrix.ofCells lhs.rows lhs.columns
      (fun k => lhs.pMem.getD k 0 + rhs.pMem.getD k 0)) := by
  have hshape : ¬ (lhs.rows ≠ rhs.rows ∨ lhs.columns ≠ rhs.columns) := by
    simp [hrows, hcols]
  simp only [operatorAdd, hshape, if_false, sized_ok _ _ hfit, sizeMul_fits hfit]
  apply fill_spec
  intro i res hi
  rw [read_getD lhs i (by rw [hl]; exact hi),
    read_getD rhs i (by rw [hr, ← hrows, ← hcols]; exact hi)]

theorem operatorScale_spec (lhs : Matrix K) (alpha : K) (hl : lhs.WellFormed)
    (hfit : fits lhs.rows lhs.columns) :
    operatorScale lhs alpha = .ok (Matrix.ofCells lhs.rows lhs.columns
      (fun k => lhs.pMem.getD k 0 * alpha)) := by
  simp only [operatorScale, sized_ok _ _ hfit, sizeMul_fits hfit]
  apply fill_spec
  intro i res hi
  rw [read_getD lhs i (by rw [hl]; exact hi)]

theorem operatorSub_spec (lhs rhs : Matrix K) (hl : lhs.WellFormed) (hr : rhs.WellFormed)
    (hrows : lhs.rows = rhs.rows) (hcols : lhs.columns = rhs.columns)
    (hfit : fits lhs.rows lhs.columns) :
    operatorSub lhs rhs = .ok (Matrix.ofCells lhs.rows lhs.columns
      (fun k => lhs.pMem.getD k 0 - rhs.pMem.getD k 0)) := by
  have hfit' : fits rhs.rows rhs.columns := by rw [← hrows, ← hcols]; exact hfit
  simp only [operatorSub, operatorScale_spec rhs (-1) hr hfit']
  rw [operatorAdd_spec lhs _ hl (ofCells_wellFormed _ _ _) hrows hcols hfit]
  congr 1
  apply ofCells_congr
  intro k hk
  rw [ofCells_getD rhs.rows rhs.columns _ k (by rw [← hrows, ← hcols]; exact hk)]
  ring

end FillLemmas

/-! ## The matrix product -/

section ProductLemmas
variable {K : Type} [LinearOrderedField K]

theorem dot_succ (lhs rhs : Matrix K) (i j t : Nat) :
    dot lhs rhs i j (t + 1) = dot lhs rhs i j t + lhs.elem i t * rhs.elem t j := by
  simp [dot, List.range_succ]

theorem dot_eq_sum (lhs rhs : Matrix K) (i j t : Nat) :
    dot lhs rhs i j t = ∑ k in Finset.range t, lhs.elem i k * rhs.elem k j := by
  induction t with
  | zero => simp [dot]
  | succ t ih => rw [dot_succ, Finset.sum_range_succ, ih]

theorem offset_div_mod (c i j : Nat) (hj : j < c) : (i * c + j) / c = i ∧ (i * c + j) % c = j := by
  have hc : 0 < c := by omega
  constructor
  · rw [Nat.add_comm, Nat.add_mul_div_right _ _ hc, Nat.div_eq_of_lt hj, Nat.zero_add]
  · rw [Nat.add_comm, Nat.add_mul_mod_self_right, Nat.mod_eq_of_lt hj]

theorem mulCell_spec (lhs rhs : Matrix K) (hl : lhs.WellFormed) (hr : rhs.WellFormed)
    (hinner : lhs.columns = rhs.rows) (i j t : Nat) (hi : i < lhs.rows) (hj : j < rhs.columns)
    (ht : t < lhs.columns) (res : Matrix K)
    (hlen : res.pMem.length = lhs.rows * rhs.columns)
    (hcur : res.pMem.getD (i * rhs.columns + j) 0 = dot lhs rhs i j t) :
    mulCell lhs rhs i j t res = .ok ⟨res.rows, res.columns,
      res.pMem.set (i * rhs.columns + j) (dot lhs rhs i j (t + 1))⟩ := by
  have hoff : i * rhs.columns + j < res.pMem.length := by
    rw [hlen]; exact offset_lt hi hj
  simp only [mulCell, get_eq_elem lhs hl i t hi ht,
    get_eq_elem rhs hr t j (by rw [← hinner]; exact ht) hj, read_getD res _ hoff,
    write_ok res _ _ hoff, hcur, dot_succ]

theorem mulCell_loop (lhs rhs : Matrix K) (hl : lhs.WellFormed) (hr : rhs.WellFormed)
    (hinner : lhs.columns = rhs.rows) (i j : Nat) (hi : i < lhs.rows) (hj : j < rhs.columns)
    (res : Matrix K) (hres : mulDone lhs rhs (i * rhs.columns + j) res) :
    ∃ res', forM 0 lhs.columns (fun k res => mulCell lhs rhs i j k res) res = .ok res' ∧
      mulDone lhs rhs (i * rhs.columns + j + 1) res' := by
  obtain ⟨h1, h2, h3, h4⟩ := hres
  obtain ⟨res', hrun, g1, g2, g3, g4⟩ := forM_invariant
    (fun k res => mulCell lhs rhs i j k res)
    (fun t res => res.rows = lhs.rows ∧ res.columns = rhs.columns ∧
      res.pMem.length = lhs.rows * rhs.columns ∧
      ∀ o, o < lhs.rows * rhs.columns → res.pMem.getD o 0 =
        if o < i * rhs.columns + j
        then dot lhs rhs (o / rhs.columns) (o % rhs.columns) lhs.columns
        else if o = i * rhs.columns + j then dot lhs rhs i j t else 0)
    0 lhs.columns res (Nat.zero_le _)
    ⟨h1, h2, h3, by
      intro o ho
      rw [h4 o ho]
      by_cases h5 : o < i * rhs.columns + j
      · simp [h5]
      · by_cases h6 : o = i * rhs.columns + j
        · simp [h6, dot]
        · simp [h5, h6]⟩
    (by
      intro t st _ ht ⟨s1, s2, s3, s4⟩
      have hoff : i * rhs.columns + j < lhs.rows * rhs.columns := offset_lt hi hj
      have hcur : st.pMem.getD (i * rhs.columns + j) 0 = dot lhs rhs i j t := by
        rw [s4 _ hoff]; simp
      refine ⟨_, mulCell_spec lhs rhs hl hr hinner i j t hi hj ht st s3 hcur, s1, s2, ?_, ?_⟩
      · simp [s3]
      · intro o ho
        show (st.pMem.set (i * rhs.columns + j) (dot lhs rhs i j (t + 1))).getD o 0 = _
        rw [getD_set _ _ _ _ (by rw [s3]; exact hoff)]
        by_cases h6 : o = i * rhs.columns + j
        · simp [h6]
        · simp only [h6, if_false]
          rw [s4 o ho]
          simp [h6])
  refine ⟨res', hrun, g1, g2, g3, ?_⟩
  intro o ho
  rw [g4 o ho]
  obtain ⟨d1, d2⟩ := offset_div_mod rhs.columns i j hj
  by_cases h5 : o < i * rhs.columns + j
  · have h7 : o < i * rhs.columns + j + 1 := by omega
    simp [h5, h7]
  · by_cases h6 : o = i * rhs.columns + j
    · have h7 : o < i * rhs.columns + j + 1 := by omega
      simp only [h5, if_false, h6, if_true, h7]
      rw [← h6] at d1 d2
      simp [h6, d1, d2, offset_div_mod rhs.columns i j hj]
    · have h7 : ¬ o < i * rhs.columns + j + 1 := by omega
      simp [h5, h6, h7]

theorem mulRow_loop (lhs rhs : Matrix K) (hl : lhs.WellFormed) (hr : rhs.WellFormed)
    (hinner : lhs.columns = rhs.rows) (i : Nat) (hi : i < lhs.rows)
    (res : Matrix K) (hres : mulDone lhs rhs (i * rhs.columns) res) :
    ∃ res', forM 0 rhs.columns
        (fun j res => forM 0 lhs.columns (fun k res => mulCell lhs rhs i j k res) res) res
        = .ok res' ∧
      mulDone lhs rhs ((i + 1) * rhs.columns) res' := by
  have h := forM_invariant
    (fun j res => forM 0 lhs.columns (fun k res => mulCell lhs rhs i j k res) res)
    (fun j res => mulDone lhs rhs (i * rhs.columns + j) res)
    0 rhs.columns res (Nat.zero_le _) (by simpa using hres)
    (by
      intro j st _ hj hst
      exact mulCell_loop lhs rhs hl hr hinner i j hi hj st hst)
  have hsum : i * rhs.columns + rhs.columns = (i + 1) * rhs.columns := by ring
  obtain ⟨res', h1, h2⟩ := h
  refine ⟨res', h1, ?_⟩
  rw [← hsum]
  exact h2

theorem operatorMul_spec (lhs rhs : Matrix K) (hl : lhs.WellFormed) (hr : rhs.WellFormed)
    (hinner : lhs.columns = rhs.rows) (hfit : fits lhs.rows rhs.columns) :
    operatorMul lhs rhs = .ok (Matrix.ofCells lhs.rows rhs.columns
      (fun o => dot lhs rhs (o / rhs.columns) (o % rhs.columns) lhs.columns)) := by
  obtain ⟨res, hrun, h1, h2, h3, h4⟩ := forM_invariant
    (fun i res => forM 0 rhs.columns
      (fun j res => forM 0 lhs.columns (fun k res => mulCell lhs rhs i j k res) res) res)
    (fun i res => mulDone lhs rhs (i * rhs.columns) res)
    0 lhs.rows (Matrix.zeros lhs.rows rhs.columns) (Nat.zero_le _)
    ⟨rfl, rfl, by simp [Matrix.zeros], by
      intro o ho
      simp [Matrix.zeros, List.getD_eq_getElem?_getD, List.getElem?_replicate, ho]⟩
    (by
      intro i st _ hi hst
      exact mulRow_loop lhs rhs hl hr hinner i hi st hst)
  have hne : ¬ lhs.columns ≠ rhs.rows := by simp [hinner]
  simp only [operatorMul, hne, if_false, sized_ok _ _ hfit]
  rw [hrun]
  congr 1
  apply eq_ofCells res _ _ _ h1 h2 h3
  intro o ho
  rw [h4 o ho]
  simp [ho]

theorem operatorMul_elem (lhs rhs res : Matrix K) (hl : lhs.WellFormed) (hr : rhs.WellFormed)
    (hinner : lhs.columns = rhs.rows) (hfit : fits lhs.rows rhs.columns)
    (hres : operatorMul lhs rhs = .ok res)
    (i j : Nat) (hi : i < lhs.rows) (hj : j < rhs.columns) :
    res.elem i j = ∑ k in Finset.range lhs.columns, lhs.elem i k * rhs.elem k j := by
  rw [operatorMul_spec lhs rhs hl hr hinner hfit] at hres
  have hres' := Except.ok.inj hres
  rw [← hres', ofCells_elem _ _ _ i j hi hj]
  obtain ⟨d1, d2⟩ := offset_div_mod rhs.columns i j hj
  rw [d1, d2, dot_eq_sum]

end ProductLemmas

/-! ## The loops of the solver in closed form -/

section SolverLoops
variable {K : Type} [LinearOrderedField K]

theorem put_cell (sys : Sys K) (r c : Nat) (x : K) (r' c' : Nat) :
    (sys.put r c x).cell r' c' = if r' = r ∧ c' = c then x else sys.cell r' c' := rfl

theorem searchPivot_spec (sys : Sys K) (n i : Nat) (hi : i < n) :
    i ≤ (searchPivot sys n i).2 ∧ (searchPivot sys n i).2 < n ∧
      ∀ j, i ≤ j → j < n → |sys.cell j i| ≤ |sys.cell (searchPivot sys n i).2 i| := by
  have h := forLoop_invariant
    (fun j (st : K × Nat) => if |sys.cell j i| > st.1 then (|sys.cell j i|, j) else st)
    (fun j st => st.1 = |sys.cell st.2 i| ∧ i ≤ st.2 ∧ st.2 < j ∧
      ∀ j', i ≤ j' → j' < j → |sys.cell j' i| ≤ st.1)
    (i + 1) n (|sys.cell i i|, i) (by omega)
    ⟨rfl, le_refl _, by simp, by
      intro j' h1 h2
      have : j' = i := by omega
      rw [this]⟩
    (by
      intro j st hj1 hj2 ⟨h1, h2, h3, h4⟩
      by_cases hgt : |sys.cell j i| > st.1
      · beta_reduce
        rw [if_pos hgt]
        refine ⟨rfl, by omega, by omega, ?_⟩
        intro j' g1 g2
        by_cases hjj : j' = j
        · rw [hjj]
        · exact le_trans (h4 j' g1 (by omega)) (le_of_lt hgt)
      · beta_reduce
        rw [if_neg hgt]
        refine ⟨h1, h2, by omega, ?_⟩
        intro j' g1 g2
        by_cases hjj : j' = j
        · rw [hjj]; exact not_lt.mp hgt
        · exact h4 j' g1 (by omega))
  obtain ⟨h1, h2, h3, h4⟩ := h
  refine ⟨h2, h3, ?_⟩
  intro j g1 g2
  unfold searchPivot
  rw [← h1]
  exact h4 j g1 g2

theorem swapRows_spec (sys : Sys K) (n i maxRow : Nat) (r c : Nat) :
    (swapRows sys n i maxRow).cell r c =
      if i ≤ c ∧ c < n + 1 then
        (if r = i then sys.cell maxRow c else if r = maxRow then sys.cell i c else sys.cell r c)
      else sys.cell r c := by
  by_cases hin : i ≤ n + 1
  · have h := forLoop_invariant
      (fun j (s : Sys K) =>
        let tmp := s.cell maxRow j
        (s.put maxRow j (s.cell i j)).put i j tmp)
      (fun j s => ∀ r c, s.cell r c =
        if i ≤ c ∧ c < j then
          (if r = i then sys.cell maxRow c else if r = maxRow then sys.cell i c
            else sys.cell r c)
        else sys.cell r c)
      i (n + 1) sys hin
      (by
        intro r c
        have : ¬ (i ≤ c ∧ c < i) := by omega
        simp [this])
      (by
        intro j s hj1 hj2 hs r c
        simp only [put_cell]
        rw [hs maxRow j, hs i j, hs r c]
        have hjj : ¬ (i ≤ j ∧ j < j) := by omega
        simp only [hjj, if_false]
        by_cases hc : c = j
        · subst hc
          have h1 : i ≤ c ∧ c < c + 1 := by omega
          simp only [h1, and_true, hjj, if_false, if_true, and_self]
          by_cases hri : r = i
          · simp [hri]
          · by_cases hrm : r = maxRow
            · simp [hri, hrm]
            · simp [hri, hrm]
        · have h1 : (i ≤ c ∧ c < j + 1) ↔ (i ≤ c ∧ c < j) := by omega
          simp only [hc, and_false, if_false, h1])
    exact h r c
  · have hempty : swapRows sys n i maxRow = sys := forLoop_empty _ _ _ _ (by omega)
    have hc : ¬ (i ≤ c ∧ c < n + 1) := by omega
    rw [hempty]
    simp [hc]

theorem eliminateRow_spec (sys : Sys K) (n i j : Nat) (hij : j ≠ i) (r c : Nat) :
    (eliminateRow sys n i j).cell r c =
      if r = j ∧ i ≤ c ∧ c < n + 1 then
        (if c = i then 0
          else sys.cell j c + (-(sys.cell j i) / sys.cell i i) * sys.cell i c)
      else sys.cell r c := by
  by_cases hin : i ≤ n + 1
  · have h := forLoop_invariant
      (fun k (s : Sys K) =>
        if i = k then s.put j k 0
        else s.put j k (s.cell j k + (-(sys.cell j i) / sys.cell i i) * s.cell i k))
      (fun k s => ∀ r c, s.cell r c =
        if r = j ∧ i ≤ c ∧ c < k then
          (if c = i then 0
            else sys.cell j c + (-(sys.cell j i) / sys.cell i i) * sys.cell i c)
        else sys.cell r c)
      i (n + 1) sys hin
      (by
        intro r c
        have : ¬ (r = j ∧ i ≤ c ∧ c < i) := by omega
        simp [this])
      (by
        intro k s hk1 hk2 hs r c
        have hjk : s.cell j k = sys.cell j k := by
          rw [hs j k]
          have : ¬ (j = j ∧ i ≤ k ∧ k < k) := by omega
          simp [this]
        have hik : s.cell i k = sys.cell i k := by
          rw [hs i k]
          have : ¬ (i = j ∧ i ≤ k ∧ k < k) := by omega
          simp [this]
        by_cases hcell : r = j ∧ c = k
        · obtain ⟨hr, hc⟩ := hcell
          subst hr hc
          have h1 : r = r ∧ i ≤ c ∧ c < c + 1 := by omega
          simp only [h1, and_self, if_true]
          by_cases hic : i = c
          · simp [hic, put_cell]
          · have hci : ¬ c = i := fun h => hic h.symm
            simp [hic, hci, put_cell, hjk, hik]
        · have h1 : (r = j ∧ i ≤ c ∧ c < k + 1) ↔ (r = j ∧ i ≤ c ∧ c < k) := by omega
          simp only [h1]
          rw [← hs r c]
          by_cases hic : i = k
          · simp [hic, put_cell, hcell]
          · simp [hic, put_cell, hcell])
    exact h r c
  · have hempty : eliminateRow sys n i j = sys := forLoop_empty _ _ _ _ (by omega)
    have hc : ¬ (r = j ∧ i ≤ c ∧ c < n + 1) := by omega
    rw [hempty]
    simp [hc]

theorem eliminateBelow_spec (sys : Sys K) (n i : Nat) (r c : Nat) :
    (eliminateBelow sys n i).cell r c =
      if i < r ∧ r < n ∧ i ≤ c ∧ c < n + 1 then
        (if c = i then 0
          else sys.cell r c + (-(sys.cell r i) / sys.cell i i) * sys.cell i c)
      else sys.cell r c := by
  by_cases hin : i + 1 ≤ n
  · have h := forLoop_invariant
      (fun j (s : Sys K) => eliminateRow s n i j)
      (fun j s => ∀ r c, s.cell r c =
        if i < r ∧ r < j ∧ i ≤ c ∧ c < n + 1 then
          (if c = i then 0
            else sys.cell r c + (-(sys.cell r i) / sys.cell i i) * sys.cell i c)
        else sys.cell r c)
      (i + 1) n sys hin
      (by
        intro r c
        have : ¬ (i < r ∧ r < i + 1 ∧ i ≤ c ∧ c < n + 1) := by omega
        simp [this])
      (by
        intro j s hj1 hj2 hs r c
        have hrow : ∀ c, s.cell j c = sys.cell j c := by
          intro c
          rw [hs j c]
          have : ¬ (i < j ∧ j < j ∧ i ≤ c ∧ c < n + 1) := by omega
          simp [this]
        have hpiv : ∀ c, s.cell i c = sys.cell i c := by
          intro c
          rw [hs i c]
          have : ¬ (i < i ∧ i < j ∧ i ≤ c ∧ c < n + 1) := by omega
          simp [this]
        rw [eliminateRow_spec s n i j (by omega) r c]
        by_cases hrj : r = j
        · subst hrj
          by_cases hc : i ≤ c ∧ c < n + 1
          · have h1 : r = r ∧ i ≤ c ∧ c < n + 1 := ⟨rfl, hc⟩
            have h2 : i < r ∧ r < r + 1 ∧ i ≤ c ∧ c < n + 1 := by omega
            rw [if_pos h1, if_pos h2]
            simp only [hrow, hpiv]
          · have h1 : ¬ (r = r ∧ i ≤ c ∧ c < n + 1) := by tauto
            have h2 : ¬ (i < r ∧ r < r + 1 ∧ i ≤ c ∧ c < n + 1) := by tauto
            rw [if_neg h1, if_neg h2]
            exact hrow c
        · have h1 : ¬ (r = j ∧ i ≤ c ∧ c < n + 1) := by tauto
          have h2 : (i < r ∧ r < j + 1 ∧ i ≤ c ∧ c < n + 1) ↔
              (i < r ∧ r < j ∧ i ≤ c ∧ c < n + 1) := by omega
          simp only [h1, if_false, h2]
          exact hs r c)
    exact h r c
  · have hempty : eliminateBelow sys n i = sys := forLoop_empty _ _ _ _ (by omega)
    have hc : ¬ (i < r ∧ r < n ∧ i ≤ c ∧ c < n + 1) := by omega
    rw [hempty]
    simp [hc]

end SolverLoops

/-! ## Row operations keep the solutions -/

section RowOperations
variable {K : Type} [LinearOrderedField K]

theorem row_sum_congr (n : Nat) (s1 s2 : Sys K) (r1 r2 : Nat) (x : Nat → K)
    (h : ∀ c, c < n + 1 → s2.cell r2 c = s1.cell r1 c) :
    ∑ c in Finset.range n, s2.cell r2 c * x c = ∑ c in Finset.range n, s1.cell r1 c * x c := by
  apply Finset.sum_congr rfl
  intro c hc
  rw [h c (by have := Finset.mem_range.mp hc; omega)]

theorem satisfies_rowSwap (n : Nat) (s1 s0 : Sys K) (p : Nat → Nat)
    (hp : ∀ r, r < n → p r < n) (hinv : ∀ r, r < n → p (p r) = r)
    (h : ∀ r c, r < n → c < n + 1 → s1.cell r c = s0.cell (p r) c) (x : Nat → K) (t : K) :
    s1.satisfies n x t ↔ s0.satisfies n x t := by
  constructor
  · intro hs r hr
    have h1 := hs (p r) (hp r hr)
    rw [row_sum_congr n s0 s1 r (p r) x (by
      intro c hc
      rw [h (p r) c (hp r hr) hc, hinv r hr]), h (p r) n (hp r hr) (by omega), hinv r hr] at h1
    exact h1
  · intro hs r hr
    rw [row_sum_congr n s0 s1 (p r) r x (fun c hc => h r c hr hc), h r n hr (by omega)]
    exact hs (p r) (hp r hr)

theorem satisfies_rowAdd (n i : Nat) (hi : i < n) (s1 s2 : Sys K) (m : Nat → K)
    (hm : m i = 0)
    (h : ∀ r c, r < n → c < n + 1 → s2.cell r c = s1.cell r c + m r * s1.cell i c)
    (x : Nat → K) (t : K) :
    s2.satisfies n x t ↔ s1.satisfies n x t := by
  have hsum : ∀ r, r < n → ∑ c in Finset.range n, s2.cell r c * x c =
      ∑ c in Finset.range n, s1.cell r c * x c +
        m r * ∑ c in Finset.range n, s1.cell i c * x c := by
    intro r hr
    rw [Finset.mul_sum, ← Finset.sum_add_distrib]
    apply Finset.sum_congr rfl
    intro c hc
    rw [h r c hr (by have := Finset.mem_range.mp hc; omega)]
    ring
  constructor
  · intro hs
    have hrow : ∑ c in Finset.range n, s1.cell i c * x c = t * s1.cell i n := by
      have h1 := hs i hi
      rw [hsum i hi, h i n hi (by omega), hm] at h1
      simpa using h1
    intro r hr
    have h1 := hs r hr
    rw [hsum r hr, h r n hr (by omega), hrow] at h1
    linear_combination h1
  · intro hs r hr
    rw [hsum r hr, h r n hr (by omega), hs r hr, hs i hi]
    ring

theorem pivotStep_cells (n i : Nat) (hi : i < n) (sys : Sys K) (hz : sys.lowerZero n i) :
    ∃ (s1 : Sys K) (p : Nat → Nat) (m : Nat → K),
      (∀ r, r < n → p r < n) ∧ (∀ r, r < n → p (p r) = r) ∧ m i = 0 ∧
      (∀ r c, r < n → c < n + 1 → s1.cell r c = sys.cell (p r) c) ∧
      (∀ r c, r < n → c < n + 1 →
        (pivotStep n i sys).cell r c = s1.cell r c + m r * s1.cell i c) ∧
      (pivotStep n i sys).lowerZero n (i + 1) ∧
      (∀ r, r ≤ i → ∀ c, (pivotStep n i sys).cell r c = s1.cell r c) ∧
      (∀ r, r < i → ∀ c, s1.cell r c = sys.cell r c) := by
  obtain ⟨hp1, hp2, hp3⟩ := searchPivot_spec sys n i hi
  generalize hq : (searchPivot sys n i).2 = q at hp1 hp2 hp3
  have hstep : pivotStep n i sys = eliminateBelow (swapRows sys n i q) n i := by
    simp only [pivotStep, hq]
  have hswap : ∀ r c, r < n → c < n + 1 →
      (swapRows sys n i q).cell r c = sys.cell (if r = i then q else if r = q then i else r) c := by
    intro r c hr hc
    rw [swapRows_spec]
    by_cases hic : i ≤ c
    · have h1 : i ≤ c ∧ c < n + 1 := ⟨hic, hc⟩
      rw [if_pos h1]
      by_cases hri : r = i
      · rw [if_pos hri, if_pos hri]
      · by_cases hrq : r = q
        · rw [if_neg hri, if_pos hrq, if_neg hri, if_pos hrq]
        · rw [if_neg hri, if_neg hrq, if_neg hri, if_neg hrq]
    · have h1 : ¬ (i ≤ c ∧ c < n + 1) := by omega
      rw [if_neg h1]
      by_cases hri : r = i
      · rw [if_pos hri, hri, hz i c (by omega) (by omega) hi, hz q c (by omega) (by omega) hp2]
      · by_cases hrq : r = q
        · rw [if_neg hri, if_pos hrq, hrq,
            hz i c (by omega) (by omega) hi, hz q c (by omega) (by omega) hp2]
        · rw [if_neg hri, if_neg hrq]
  have hz1 : (swapRows sys n i q).lowerZero n i := by
    intro r c h1 h2 h3
    rw [swapRows_spec]
    have h4 : ¬ (i ≤ c ∧ c < n + 1) := by omega
    rw [if_neg h4]
    exact hz r c h1 h2 h3
  have hmax : ∀ r, i ≤ r → r < n →
      |(swapRows sys n i q).cell r i| ≤ |(swapRows sys n i q).cell i i| := by
    intro r h1 h2
    rw [hswap r i h2 (by omega), hswap i i hi (by omega), if_pos rfl]
    by_cases hri : r = i
    · rw [if_pos hri]
    · rw [if_neg hri]
      by_cases hrq : r = q
      · rw [if_pos hrq]; exact hp3 i (le_refl _) hi
      · rw [if_neg hrq]; exact hp3 r h1 h2
  refine ⟨swapRows sys n i q, fun r => if r = i then q else if r = q then i else r,
    fun r => if i < r then
      -((swapRows sys n i q).cell r i) / (swapRows sys n i q).cell i i else 0,
    ?_, ?_, by simp, hswap, ?_, ?_, ?_, ?_⟩
  · intro r hr
    beta_reduce
    by_cases hri : r = i
    · rw [if_pos hri]; exact hp2
    · by_cases hrq : r = q
      · rw [if_neg hri, if_pos hrq]; exact hi
      · rw [if_neg hri, if_neg hrq]; exact hr
  · intro r hr
    beta_reduce
    by_cases hri : r = i
    · rw [if_pos hri]
      by_cases hqi : q = i
      · rw [if_pos hqi, hqi, hri]
      · rw [if_neg hqi, if_pos rfl, hri]
    · by_cases hrq : r = q
      · rw [if_neg hri, if_pos hrq, if_pos rfl, hrq]
      · rw [if_neg hri, if_neg hrq, if_neg hri, if_neg hrq]
  · intro r c hr hc
    rw [hstep, eliminateBelow_spec]
    beta_reduce
    by_cases hir : i < r
    · rw [if_pos hir]
      by_cases hic : i ≤ c
      · have h1 : i < r ∧ r < n ∧ i ≤ c ∧ c < n + 1 := ⟨hir, hr, hic, hc⟩
        rw [if_pos h1]
        by_cases hci : c = i
        · rw [if_pos hci, hci]
          by_cases hpiv : (swapRows sys n i q).cell i i = 0
          · have h2 := hmax r (le_of_lt hir) hr
            rw [hpiv, abs_zero] at h2
            have h3 : (swapRows sys n i q).cell r i = 0 := abs_eq_zero.mp (le_antisymm h2 (abs_nonneg _))
            rw [h3, hpiv]
            simp
          · field_simp
        · rw [if_neg hci]
      · have h1 : ¬ (i < r ∧ r < n ∧ i ≤ c ∧ c < n + 1) := by omega
        rw [if_neg h1, hz1 i c (by omega) (by omega) hi]
        simp
    · have h1 : ¬ (i < r ∧ r < n ∧ i ≤ c ∧ c < n + 1) := by omega
      rw [if_neg h1, if_neg hir]
      simp
  · intro r c h1 h2 h3
    rw [hstep, eliminateBelow_spec]
    by_cases hci : c = i
    · have h4 : i < r ∧ r < n ∧ i ≤ c ∧ c < n + 1 := by omega
      rw [if_pos h4, if_pos hci]
    · have h4 : ¬ (i < r ∧ r < n ∧ i ≤ c ∧ c < n + 1) := by omega
      rw [if_neg h4]
      exact hz1 r c (by omega) h2 h3
  · intro r hr c
    rw [hstep, eliminateBelow_spec]
    have h4 : ¬ (i < r ∧ r < n ∧ i ≤ c ∧ c < n + 1) := by omega
    rw [if_neg h4]
  · intro r hr c
    rw [swapRows_spec]
    by_cases h1 : i ≤ c ∧ c < n + 1
    · rw [if_pos h1, if_neg (by omega), if_neg (by omega)]
    · rw [if_neg h1]

theorem pivotStep_satisfies (n i : Nat) (hi : i < n) (sys : Sys K) (hz : sys.lowerZero n i)
    (x : Nat → K) (t : K) :
    (pivotStep n i sys).satisfies n x t ↔ sys.satisfies n x t := by
  obtain ⟨s1, p, m, h1, h2, h3, h4, h5, _, _, _⟩ := pivotStep_cells n i hi sys hz
  rw [satisfies_rowAdd n i hi s1 (pivotStep n i sys) m h3 h5 x t]
  exact satisfies_rowSwap n s1 sys p h1 h2 h4 x t

theorem forwardElimination_spec (n : Nat) (sys : Sys K) :
    (forwardElimination n sys).lowerZero n n ∧
      ∀ x t, (forwardElimination n sys).satisfies n x t ↔ sys.satisfies n x t := by
  exact forLoop_invariant (fun i s => pivotStep n i s)
    (fun i s => s.lowerZero n i ∧ ∀ x t, s.satisfies n x t ↔ sys.satisfies n x t)
    0 n sys (Nat.zero_le _)
    ⟨fun r c hc _ _ => absurd hc (Nat.not_lt_zero c), fun x t => Iff.rfl⟩
    (by
      intro i s _ hi ⟨hz, hs⟩
      obtain ⟨_, _, _, _, _, _, _, _, hz', _, _⟩ := pivotStep_cells n i hi s hz
      refine ⟨hz', ?_⟩
      intro x t
      rw [pivotStep_satisfies n i hi s hz x t]
      exact hs x t)

end RowOperations

/-! ## Back substitution -/

section BackSubstitution
variable {K : Type} [LinearOrderedField K]

theorem backInner_spec (n i : Nat) (hi : i < n) (s : Sys K) (y : K) (r c : Nat) :
    (forDown (fun j (sys : Sys K) => sys.put j n (sys.cell j n - sys.cell j i * y)) i s).cell r c =
      if r < i ∧ c = n then s.cell r n - s.cell r i * y else s.cell r c := by
  have h := forDown_invariant
    (fun j (sys : Sys K) => sys.put j n (sys.cell j n - sys.cell j i * y))
    (fun j s' => ∀ r c, s'.cell r c =
      if j ≤ r ∧ r < i ∧ c = n then s.cell r n - s.cell r i * y else s.cell r c)
    i s
    (by
      intro r c
      have : ¬ (i ≤ r ∧ r < i ∧ c = n) := by omega
      rw [if_neg this])
    (by
      intro j s' hj hs r c
      rw [put_cell]
      by_cases hcell : r = j ∧ c = n
      · obtain ⟨h1, h2⟩ := hcell
        subst h1 h2
        have h3 : r ≤ r ∧ r < i ∧ c = c := by omega
        have h4 : r = r ∧ c = c := ⟨rfl, rfl⟩
        rw [if_pos h4, if_pos h3, hs r c, hs r i]
        have h5 : ¬ (r + 1 ≤ r ∧ r < i ∧ c = c) := by omega
        have h6 : ¬ (r + 1 ≤ r ∧ r < i ∧ i = c) := by omega
        rw [if_neg h5, if_neg h6]
      · rw [if_neg hcell, hs r c]
        have h3 : (j + 1 ≤ r ∧ r < i ∧ c = n) ↔ (j ≤ r ∧ r < i ∧ c = n) := by
          constructor
          · intro h; omega
          · intro h
            have : r ≠ j := fun h' => hcell ⟨h', h.2.2⟩
            omega
        simp only [h3])
  have h0 := h r c
  have h3 : (0 ≤ r ∧ r < i ∧ c = n) ↔ (r < i ∧ c = n) := by omega
  simp only [h3] at h0
  exact h0

theorem backSubstitute_spec (n : Nat) (U : Sys K) (hdiag : ∀ i, i < n → U.cell i i ≠ 0) :
    ∀ r, r < n → ∑ c in Finset.Ico r n, U.cell r c * (backSubstitute n U).2 c = U.cell r n := by
  have h := forDown_invariant (backStep n)
    (fun i (st : Sys K × (Nat → K)) =>
      (∀ r c, c ≠ n → st.1.cell r c = U.cell r c) ∧
      (∀ r, r < i → st.1.cell r n = U.cell r n - ∑ c in Finset.Ico i n, U.cell r c * st.2 c) ∧
      (∀ r, i ≤ r → r < n → ∑ c in Finset.Ico r n, U.cell r c * st.2 c = U.cell r n))
    n (U, fun _ => 0)
    ⟨fun _ _ _ => rfl, fun r _ => by simp, fun r h1 h2 => by omega⟩
    (by
      intro i st hi ⟨ha, hb, hc⟩
      obtain ⟨s, v⟩ := st
      simp only at ha hb hc
      have hcell : ∀ r c, (backStep n i (s, v)).1.cell r c =
          if r < i ∧ c = n then s.cell r n - s.cell r i * (s.cell i n / s.cell i i)
          else s.cell r c := by
        intro r c
        simp only [backStep]
        rw [backInner_spec n i hi s _ r c]
        simp [vecPut]
      have hv : ∀ c, (backStep n i (s, v)).2 c =
          if c = i then s.cell i n / s.cell i i else v c := by
        intro c
        simp [backStep, vecPut]
      have hsum : ∀ r k, i < k →
          ∑ c in Finset.Ico k n, U.cell r c * (backStep n i (s, v)).2 c =
            ∑ c in Finset.Ico k n, U.cell r c * v c := by
        intro r k hk
        apply Finset.sum_congr rfl
        intro c hc
        have hc' := Finset.mem_Ico.mp hc
        rw [hv c, if_neg (by omega)]
      have hii : s.cell i i = U.cell i i := ha i i (by omega)
      refine ⟨?_, ?_, ?_⟩
      · intro r c hcn
        rw [hcell r c, if_neg (by tauto)]
        exact ha r c hcn
      · intro r hr
        rw [hcell r n, if_pos ⟨hr, rfl⟩, Finset.sum_eq_sum_Ico_succ_bot hi, hsum r (i + 1) (by omega),
          hv i, if_pos rfl, hb r (by omega), ha r i (by omega)]
        ring
      · intro r hr1 hr2
        by_cases hri : r = i
        · subst hri
          rw [Finset.sum_eq_sum_Ico_succ_bot hi, hsum r (r + 1) (by omega), hv r, if_pos rfl,
            hb r (by omega), hii]
          field_simp [hdiag r hi]
        · rw [hsum r r (by omega)]
          exact hc r (by omega) hr2)
  intro r hr
  exact h.2.2 r (Nat.zero_le _) hr

theorem backSubstitute_satisfies (n : Nat) (U : Sys K) (hz : U.lowerZero n n)
    (hdiag : ∀ i, i < n → U.cell i i ≠ 0) :
    U.satisfies n (backSubstitute n U).2 1 := by
  intro r hr
  rw [one_mul, ← backSubstitute_spec n U hdiag r hr,
    ← Finset.sum_range_add_sum_Ico _ (le_of_lt hr)]
  have hzero : ∑ c in Finset.range r, U.cell r c * (backSubstitute n U).2 c = 0 := by
    apply Finset.sum_eq_zero
    intro c hc
    have hc' := Finset.mem_range.mp hc
    rw [hz r c (by omega) hc' hr, zero_mul]
  rw [hzero, zero_add]

end BackSubstitution

/-! ## Non-singular systems have non-zero pivots -/

section Pivots
variable {K : Type} [LinearOrderedField K]

theorem toSquare_mulVec (sys : Sys K) (n : Nat) (w : Fin n → K) (r : Fin n) :
    (sys.toSquare n).mulVec w r =
      ∑ c in Finset.range n, sys.cell r.val c * (if h : c < n then w ⟨c, h⟩ else 0) := by
  rw [Finset.sum_range]
  simp [Matrix.mulVec, Matrix.dotProduct, Sys.toSquare]

theorem det_ne_zero_of_satisfies (n : Nat) (s0 U : Sys K)
    (h : ∀ x, U.satisfies n x 0 → s0.satisfies n x 0) (hdet : (s0.toSquare n).det ≠ 0) :
    (U.toSquare n).det ≠ 0 := by
  intro hU
  obtain ⟨w, hw, hmul⟩ := Matrix.exists_mulVec_eq_zero_iff.mpr hU
  apply hdet
  apply Matrix.exists_mulVec_eq_zero_iff.mp
  refine ⟨w, hw, ?_⟩
  have hsat : U.satisfies n (fun c => if h : c < n then w ⟨c, h⟩ else 0) 0 := by
    intro r hr
    have h1 := congrFun hmul ⟨r, hr⟩
    rw [toSquare_mulVec] at h1
    rw [zero_mul]
    exact h1
  have h0 := h _ hsat
  funext r
  rw [toSquare_mulVec]
  have h1 := h0 r.val r.isLt
  rw [zero_mul] at h1
  exact h1

theorem diag_ne_zero (n : Nat) (U : Sys K) (hz : U.lowerZero n n)
    (hdet : (U.toSquare n).det ≠ 0) : ∀ i, i < n → U.cell i i ≠ 0 := by
  have htri : (U.toSquare n).BlockTriangular id := by
    intro i j hij
    exact hz i.val j.val j.isLt hij i.isLt
  rw [Matrix.det_of_upperTriangular htri] at hdet
  intro i hi
  exact Finset.prod_ne_zero_iff.mp hdet ⟨i, hi⟩ (Finset.mem_univ _)

end Pivots

/-! ## Loading the augmented system -/

section Loading
variable {K : Type} [LinearOrderedField K]

theorem loadCoefficients_spec (A : Matrix K) (hA : A.WellFormed) (n : Nat) (hr : A.rows = n)
    (hc : A.columns = n) (s : Sys K) :
    ∃ s', loadCoefficients A n s = .ok s' ∧
      ∀ r c, s'.cell r c = if r < n ∧ c < n then A.elem r c else s.cell r c := by
  obtain ⟨s', h1, h2⟩ := forM_invariant
    (fun i (sys : Sys K) => forM 0 n
      (fun j sys =>
        match A.get i j with
        | .ok a => .ok (sys.put i j a)
        | .error e => .error e) sys)
    (fun i s' => ∀ r c, s'.cell r c = if r < i ∧ c < n then A.elem r c else s.cell r c)
    0 n s (Nat.zero_le _)
    (by
      intro r c
      have : ¬ (r < 0 ∧ c < n) := by omega
      rw [if_neg this])
    (by
      intro i si _ hi hsi
      obtain ⟨sj, g1, g2⟩ := forM_invariant
        (fun j (sys : Sys K) =>
          match A.get i j with
          | .ok a => .ok (sys.put i j a)
          | .error e => .error e)
        (fun j s' => ∀ r c, s'.cell r c =
          if (r < i ∧ c < n) ∨ (r = i ∧ c < j) then A.elem r c else s.cell r c)
        0 n si (Nat.zero_le _)
        (by
          intro r c
          rw [hsi r c]
          have : ((r < i ∧ c < n) ∨ (r = i ∧ c < 0)) ↔ (r < i ∧ c < n) := by omega
          simp only [this])
        (by
          intro j sj _ hj hsj
          refine ⟨sj.put i j (A.elem i j), ?_, ?_⟩
          · beta_reduce
            rw [get_eq_elem A hA i j (by omega) (by omega)]
          · intro r c
            rw [put_cell]
            by_cases hcell : r = i ∧ c = j
            · obtain ⟨e1, e2⟩ := hcell
              subst e1 e2
              have : (r < r ∧ c < n) ∨ (r = r ∧ c < c + 1) := by omega
              rw [if_pos ⟨rfl, rfl⟩, if_pos this]
            · rw [if_neg hcell, hsj r c]
              have : ((r < i ∧ c < n) ∨ (r = i ∧ c < j + 1)) ↔
                  ((r < i ∧ c < n) ∨ (r = i ∧ c < j)) := by omega
              simp only [this])
      refine ⟨sj, g1, ?_⟩
      intro r c
      rw [g2 r c]
      have : ((r < i ∧ c < n) ∨ (r = i ∧ c < n)) ↔ (r < i + 1 ∧ c < n) := by omega
      simp only [this])
  exact ⟨s', h1, h2⟩

theorem loadRhs_spec (b : Matrix K) (hb : b.WellFormed) (n : Nat) (hr : b.rows = n)
    (hc : b.columns = 1) (s : Sys K) :
    ∃ s', loadRhs b n s = .ok s' ∧
      ∀ r c, s'.cell r c = if r < n ∧ c = n then b.elem r 0 else s.cell r c := by
  obtain ⟨s', h1, h2⟩ := forM_invariant
    (fun i (sys : Sys K) =>
      match b.get i 0 with
      | .ok x => .ok (sys.put i n x)
      | .error e => .error e)
    (fun i s' => ∀ r c, s'.cell r c = if r < i ∧ c = n then b.elem r 0 else s.cell r c)
    0 n s (Nat.zero_le _)
    (by
      intro r c
      have : ¬ (r < 0 ∧ c = n) := by omega
      rw [if_neg this])
    (by
      intro i si _ hi hsi
      refine ⟨si.put i n (b.elem i 0), ?_, ?_⟩
      · beta_reduce
        rw [get_eq_elem b hb i 0 (by omega) (by omega)]
      · intro r c
        rw [put_cell]
        by_cases hcell : r = i ∧ c = n
        · obtain ⟨e1, e2⟩ := hcell
          subst e1 e2
          have : r < r + 1 ∧ c = c := by omega
          rw [if_pos ⟨rfl, rfl⟩, if_pos this]
        · rw [if_neg hcell, hsi r c]
          have : (r < i + 1 ∧ c = n) ↔ (r < i ∧ c = n) := by omega
          simp only [this])
  exact ⟨s', h1, h2⟩

theorem fromVector_range (n : Nat) (hn : 1 ≤ n) (v : Nat → K) :
    Matrix.fromVector ((List.range n).map v) = .ok (Matrix.ofCells n 1 v) := by
  have hne : ((List.range n).map v).isEmpty = false := by
    cases n with
    | zero => omega
    | succ k => simp [List.range_succ]
  simp [Matrix.fromVector, hne, Matrix.ofCells]

end Loading

/-! ## The solver returns the solution -/

section SolverCorrect
variable {K : Type} [LinearOrderedField K]

theorem zeros_eq_ofCells (r c : Nat) :
    (Matrix.zeros r c : Matrix K) = Matrix.ofCells r c (fun _ => 0) := by
  apply eq_ofCells _ r c _ rfl rfl (by simp [Matrix.zeros])
  intro k hk
  simp [Matrix.zeros, List.getD_eq_getElem?_getD, List.getElem?_replicate, hk]

theorem solve_run (n : Nat) (hn : 1 ≤ n) (A b : Matrix K) (hA : A.WellFormed)
    (hb : b.WellFormed) (hAr : A.rows = n) (hAc : A.columns = n) (hbr : b.rows = n)
    (hbc : b.columns = 1) :
    ∃ s0 : Sys K,
      (∀ r c, r < n → c < n → s0.cell r c = A.elem r c) ∧
      (∀ r, r < n → s0.cell r n = b.elem r 0) ∧
      solve A b = .ok (Matrix.ofCells n 1 (backSubstitute n (forwardElimination n s0)).2) := by
  obtain ⟨s1, h1, g1⟩ := loadCoefficients_spec A hA n hAr hAc ⟨fun _ _ => 0⟩
  obtain ⟨s2, h2, g2⟩ := loadRhs_spec b hb n hbr hbc s1
  refine ⟨s2, ?_, ?_, ?_⟩
  · intro r c hr hc
    rw [g2 r c, if_neg (by omega), g1 r c, if_pos ⟨hr, hc⟩]
  · intro r hr
    rw [g2 r n, if_pos ⟨hr, rfl⟩]
  · have hshape : ¬ n ≠ b.rows := by simp [hbr]
    simp only [solve, Matrix.size, hAr, hAc, max_self, h1, h2]
    rw [if_neg hshape]
    exact fromVector_range n hn (backSubstitute n (forwardElimination n s2)).2

theorem solve_satisfies (n : Nat) (s0 : Sys K) (hdet : (s0.toSquare n).det ≠ 0) :
    s0.satisfies n (backSubstitute n (forwardElimination n s0)).2 1 := by
  obtain ⟨hz, hsat⟩ := forwardElimination_spec n s0
  have hdetU : ((forwardElimination n s0).toSquare n).det ≠ 0 :=
    det_ne_zero_of_satisfies n s0 (forwardElimination n s0) (fun x h => (hsat x 0).mp h) hdet
  have hdiag := diag_ne_zero n (forwardElimination n s0) hz hdetU
  exact (hsat (backSubstitute n (forwardElimination n s0)).2 1).mp
    (backSubstitute_satisfies n (forwardElimination n s0) hz hdiag)

/-! ### No division by zero on a non-singular system -/

theorem iter_succ {σ : Type} (body : Nat → σ → σ) :
    ∀ (cnt lo : Nat) (s : σ), iter body lo (cnt + 1) s = body (lo + cnt) (iter body lo cnt s)
  | 0, lo, s => by simp [iter]
  | cnt + 1, lo, s => by
    have h := iter_succ body cnt (lo + 1) (body lo s)
    have hsum : lo + 1 + cnt = lo + (cnt + 1) := by omega
    rw [hsum] at h
    simpa [iter] using h

theorem systemAt_succ (n i : Nat) (s0 : Sys K) :
    systemAt n (i + 1) s0 = pivotStep n i (systemAt n i s0) := by
  have h := iter_succ (fun k (sys : Sys K) => pivotStep n k sys) i 0 s0
  simpa [systemAt, forLoop] using h

theorem systemAt_lowerZero (n : Nat) (s0 : Sys K) :
    ∀ k, k ≤ n → (systemAt n k s0).lowerZero n k
  | 0, _ => fun r c hc _ _ => absurd hc (Nat.not_lt_zero c)
  | k + 1, hk => by
    have ih := systemAt_lowerZero n s0 k (by omega)
    obtain ⟨_, _, _, _, _, _, _, _, hz, _, _⟩ := pivotStep_cells n k (by omega) _ ih
    rw [systemAt_succ]
    exact hz

theorem systemAt_row_frozen (n i : Nat) (s0 : Sys K) (c : Nat) :
    ∀ k, i < k → k ≤ n → (systemAt n k s0).cell i c = (systemAt n (i + 1) s0).cell i c
  | 0, h, _ => absurd h (Nat.not_lt_zero i)
  | k + 1, h1, h2 => by
    by_cases hik : i = k
    · rw [hik]
    · have ih := systemAt_row_frozen n i s0 c k (by omega) (by omega)
      obtain ⟨_, _, _, _, _, _, _, _, _, g1, g2⟩ :=
        pivotStep_cells n k (by omega) _ (systemAt_lowerZero n s0 k (by omega))
      rw [systemAt_succ, g1 i (by omega) c, g2 i (by omega) c, ih]

theorem systemAt_pivot (n i : Nat) (s0 : Sys K) :
    (systemAt n (i + 1) s0).cell i i = pivotAt n i s0 := by
  rw [systemAt_succ]
  simp only [pivotStep, pivotAt]
  rw [eliminateBelow_spec]
  have h : ¬ (i < i ∧ i < n ∧ i ≤ i ∧ i < n + 1) := by omega
  rw [if_neg h]

/-- On a non-singular system every divisor of `solve` is non-zero: the pivot `sys[i][i]` of
iteration `i` of the pivot loop, which is also the `sys[i][i]` of the reverse substitution. -/
theorem pivots_ne_zero (n : Nat) (s0 : Sys K) (hdet : (s0.toSquare n).det ≠ 0) (i : Nat)
    (hi : i < n) :
    pivotAt n i s0 ≠ 0 ∧ (forwardElimination n s0).cell i i = pivotAt n i s0 := by
  obtain ⟨hz, hsat⟩ := forwardElimination_spec n s0
  have hdetU : ((forwardElimination n s0).toSquare n).det ≠ 0 :=
    det_ne_zero_of_satisfies n s0 (forwardElimination n s0) (fun x h => (hsat x 0).mp h) hdet
  have hdiag := diag_ne_zero n (forwardElimination n s0) hz hdetU i hi
  have heq : (forwardElimination n s0).cell i i = pivotAt n i s0 := by
    show (systemAt n n s0).cell i i = _
    rw [systemAt_row_frozen n i s0 i n hi (le_refl _), systemAt_pivot]
  rw [heq] at hdiag
  exact ⟨hdiag, heq⟩

end SolverCorrect

/-! ## The pivot loop on finite `double`s follows the exact one -/

section Floating
variable {K : Type} [LinearOrderedField K]

theorem iter_rel {σ τ : Type} (f : Nat → σ → σ) (g : Nat → τ → τ) (Q : σ → τ → Prop) :
    ∀ (cnt lo : Nat) (a : σ) (b : τ), Q a b →
      (∀ i a b, lo ≤ i → i < lo + cnt → Q a b → Q (f i a) (g i b)) →
      Q (iter f lo cnt a) (iter g lo cnt b)
  | 0, lo, a, b, h0, _ => by simpa [iter] using h0
  | cnt + 1, lo, a, b, h0, hstep => by
    have h1 := hstep lo a b (le_refl _) (by omega) h0
    have h2 := iter_rel f g Q cnt (lo + 1) (f lo a) (g lo b) h1
      (fun i a b hlo hhi hQ => hstep i a b (by omega) (by omega) hQ)
    simpa [iter] using h2

theorem forLoop_rel {σ τ : Type} (f : Nat → σ → σ) (g : Nat → τ → τ) (Q : σ → τ → Prop)
    (lo hi : Nat) (a : σ) (b : τ) (h0 : Q a b)
    (hstep : ∀ i a b, lo ≤ i → i < hi → Q a b → Q (f i a) (g i b)) :
    Q (forLoop lo hi f a) (forLoop lo hi g b) :=
  iter_rel f g Q (hi - lo) lo a b h0 (fun i a b hlo hhi hQ => hstep i a b hlo (by omega) hQ)

theorem val_ofExact (x : K) (s : Bool) : (Ieee.ofExact x s).val = some x := by
  unfold Ieee.ofExact
  by_cases h : x = 0
  · rw [if_pos h, h]
    cases s <;> rfl
  · rw [if_neg h]
    rfl

theorem val_cases (a : Ieee K) (x : K) (h : a.val = some x) :
    a = .fin x ∨ (a = .negZero ∧ x = 0) := by
  cases a with
  | fin y =>
    simp only [Ieee.val, Option.some.injEq] at h
    exact Or.inl (by rw [h])
  | negZero =>
    simp only [Ieee.val, Option.some.injEq] at h
    exact Or.inr ⟨rfl, h.symm⟩
  | inf s => simp [Ieee.val] at h
  | nan => simp [Ieee.val] at h

theorem val_abs (a : Ieee K) (x : K) (h : a.val = some x) : a.abs.val = some |x| := by
  rcases val_cases a x h with rfl | ⟨rfl, rfl⟩
  · rfl
  · simp [Ieee.abs, Ieee.val]

theorem val_neg (a : Ieee K) (x : K) (h : a.val = some x) : a.neg.val = some (-x) := by
  rcases val_cases a x h with rfl | ⟨rfl, rfl⟩
  · by_cases h0 : x = 0
    · simp [Ieee.neg, Ieee.val, h0]
    · simp [Ieee.neg, Ieee.val, h0]
  · simp [Ieee.neg, Ieee.val]

theorem val_mul (a b : Ieee K) (x y : K) (ha : a.val = some x) (hb : b.val = some y) :
    (a.mul b).val = some (x * y) := by
  rcases val_cases a x ha with rfl | ⟨rfl, rfl⟩ <;>
    rcases val_cases b y hb with rfl | ⟨rfl, rfl⟩ <;>
    exact val_ofExact _ _

theorem val_add (a b : Ieee K) (x y : K) (ha : a.val = some x) (hb : b.val = some y) :
    (a.add b).val = some (x + y) := by
  rcases val_cases a x ha with rfl | ⟨rfl, rfl⟩ <;>
    rcases val_cases b y hb with rfl | ⟨rfl, rfl⟩ <;>
    exact val_ofExact _ _

theorem val_div (a b : Ieee K) (x y : K) (ha : a.val = some x) (hb : b.val = some y)
    (hy : y ≠ 0) : (a.div b).val = some (x / y) := by
  have hne : ¬ (some y = some (0 : K)) := by
    intro h
    exact hy (Option.some.inj h)
  rcases val_cases b y hb with rfl | ⟨rfl, rfl⟩
  · rcases val_cases a x ha with rfl | ⟨rfl, rfl⟩
    · show (if some y = some (0 : K) then _ else Ieee.ofExact (x / y) _).val = _
      rw [if_neg hne]
      exact val_ofExact _ _
    · show (if some y = some (0 : K) then _ else Ieee.ofExact (0 / y) _).val = _
      rw [if_neg hne]
      exact val_ofExact _ _
  · exact absurd rfl hy

theorem gt_val (a b : Ieee K) (x y : K) (ha : a.val = some x) (hb : b.val = some y) :
    a.gt b = decide (x > y) := by
  rcases val_cases a x ha with rfl | ⟨rfl, rfl⟩ <;>
    rcases val_cases b y hb with rfl | ⟨rfl, rfl⟩ <;> rfl

theorem searchPivotWith_exact (sys : Sys K) (n i : Nat) :
    searchPivotWith exactOps sys n i = searchPivot sys n i := by
  unfold searchPivotWith searchPivot
  congr 1
  funext j st
  by_cases hc : |sys.cell j i| > st.1
  · simp [exactOps, hc]
  · simp [exactOps, hc]

/-- Over the operations of the exact field, the pivot step written over `ScalarOps` is the
pivot step of the field model. -/
theorem pivotStepWith_exact (n i : Nat) (sys : Sys K) :
    pivotStepWith exactOps n i sys = pivotStep n i sys := by
  unfold pivotStepWith pivotStep
  rw [searchPivotWith_exact]
  rfl

theorem put_tracks (t : Sys (Ieee K)) (s : Sys K) (h : t.tracks s) (r c : Nat)
    (a : Ieee K) (x : K) (ha : a.val = some x) : (t.put r c a).tracks (s.put r c x) := by
  intro r' c'
  show (if r' = r ∧ c' = c then a else t.cell r' c').val =
    some (if r' = r ∧ c' = c then x else s.cell r' c')
  by_cases hrc : r' = r ∧ c' = c
  · rw [if_pos hrc, if_pos hrc]
    exact ha
  · rw [if_neg hrc, if_neg hrc]
    exact h r' c'

theorem search_tracks (t : Sys (Ieee K)) (s : Sys K) (h : t.tracks s) (n i : Nat) :
    (searchPivotWith ieeeOps t n i).1.val = some (searchPivot s n i).1 ∧
      (searchPivotWith ieeeOps t n i).2 = (searchPivot s n i).2 := by
  unfold searchPivotWith searchPivot
  apply forLoop_rel _ _
    (fun (a : Ieee K × Nat) (b : K × Nat) => a.1.val = some b.1 ∧ a.2 = b.2)
  · exact ⟨val_abs _ _ (h i i), rfl⟩
  · intro j a b _ _ ⟨h1, h2⟩
    have habs := val_abs _ _ (h j i)
    have hgt : ieeeOps.gt (ieeeOps.abs (t.cell j i)) a.1 = decide (|s.cell j i| > b.1) :=
      gt_val _ _ _ _ habs h1
    by_cases hc : |s.cell j i| > b.1
    · have hgt' : ieeeOps.gt (ieeeOps.abs (t.cell j i)) a.1 = true := by
        rw [hgt]; exact decide_eq_true hc
      rw [if_pos hgt', if_pos hc]
      exact ⟨habs, rfl⟩
    · have hgt' : ¬ ieeeOps.gt (ieeeOps.abs (t.cell j i)) a.1 = true := by
        rw [hgt]; simpa using hc
      rw [if_neg hgt', if_neg hc]
      exact ⟨h1, h2⟩

theorem swap_tracks (t : Sys (Ieee K)) (s : Sys K) (h : t.tracks s) (n i m : Nat) :
    (swapRows t n i m).tracks (swapRows s n i m) := by
  unfold swapRows
  apply forLoop_rel _ _ (fun (a : Sys (Ieee K)) (b : Sys K) => a.tracks b) _ _ _ _ h
  intro j a b _ _ hab
  exact put_tracks _ _ (put_tracks _ _ hab _ _ _ _ (hab i j)) _ _ _ _ (hab m j)

theorem eliminateRow_tracks (t : Sys (Ieee K)) (s : Sys K) (h : t.tracks s) (n i j : Nat)
    (hpiv : s.cell i i ≠ 0) :
    (eliminateRowWith ieeeOps t n i j).tracks (eliminateRow s n i j) := by
  have hcoef : (ieeeOps.div (ieeeOps.neg (t.cell j i)) (t.cell i i)).val =
      some (-(s.cell j i) / s.cell i i) :=
    val_div _ _ _ _ (val_neg _ _ (h j i)) (h i i) hpiv
  unfold eliminateRowWith eliminateRow
  apply forLoop_rel _ _ (fun (a : Sys (Ieee K)) (b : Sys K) => a.tracks b) _ _ _ _ h
  intro k a b _ _ hab
  by_cases hik : i = k
  · beta_reduce
    rw [if_pos hik, if_pos hik]
    exact put_tracks _ _ hab _ _ _ _ rfl
  · beta_reduce
    rw [if_neg hik, if_neg hik]
    exact put_tracks _ _ hab _ _ _ _
      (val_add _ _ _ _ (hab j k) (val_mul _ _ _ _ hcoef (hab i k)))

theorem eliminateBelow_tracks (t : Sys (Ieee K)) (s : Sys K) (h : t.tracks s) (n i : Nat)
    (hpiv : s.cell i i ≠ 0) :
    (eliminateBelowWith ieeeOps t n i).tracks (eliminateBelow s n i) := by
  unfold eliminateBelowWith eliminateBelow
  have hrel := forLoop_rel
    (fun j (a : Sys (Ieee K)) => eliminateRowWith ieeeOps a n i j)
    (fun j (b : Sys K) => eliminateRow b n i j)
    (fun (a : Sys (Ieee K)) (b : Sys K) => a.tracks b ∧ b.cell i i = s.cell i i)
    (i + 1) n t s ⟨h, rfl⟩
    (by
      intro j a b hj _ ⟨hab, hii⟩
      refine ⟨eliminateRow_tracks a b hab n i j (by rw [hii]; exact hpiv), ?_⟩
      rw [eliminateRow_spec b n i j (by omega) i i, if_neg (by omega)]
      exact hii)
  exact hrel.1

theorem pivotStep_tracks (t : Sys (Ieee K)) (s : Sys K) (h : t.tracks s) (n i : Nat)
    (hpiv : (swapRows s n i (searchPivot s n i).2).cell i i ≠ 0) :
    (pivotStepWith ieeeOps n i t).tracks (pivotStep n i s) := by
  unfold pivotStepWith pivotStep
  simp only [(search_tracks t s h n i).2]
  exact eliminateBelow_tracks _ _ (swap_tracks t s h n i _) n i hpiv

theorem systemAtWith_succ {S : Type} (ops : ScalarOps S) (n i : Nat) (t0 : Sys S) :
    systemAtWith ops n (i + 1) t0 = pivotStepWith ops n i (systemAtWith ops n i t0) := by
  have h := iter_succ (fun k (sys : Sys S) => pivotStepWith ops n k sys) i 0 t0
  simpa [systemAtWith, forLoop] using h

/-- As long as no pivot is zero, the pivot loop on finite `double`s holds the values of the
exact pivot loop. -/
theorem systemAt_tracks (t0 : Sys (Ieee K)) (s0 : Sys K) (h : t0.tracks s0) (n : Nat) :
    ∀ i, (∀ k, k < i → pivotAt n k s0 ≠ 0) →
      (systemAtWith ieeeOps n i t0).tracks (systemAt n i s0)
  | 0, _ => by
    simpa [systemAtWith, systemAt, forLoop, iter] using h
  | i + 1, hpiv => by
    have ih := systemAt_tracks t0 s0 h n i (fun k hk => hpiv k (by omega))
    rw [systemAtWith_succ, systemAt_succ]
    exact pivotStep_tracks _ _ ih n i (hpiv i (by omega))

theorem pivotAt_tracks (t0 : Sys (Ieee K)) (s0 : Sys K) (h : t0.tracks s0) (n i : Nat)
    (hpiv : ∀ k, k < i → pivotAt n k s0 ≠ 0) :
    (pivotAtWith ieeeOps n i t0).val = some (pivotAt n i s0) := by
  have ht := systemAt_tracks t0 s0 h n i hpiv
  unfold pivotAtWith pivotAt
  rw [(search_tracks _ _ ht n i).2]
  exact swap_tracks _ _ ht n i _ i i

theorem exact_tracks (t : Sys (Ieee K)) (hfin : ∀ r c, (t.cell r c).isFinite = true) :
    t.tracks t.exact := by
  intro r c
  have h := hfin r c
  unfold Ieee.isFinite at h
  show (t.cell r c).val = some ((t.cell r c).val.getD 0)
  cases hv : (t.cell r c).val with
  | none => rw [hv] at h; simp at h
  | some x => rfl

/-- On a non-singular system of finite `double`s no pivot of the pivot loop is a zero. -/
theorem ieee_pivots_of_det (n : Nat) (t0 : Sys (Ieee K))
    (hfin : ∀ r c, (t0.cell r c).isFinite = true) (hdet : (t0.exact.toSquare n).det ≠ 0) :
    ∀ k, k < n → (pivotAtWith ieeeOps n k t0).isZero = false := by
  intro k hk
  have h0 := exact_tracks t0 hfin
  have hv := pivotAt_tracks t0 t0.exact h0 n k
    (fun k' hk' => (pivots_ne_zero n t0.exact hdet k' (by omega)).1)
  have hne := (pivots_ne_zero n t0.exact hdet k hk).1
  unfold Ieee.isZero
  rw [hv]
  simp [hne]

end Floating

/-! ## The claims -/

section Claims
variable {K : Type} [LinearOrderedField K]

/-- C1: with an exact scalar field, for every `n ≥ 1` (a `std::size_t`), every non-singular
`n × n` matrix `A` (non-zero determinant) and every `n × 1` column `b`, `solve(A, b)` returns
an `n × 1` column `x`, the product `A * x` is computed without error, `A * x == b` is true
(whatever the pointer test gives), and the residual `A * x - b` is the zero column
`Matrix(n, 1)`. -/
theorem solve_correct (n : Nat) (hn : 1 ≤ n) (hsize : n < sizeMax) (A b : Matrix K)
    (hA : A.WellFormed) (hb : b.WellFormed) (hAr : A.rows = n) (hAc : A.columns = n)
    (hbr : b.rows = n) (hbc : b.columns = 1) (hdet : (A.toSquare n).det ≠ 0) :
    ∃ x, solve A b = .ok x ∧ x.rows = n ∧ x.columns = 1 ∧ x.WellFormed ∧
      ∃ y, operatorMul A x = .ok y ∧
        (∀ samePMem, operatorEq samePMem y b = .ok true) ∧
        ∃ z, Matrix.sized n 1 = .ok z ∧ operatorSub y b = .ok z := by
  have hfit : fits n 1 := ⟨by omega, by omega⟩
  obtain ⟨s0, hcoef, hrhs, hrun⟩ := solve_run n hn A b hA hb hAr hAc hbr hbc
  have hsq : s0.toSquare n = A.toSquare n := by
    funext i j
    exact hcoef i.val j.val i.isLt j.isLt
  have hsat := solve_satisfies n s0 (by rw [hsq]; exact hdet)
  generalize (backSubstitute n (forwardElimination n s0)).2 = v at hrun hsat
  have hxw : (Matrix.ofCells n 1 v).WellFormed := ofCells_wellFormed n 1 v
  have hinner : A.columns = (Matrix.ofCells n 1 v).rows := hAc
  have hfitAx : fits A.rows (Matrix.ofCells n 1 v).columns := by rw [hAr]; exact hfit
  refine ⟨Matrix.ofCells n 1 v, hrun, rfl, rfl, hxw, ?_⟩
  have hmul := operatorMul_spec A (Matrix.ofCells n 1 v) hA hxw hinner hfitAx
  refine ⟨_, hmul, ?_⟩
  have hyb : Matrix.ofCells A.rows (Matrix.ofCells n 1 v).columns
      (fun o => dot A (Matrix.ofCells n 1 v) (o / (Matrix.ofCells n 1 v).columns)
        (o % (Matrix.ofCells n 1 v).columns) A.columns) = b := by
    apply eq_of_elems _ b (ofCells_wellFormed _ _ _) hb
    · show A.rows = b.rows
      rw [hAr, hbr]
    · show (Matrix.ofCells n 1 v).columns = b.columns
      rw [hbc]; rfl
    · intro i j hi hj
      have hi' : i < A.rows := hi
      have hj' : j < (Matrix.ofCells n 1 v).columns := hj
      have hj0 : j = 0 := by
        have : (Matrix.ofCells n 1 v).columns = 1 := rfl
        omega
      rw [operatorMul_elem A (Matrix.ofCells n 1 v) _ hA hxw hinner hfitAx hmul i j hi' hj',
        hj0, hAc]
      have hrow := hsat i (by omega)
      rw [one_mul, hrhs i (by omega)] at hrow
      rw [← hrow]
      apply Finset.sum_congr rfl
      intro k hk
      have hk' := Finset.mem_range.mp hk
      rw [hcoef i k (by omega) hk', ofCells_elem n 1 v k 0 hk' (by omega)]
      simp
  rw [hyb]
  refine ⟨fun samePMem => (operatorEq_iff_eq samePMem b b hb hb (fun _ => rfl)).mpr rfl,
    Matrix.zeros n 1, sized_ok n 1 hfit, ?_⟩
  have hfitb : fits b.rows b.columns := by rw [hbr, hbc]; exact hfit
  rw [operatorSub_spec b b hb hb rfl rfl hfitb, zeros_eq_ofCells, hbr, hbc]
  congr 1
  apply ofCells_congr
  intro k _
  ring

/-- C1, at the system `2x + y = 3`, `x + 3y = 5` over the rationals. -/
theorem solve_correct_witness :
    ∃ x, solve sampleA sampleB = .ok x ∧ x.rows = 2 ∧ x.columns = 1 ∧ x.WellFormed ∧
      ∃ y, operatorMul sampleA x = .ok y ∧
        (∀ samePMem, operatorEq samePMem y sampleB = .ok true) ∧
        ∃ z, Matrix.sized 2 1 = .ok z ∧ operatorSub y sampleB = .ok z :=
  solve_correct 2 (by decide) (by decide) sampleA sampleB (by decide) (by decide) rfl rfl rfl
    rfl
    (by
      rw [Matrix.det_fin_two]
      simp [Matrix.toSquare, Matrix.elem, sampleA]
      norm_num)

/-! ### What the operators do when their result has at least one cell

The hypothesis `fits r c` says that the `r * c` cells of the result are at least one and
fewer than `2 ^ 64`. -/

/-- When `lhs.columns == rhs.rows` and the result has at least one cell, `lhs * rhs` is
returned with shape `(lhs.rows, rhs.columns)`; its element `(i, j)` is the sum over
`k < lhs.columns` of `lhs(i,k) * rhs(k,j)` accumulated from zero (`dot`); every internal
`get` call returns a value, none raises a range error. -/
theorem operatorMul_correct (lhs rhs : Matrix K) (hl : lhs.WellFormed) (hr : rhs.WellFormed)
    (hinner : lhs.columns = rhs.rows) (hfit : fits lhs.rows rhs.columns) :
    ∃ res, operatorMul lhs rhs = .ok res ∧ res.rows = lhs.rows ∧ res.columns = rhs.columns ∧
      res.WellFormed ∧
      ∀ i j, i < lhs.rows → j < rhs.columns →
        res.get i j = .ok (dot lhs rhs i j lhs.columns) ∧
        dot lhs rhs i j lhs.columns =
          ∑ k in Finset.range lhs.columns, lhs.elem i k * rhs.elem k j ∧
        (∀ k, k < lhs.columns →
          lhs.get i k = .ok (lhs.elem i k) ∧ rhs.get k j = .ok (rhs.elem k j)) := by
  refine ⟨_, operatorMul_spec lhs rhs hl hr hinner hfit, rfl, rfl, ofCells_wellFormed _ _ _, ?_⟩
  intro i j hi hj
  have hget : (Matrix.ofCells lhs.rows rhs.columns
      (fun o => dot lhs rhs (o / rhs.columns) (o % rhs.columns) lhs.columns)).get i j =
      .ok (dot lhs rhs i j lhs.columns) := by
    rw [get_eq_elem _ (ofCells_wellFormed _ _ _) i j hi hj, ofCells_elem _ _ _ i j hi hj]
    obtain ⟨d1, d2⟩ := offset_div_mod rhs.columns i j hj
    rw [d1, d2]
  refine ⟨hget, dot_eq_sum lhs rhs i j lhs.columns, ?_⟩
  intro k hk
  exact ⟨get_eq_elem lhs hl i k hi hk, get_eq_elem rhs hr k j (by rw [← hinner]; exact hk) hj⟩

theorem iterM_ne_error {σ : Type} (body : Nat → σ → Except Error σ) (e : Error)
    (hbody : ∀ i s, body i s ≠ .error e) :
    ∀ (cnt lo : Nat) (s : σ), iterM body lo cnt s ≠ .error e
  | 0, lo, s => by simp [iterM]
  | cnt + 1, lo, s => by
    cases hb : body lo s with
    | error e' =>
      simp only [iterM, hb]
      intro h
      exact hbody lo s (by rw [hb, h])
    | ok s' =>
      simp only [iterM, hb]
      exact iterM_ne_error body e hbody cnt (lo + 1) s'

theorem iterM_preserves {σ : Type} (body : Nat → σ → Except Error σ) (P : σ → Prop)
    (hbody : ∀ i s s', body i s = .ok s' → P s → P s') :
    ∀ (cnt lo : Nat) (s s' : σ), iterM body lo cnt s = .ok s' → P s → P s'
  | 0, lo, s, s', h, hP => by
    simp only [iterM] at h
    rw [← Except.ok.inj h]
    exact hP
  | cnt + 1, lo, s, s', h, hP => by
    cases hb : body lo s with
    | error e => simp [iterM, hb] at h
    | ok s1 =>
      simp only [iterM, hb] at h
      exact iterM_preserves body P hbody cnt (lo + 1) s1 s' h (hbody lo s s1 hb hP)

theorem write_shape (m m' : Matrix K) (off : Nat) (x : K) (h : m.write off x = .ok m') :
    m'.rows = m.rows ∧ m'.columns = m.columns := by
  unfold Matrix.write at h
  by_cases hlt : off < m.pMem.length
  · rw [if_pos hlt] at h
    rw [← Except.ok.inj h]
    exact ⟨rfl, rfl⟩
  · rw [if_neg hlt] at h
    simp at h

theorem sized_shape (r c : Nat) (res : Matrix K) (h : Matrix.sized r c = .ok res) :
    res.rows = r ∧ res.columns = c := by
  unfold Matrix.sized at h
  cases hn : (newArray (sizeMul r c) : Except Error (List K)) with
  | error e => rw [hn] at h; simp at h
  | ok cells =>
    rw [hn] at h
    rw [← Except.ok.inj h]
    exact ⟨rfl, rfl⟩

theorem operatorScale_shape (B : Matrix K) (alpha : K) (N : Matrix K)
    (h : operatorScale B alpha = .ok N) : N.rows = B.rows ∧ N.columns = B.columns := by
  unfold operatorScale at h
  cases hz : (Matrix.sized B.rows B.columns : Except Error (Matrix K)) with
  | error e => rw [hz] at h; simp at h
  | ok res =>
    rw [hz] at h
    simp only [] at h
    refine iterM_preserves _ (fun st : Matrix K => st.rows = B.rows ∧ st.columns = B.columns)
      ?_ _ _ _ _ h (sized_shape _ _ res hz)
    intro i st st' hst hP
    cases h1 : B.read i with
    | error e => rw [h1] at hst; simp at hst
    | ok a =>
      rw [h1] at hst
      obtain ⟨e1, e2⟩ := write_shape st st' _ _ hst
      exact ⟨e1.trans hP.1, e2.trans hP.2⟩

theorem write_ne_invalid (m : Matrix K) (off : Nat) (x : K) :
    m.write off x ≠ .error .invalid_argument := by
  unfold Matrix.write
  by_cases h : off < m.pMem.length
  · rw [if_pos h]; simp
  · rw [if_neg h]; simp

theorem read_ne_invalid (m : Matrix K) (off : Nat) :
    m.read off ≠ .error .invalid_argument := by
  unfold Matrix.read
  cases m.pMem[off]? <;> simp

theorem get_ne_invalid (m : Matrix K) (i j : Nat) :
    m.get i j ≠ .error .invalid_argument := by
  unfold Matrix.get
  by_cases h : m.rows < i ∨ m.columns < j
  · rw [if_pos h]; simp
  · rw [if_neg h]; exact read_ne_invalid m _

theorem sized_ne_invalid (r c : Nat) :
    (Matrix.sized r c : Except Error (Matrix K)) ≠ .error .invalid_argument := by
  unfold Matrix.sized newArray
  by_cases h : sizeMul r c = 0
  · rw [if_pos h]; simp
  · rw [if_neg h]; simp

theorem mulCell_ne_invalid (lhs rhs : Matrix K) (i j k : Nat) (res : Matrix K) :
    mulCell lhs rhs i j k res ≠ .error .invalid_argument := by
  unfold mulCell
  cases h1 : lhs.get i k with
  | error e =>
    have := get_ne_invalid lhs i k
    rw [h1] at this
    simpa using this
  | ok a =>
    cases h2 : rhs.get k j with
    | error e =>
      have := get_ne_invalid rhs k j
      rw [h2] at this
      simpa using this
    | ok b =>
      cases h3 : res.read (i * rhs.columns + j) with
      | error e =>
        have := read_ne_invalid res (i * rhs.columns + j)
        rw [h3] at this
        simpa using this
      | ok cur => exact write_ne_invalid res _ _

/-- The invalid-argument error of the operators, for any operands: `A + B` raises it exactly
when the shapes differ, `A * B` exactly when `A.columns != B.rows`, `solve(A, B)` whenever
`A.rows != B.rows`; `A - B` raises it only when the shapes differ, and does raise it then if
`B` has a cell to scale. -/
theorem shape_mismatch (A B : Matrix K) :
    (operatorAdd A B = .error .invalid_argument ↔
      (A.rows ≠ B.rows ∨ A.columns ≠ B.columns)) ∧
    (operatorSub A B = .error .invalid_argument →
      (A.rows ≠ B.rows ∨ A.columns ≠ B.columns)) ∧
    (B.WellFormed → fits B.rows B.columns → (A.rows ≠ B.rows ∨ A.columns ≠ B.columns) →
      operatorSub A B = .error .invalid_argument) ∧
    (operatorMul A B = .error .invalid_argument ↔ A.columns ≠ B.rows) ∧
    (A.rows ≠ B.rows → solve A B = .error .invalid_argument) := by
  have hadd : ∀ A' B' : Matrix K, (operatorAdd A' B' = .error .invalid_argument ↔
      (A'.rows ≠ B'.rows ∨ A'.columns ≠ B'.columns)) := by
    intro A' B'
    by_cases hshape : A'.rows ≠ B'.rows ∨ A'.columns ≠ B'.columns
    · unfold operatorAdd
      rw [if_pos hshape]
      simp [hshape]
    · unfold operatorAdd
      rw [if_neg hshape]
      simp only [hshape, iff_false]
      cases hs : (Matrix.sized A'.rows A'.columns : Except Error (Matrix K)) with
      | error e =>
        have := sized_ne_invalid (K := K) A'.rows A'.columns
        rw [hs] at this
        simpa using this
      | ok res =>
        simp only []
        apply iterM_ne_error
        intro i st
        cases h1 : A'.read i with
        | error e =>
          have := read_ne_invalid A' i
          rw [h1] at this
          simpa using this
        | ok a =>
          cases h2 : B'.read i with
          | error e =>
            have := read_ne_invalid B' i
            rw [h2] at this
            simpa using this
          | ok b => exact write_ne_invalid st _ _
  refine ⟨hadd A B, ?_, ?_, ?_, ?_⟩
  · intro h
    unfold operatorSub at h
    cases hs : operatorScale B (-1) with
    | error e =>
      rw [hs] at h
      simp only [Except.error.injEq] at h
      exfalso
      unfold operatorScale at hs
      cases hz : (Matrix.sized B.rows B.columns : Except Error (Matrix K)) with
      | error e' =>
        rw [hz] at hs
        simp only [Except.error.injEq] at hs
        have := sized_ne_invalid (K := K) B.rows B.columns
        rw [hz, hs, h] at this
        exact this rfl
      | ok res =>
        rw [hz] at hs
        simp only [] at hs
        refine iterM_ne_error _ .invalid_argument ?_ _ _ _ (by rw [← h]; exact hs)
        intro i st
        cases h1 : B.read i with
        | error e1 =>
          have := read_ne_invalid B i
          rw [h1] at this
          simpa using this
        | ok a => exact write_ne_invalid st _ _
    | ok N =>
      rw [hs] at h
      simp only [] at h
      have hN := operatorScale_shape B (-1) N hs
      have := (hadd A N).mp h
      rw [hN.1, hN.2] at this
      exact this
  · intro hB hfit hshape
    simp only [operatorSub, operatorScale_spec B (-1) hB hfit]
    exact (hadd A _).mpr hshape
  · by_cases hinner : A.columns ≠ B.rows
    · unfold operatorMul
      rw [if_pos hinner]
      simp [hinner]
    · unfold operatorMul
      rw [if_neg hinner]
      simp only [hinner, iff_false]
      cases hs : (Matrix.sized A.rows B.columns : Except Error (Matrix K)) with
      | error e =>
        have := sized_ne_invalid (K := K) A.rows B.columns
        rw [hs] at this
        simpa using this
      | ok res =>
        simp only []
        apply iterM_ne_error
        intro i st
        apply iterM_ne_error
        intro j st'
        apply iterM_ne_error
        intro k st''
        exact mulCell_ne_invalid A B i j k st''
  · intro h
    unfold solve
    rw [if_pos h]

/-- For same-shaped `A` and `B` with at least one cell, `A + B` is returned, has the shape of
`A`, and its element at every position `(i, j)` is `A(i,j) + B(i,j)`; and
`column[3,3,3,3,3] + column[2,2,2,2,2] == column[5,5,5,5,5]`. -/
theorem operatorAdd_correct (A B : Matrix K) (hA : A.WellFormed) (hB : B.WellFormed)
    (hr : A.rows = B.rows) (hc : A.columns = B.columns) (hfit : fits A.rows A.columns) :
    (∃ C, operatorAdd A B = .ok C ∧ C.rows = A.rows ∧ C.columns = A.columns ∧ C.WellFormed ∧
      ∀ i j, i < A.rows → j < A.columns → C.get i j = .ok (A.elem i j + B.elem i j)) ∧
    (∃ a b c s : Matrix K, Matrix.fromVector [3, 3, 3, 3, 3] = .ok a ∧
      Matrix.fromVector [2, 2, 2, 2, 2] = .ok b ∧ Matrix.fromVector [5, 5, 5, 5, 5] = .ok c ∧
      operatorAdd a b = .ok s ∧ ∀ samePMem, operatorEq samePMem s c = .ok true) := by
  constructor
  · refine ⟨_, operatorAdd_spec A B hA hB hr hc hfit, rfl, rfl, ofCells_wellFormed _ _ _, ?_⟩
    intro i j hi hj
    rw [get_eq_elem _ (ofCells_wellFormed _ _ _) i j hi hj, ofCells_elem _ _ _ i j hi hj]
    simp only [Matrix.elem]
    rw [hc]
  · have ha : (⟨5, 1, [3, 3, 3, 3, 3]⟩ : Matrix K).WellFormed := by simp [Matrix.WellFormed]
    have hb : (⟨5, 1, [2, 2, 2, 2, 2]⟩ : Matrix K).WellFormed := by simp [Matrix.WellFormed]
    have hc5 : (⟨5, 1, [5, 5, 5, 5, 5]⟩ : Matrix K).WellFormed := by simp [Matrix.WellFormed]
    refine ⟨⟨5, 1, [3, 3, 3, 3, 3]⟩, ⟨5, 1, [2, 2, 2, 2, 2]⟩, ⟨5, 1, [5, 5, 5, 5, 5]⟩, _,
      by simp [Matrix.fromVector], by simp [Matrix.fromVector], by simp [Matrix.fromVector],
      operatorAdd_spec _ _ ha hb rfl rfl (show fits 5 1 by decide), ?_⟩
    have hsum : Matrix.ofCells 5 1 (fun k => ([3, 3, 3, 3, 3] : List K).getD k 0 +
        ([2, 2, 2, 2, 2] : List K).getD k 0) = ⟨5, 1, [5, 5, 5, 5, 5]⟩ := by
      simp [Matrix.ofCells, List.range_succ]
      norm_num
    intro samePMem
    exact (operatorEq_iff_eq samePMem _ _ (ofCells_wellFormed _ _ _) hc5 (fun _ => hsum)).mpr hsum

/-- For same-shaped `A` and `B` with at least one cell, `A - B` is `A + (B * -1.0)`; it is
returned and is the elementwise difference `subSpec A B`: the shape of `A`, and
`A(i,j) - B(i,j)` at every position; and
`column[3,3,3,3,3] - column[2,2,2,2,2] == column[1,1,1,1,1]`. -/
theorem operatorSub_correct (A B : Matrix K) (hA : A.WellFormed) (hB : B.WellFormed)
    (hr : A.rows = B.rows) (hc : A.columns = B.columns) (hfit : fits A.rows A.columns) :
    (∃ N, operatorScale B (-1) = .ok N ∧ operatorSub A B = operatorAdd A N) ∧
    operatorSub A B = .ok (subSpec A B) ∧
    (subSpec A B).rows = A.rows ∧ (subSpec A B).columns = A.columns ∧
    (subSpec A B).WellFormed ∧
    (∀ i j, i < A.rows → j < A.columns →
      (subSpec A B).get i j = .ok (A.elem i j - B.elem i j)) ∧
    (∃ a b d s : Matrix K, Matrix.fromVector [3, 3, 3, 3, 3] = .ok a ∧
      Matrix.fromVector [2, 2, 2, 2, 2] = .ok b ∧ Matrix.fromVector [1, 1, 1, 1, 1] = .ok d ∧
      operatorSub a b = .ok s ∧ ∀ samePMem, operatorEq samePMem s d = .ok true) := by
  have hfitB : fits B.rows B.columns := by rw [← hr, ← hc]; exact hfit
  have hspec : subSpec A B = Matrix.ofCells A.rows A.columns
      (fun k => A.pMem.getD k 0 - B.pMem.getD k 0) := by
    have hlenB : B.pMem.length = A.rows * A.columns := by rw [hB, hr, hc]
    apply eq_ofCells _ _ _ _ rfl rfl
    · simp only [subSpec, List.length_zipWith]
      rw [hA, hlenB, min_self]
    · intro k hk
      have h1 : k < A.pMem.length := by rw [hA]; exact hk
      have h2 : k < B.pMem.length := by rw [hlenB]; exact hk
      simp [subSpec, List.getD_eq_getElem?_getD, List.getElem?_zipWith,
        List.getElem?_eq_getElem h1, List.getElem?_eq_getElem h2]
  refine ⟨⟨_, operatorScale_spec B (-1) hB hfitB, ?_⟩, ?_, rfl, rfl, ?_, ?_, ?_⟩
  · simp only [operatorSub, operatorScale_spec B (-1) hB hfitB]
  · rw [hspec]
    exact operatorSub_spec A B hA hB hr hc hfit
  · rw [hspec]
    exact ofCells_wellFormed _ _ _
  · intro i j hi hj
    rw [hspec, get_eq_elem _ (ofCells_wellFormed _ _ _) i j hi hj, ofCells_elem _ _ _ i j hi hj]
    simp only [Matrix.elem]
    rw [hc]
  · have ha : (⟨5, 1, [3, 3, 3, 3, 3]⟩ : Matrix K).WellFormed := by simp [Matrix.WellFormed]
    have hb : (⟨5, 1, [2, 2, 2, 2, 2]⟩ : Matrix K).WellFormed := by simp [Matrix.WellFormed]
    have hd : (⟨5, 1, [1, 1, 1, 1, 1]⟩ : Matrix K).WellFormed := by simp [Matrix.WellFormed]
    refine ⟨⟨5, 1, [3, 3, 3, 3, 3]⟩, ⟨5, 1, [2, 2, 2, 2, 2]⟩, ⟨5, 1, [1, 1, 1, 1, 1]⟩, _,
      by simp [Matrix.fromVector], by simp [Matrix.fromVector], by simp [Matrix.fromVector],
      operatorSub_spec _ _ ha hb rfl rfl (show fits 5 1 by decide), ?_⟩
    have hdiff : Matrix.ofCells 5 1 (fun k => ([3, 3, 3, 3, 3] : List K).getD k 0 -
        ([2, 2, 2, 2, 2] : List K).getD k 0) = ⟨5, 1, [1, 1, 1, 1, 1]⟩ := by
      simp [Matrix.ofCells, List.range_succ]
      norm_num
    intro samePMem
    exact (operatorEq_iff_eq samePMem _ _ (ofCells_wellFormed _ _ _) hd (fun _ => hdiff)).mpr hdiff

/-- For same-shaped `A` and `B` with at least one cell (exact arithmetic), `A + B` and
`(A + B) - B` are returned and `((A + B) - B) == A` is true. -/
theorem add_sub_inverse (A B : Matrix K) (hA : A.WellFormed) (hB : B.WellFormed)
    (hr : A.rows = B.rows) (hc : A.columns = B.columns) (hfit : fits A.rows A.columns) :
    ∃ S D, operatorAdd A B = .ok S ∧ operatorSub S B = .ok D ∧
      ∀ samePMem, operatorEq samePMem D A = .ok true := by
  have hS := operatorAdd_spec A B hA hB hr hc hfit
  have hD := operatorSub_spec (Matrix.ofCells A.rows A.columns
    (fun k => A.pMem.getD k 0 + B.pMem.getD k 0)) B (ofCells_wellFormed _ _ _) hB hr hc hfit
  refine ⟨_, _, hS, hD, ?_⟩
  have hback : Matrix.ofCells A.rows A.columns
      (fun k => (Matrix.ofCells A.rows A.columns
        (fun k => A.pMem.getD k 0 + B.pMem.getD k 0)).pMem.getD k 0 - B.pMem.getD k 0) = A := by
    symm
    apply eq_ofCells A _ _ _ rfl rfl hA
    intro k hk
    rw [ofCells_getD _ _ _ k hk]
    ring
  intro samePMem
  exact (operatorEq_iff_eq samePMem _ A (ofCells_wellFormed _ _ _) hA
    (fun _ => hback)).mpr hback

/-- Scalar multiplication of a matrix with at least one cell returns a matrix of the same
shape whose every element is the source element times `alpha`; `(A * 1.0) == A`; `(A * 0.0)`
equals the zero-filled `Matrix(A.rows, A.columns)`; and
`column[5,5,5,5,5] * 0.2 == column[1,1,1,1,1]`. -/
theorem operatorScale_correct (A : Matrix K) (hA : A.WellFormed) (alpha : K)
    (hfit : fits A.rows A.columns) :
    (∃ C, operatorScale A alpha = .ok C ∧ C.rows = A.rows ∧ C.columns = A.columns ∧
      C.WellFormed ∧
      ∀ i j, i < A.rows → j < A.columns → C.get i j = .ok (A.elem i j * alpha)) ∧
    (∃ C, operatorScale A 1 = .ok C ∧ ∀ samePMem, operatorEq samePMem C A = .ok true) ∧
    (∃ C Z, operatorScale A 0 = .ok C ∧ Matrix.sized A.rows A.columns = .ok Z ∧
      ∀ samePMem, operatorEq samePMem C Z = .ok true) ∧
    (∃ c d s : Matrix K, Matrix.fromVector [5, 5, 5, 5, 5] = .ok c ∧
      Matrix.fromVector [1, 1, 1, 1, 1] = .ok d ∧
      operatorScale c 0.2 = .ok s ∧ ∀ samePMem, operatorEq samePMem s d = .ok true) := by
  refine ⟨?_, ?_, ?_, ?_⟩
  · refine ⟨_, operatorScale_spec A alpha hA hfit, rfl, rfl, ofCells_wellFormed _ _ _, ?_⟩
    intro i j hi hj
    rw [get_eq_elem _ (ofCells_wellFormed _ _ _) i j hi hj, ofCells_elem _ _ _ i j hi hj]
    rfl
  · refine ⟨_, operatorScale_spec A 1 hA hfit, ?_⟩
    have hone : Matrix.ofCells A.rows A.columns (fun k => A.pMem.getD k 0 * 1) = A := by
      symm
      apply eq_ofCells A _ _ _ rfl rfl hA
      intro k _
      ring
    intro samePMem
    exact (operatorEq_iff_eq samePMem _ A (ofCells_wellFormed _ _ _) hA
      (fun _ => hone)).mpr hone
  · refine ⟨_, _, operatorScale_spec A 0 hA hfit, sized_ok _ _ hfit, ?_⟩
    have hzero : Matrix.ofCells A.rows A.columns (fun k => A.pMem.getD k 0 * 0) =
        Matrix.zeros A.rows A.columns := by
      rw [zeros_eq_ofCells]
      apply ofCells_congr
      intro k _
      ring
    have hw : (Matrix.zeros A.rows A.columns : Matrix K).WellFormed := by
      rw [zeros_eq_ofCells]
      exact ofCells_wellFormed _ _ _
    intro samePMem
    exact (operatorEq_iff_eq samePMem _ _ (ofCells_wellFormed _ _ _) hw
      (fun _ => hzero)).mpr hzero
  · have hc : (⟨5, 1, [5, 5, 5, 5, 5]⟩ : Matrix K).WellFormed := by simp [Matrix.WellFormed]
    have hd : (⟨5, 1, [1, 1, 1, 1, 1]⟩ : Matrix K).WellFormed := by simp [Matrix.WellFormed]
    refine ⟨⟨5, 1, [5, 5, 5, 5, 5]⟩, ⟨5, 1, [1, 1, 1, 1, 1]⟩, _,
      by simp [Matrix.fromVector], by simp [Matrix.fromVector],
      operatorScale_spec _ 0.2 hc (show fits 5 1 by decide), ?_⟩
    have hfifth : Matrix.ofCells 5 1 (fun k => ([5, 5, 5, 5, 5] : List K).getD k 0 * 0.2) =
        ⟨5, 1, [1, 1, 1, 1, 1]⟩ := by
      simp [Matrix.ofCells, List.range_succ]
      norm_num
    intro samePMem
    exact (operatorEq_iff_eq samePMem _ _ (ofCells_wellFormed _ _ _) hd
      (fun _ => hfifth)).mpr hfifth

/-- For `n ≥ 1` the identity of the tests is built without error; its buffer has one on the
diagonal offsets and zero elsewhere. -/
theorem identity_spec (n : Nat) (hfit : fits n n) :
    (identity n : Except Error (Matrix K)) =
      .ok (Matrix.ofCells n n (fun k => if k / n = k % n then 1 else 0)) := by
  obtain ⟨E, hrun, h1, h2, h3, h4⟩ := forM_invariant
    (fun i (E : Matrix K) => E.set 1 i i)
    (fun i E => E.rows = n ∧ E.columns = n ∧ E.pMem.length = n * n ∧
      ∀ k, k < n * n → E.pMem.getD k 0 = if k / n = k % n ∧ k / n < i then 1 else 0)
    0 n (Matrix.zeros n n) (Nat.zero_le _)
    ⟨rfl, rfl, by simp [Matrix.zeros], by
      intro k hk
      have : ¬ (k / n = k % n ∧ k / n < 0) := by omega
      rw [if_neg this]
      simp [Matrix.zeros, List.getD_eq_getElem?_getD, List.getElem?_replicate, hk]⟩
    (by
      intro i E _ hi ⟨e1, e2, e3, e4⟩
      have hoff : i * n + i < n * n := offset_lt hi hi
      refine ⟨⟨E.rows, E.columns, E.pMem.set (i * n + i) 1⟩, ?_, e1, e2, ?_, ?_⟩
      · have hw := write_ok E (i * n + i) (1 : K) (by rw [e3]; exact hoff)
        show E.write (i * E.columns + i) 1 = _
        rw [e2, hw, e2]
      · simp [e3]
      · intro k hk
        show (E.pMem.set (i * n + i) 1).getD k 0 = _
        rw [getD_set _ _ _ _ (by rw [e3]; exact hoff)]
        obtain ⟨d1, d2⟩ := offset_div_mod n i i hi
        by_cases hki : k = i * n + i
        · have hcond : k / n = k % n ∧ k / n < i + 1 := by
            rw [hki, d1, d2]; omega
          rw [if_pos hki, if_pos hcond]
        · rw [if_neg hki, e4 k hk]
          have hiff : (k / n = k % n ∧ k / n < i + 1) ↔ (k / n = k % n ∧ k / n < i) := by
            constructor
            · intro ⟨g1, g2⟩
              refine ⟨g1, ?_⟩
              by_contra hge
              have hdiv : k / n = i := by omega
              have hsplit := Nat.div_add_mod' k n
              rw [← g1, hdiv] at hsplit
              exact hki hsplit.symm
            · intro ⟨g1, g2⟩
              exact ⟨g1, by omega⟩
          simp only [hiff])
  simp only [identity, sized_ok n n hfit]
  rw [hrun]
  congr 1
  apply eq_ofCells E n n _ h1 h2 h3
  intro k hk
  rw [h4 k hk]
  have hdiv : k / n < n := by
    have hn : 0 < n := by
      rcases Nat.eq_zero_or_pos n with h0 | h0
      · rw [h0] at hk; simp at hk
      · exact h0
    rw [Nat.div_lt_iff_lt_mul hn]; exact hk
  simp [hdiv]

theorem identity_elem (n i j : Nat) (hi : i < n) (hj : j < n) :
    (Matrix.ofCells n n (fun k => if k / n = k % n then (1 : K) else 0)).elem i j =
      if i = j then 1 else 0 := by
  rw [ofCells_elem _ _ _ i j hi hj]
  obtain ⟨d1, d2⟩ := offset_div_mod n i j hj
  rw [d1, d2]

/-- For every `n ≥ 1` (with `n * n` below the range of `std::size_t`) and every `n × n`
matrix `F`, the matrix `I` built from `Matrix(n, n)` by `set(1, i, i)` for every `i < n` is
built without error, both products are returned, and `(I * F) == F` and `(F * I) == F` are
true. -/
theorem mul_identity (n : Nat) (F : Matrix K) (hF : F.WellFormed) (hr : F.rows = n)
    (hc : F.columns = n) (hfit : fits n n) :
    ∃ I, identity n = .ok I ∧
      ∃ P Q, operatorMul I F = .ok P ∧ operatorMul F I = .ok Q ∧
        ∀ samePMem, operatorEq samePMem P F = .ok true ∧ operatorEq samePMem Q F = .ok true := by
  have hI : (Matrix.ofCells n n (fun k => if k / n = k % n then (1 : K) else 0)).WellFormed :=
    ofCells_wellFormed _ _ _
  have hIF : (Matrix.ofCells n n (fun k => if k / n = k % n then (1 : K) else 0)).columns
      = F.rows := by rw [hr]; rfl
  have hFI : F.columns
      = (Matrix.ofCells n n (fun k => if k / n = k % n then (1 : K) else 0)).rows := by
    rw [hc]; rfl
  have hfitP : fits (Matrix.ofCells n n
      (fun k => if k / n = k % n then (1 : K) else 0)).rows F.columns := by
    rw [hc]; exact hfit
  have hfitQ : fits F.rows (Matrix.ofCells n n
      (fun k => if k / n = k % n then (1 : K) else 0)).columns := by
    rw [hr]; exact hfit
  have hP := operatorMul_spec _ F hI hF hIF hfitP
  have hQ := operatorMul_spec F _ hF hI hFI hfitQ
  refine ⟨_, identity_spec n hfit, _, _, hP, hQ, ?_⟩
  have hPF : Matrix.ofCells (Matrix.ofCells n n
      (fun k => if k / n = k % n then (1 : K) else 0)).rows F.columns
      (fun o => dot (Matrix.ofCells n n (fun k => if k / n = k % n then (1 : K) else 0)) F
        (o / F.columns) (o % F.columns)
        (Matrix.ofCells n n (fun k => if k / n = k % n then (1 : K) else 0)).columns) = F := by
    apply eq_of_elems _ F (ofCells_wellFormed _ _ _) hF
    · show n = F.rows
      rw [hr]
    · rfl
    · intro i j hi hj
      have hi' : i < n := hi
      have hj' : j < F.columns := hj
      rw [operatorMul_elem _ F _ hI hF hIF hfitP hP i j hi hj]
      show ∑ k in Finset.range n, _ = _
      have hterm : ∀ k ∈ Finset.range n,
          (Matrix.ofCells n n (fun k => if k / n = k % n then (1 : K) else 0)).elem i k *
            F.elem k j = if i = k then F.elem k j else 0 := by
        intro k hk
        rw [identity_elem n i k hi' (Finset.mem_range.mp hk)]
        by_cases hik : i = k
        · simp [hik]
        · simp [hik]
      rw [Finset.sum_congr rfl hterm, Finset.sum_ite_eq, if_pos (Finset.mem_range.mpr hi')]
  have hQF : Matrix.ofCells F.rows (Matrix.ofCells n n
      (fun k => if k / n = k % n then (1 : K) else 0)).columns
      (fun o => dot F (Matrix.ofCells n n (fun k => if k / n = k % n then (1 : K) else 0))
        (o / (Matrix.ofCells n n (fun k => if k / n = k % n then (1 : K) else 0)).columns)
        (o % (Matrix.ofCells n n (fun k => if k / n = k % n then (1 : K) else 0)).columns)
        F.columns) = F := by
    apply eq_of_elems _ F (ofCells_wellFormed _ _ _) hF
    · rfl
    · show n = F.columns
      rw [hc]
    · intro i j hi hj
      have hi' : i < F.rows := hi
      have hj' : j < n := hj
      rw [operatorMul_elem F _ _ hF hI hFI hfitQ hQ i j hi hj, hc]
      have hterm : ∀ k ∈ Finset.range n,
          F.elem i k *
            (Matrix.ofCells n n (fun k => if k / n = k % n then (1 : K) else 0)).elem k j =
            if j = k then F.elem i k else 0 := by
        intro k hk
        rw [identity_elem n k j (Finset.mem_range.mp hk) hj']
        by_cases hjk : j = k
        · simp [hjk]
        · have hkj : ¬ k = j := fun h => hjk h.symm
          simp [hjk, hkj]
      rw [Finset.sum_congr rfl hterm, Finset.sum_ite_eq, if_pos (Finset.mem_range.mpr hj')]
  intro samePMem
  exact ⟨(operatorEq_iff_eq samePMem _ F (ofCells_wellFormed _ _ _) hF (fun _ => hPF)).mpr hPF,
    (operatorEq_iff_eq samePMem _ F (ofCells_wellFormed _ _ _) hF (fun _ => hQF)).mpr hQF⟩

/-! ### The operators on the matrix without cells -/

/-- C2: `Matrix()` has as many columns as rows, yet `Matrix() * Matrix()` raises
`std::bad_array_new_length` (the allocation of the result) instead of returning the product
of shape `(0, 0)`. -/
theorem operatorMul_empty :
    (Matrix.empty : Matrix ℚ).columns = (Matrix.empty : Matrix ℚ).rows ∧
    operatorMul (Matrix.empty : Matrix ℚ) Matrix.empty = .error .bad_array_new_length := by
  refine ⟨rfl, ?_⟩
  simp [operatorMul, Matrix.empty, Matrix.sized, newArray, sizeMul]

/-- C3: the shapes of `sampleA` (2 × 2) and `Matrix()` differ and `sampleA + Matrix()` raises
the invalid-argument error, but `sampleA - Matrix()` raises `std::bad_array_new_length`: the
operand `Matrix() * (-1.0)` is evaluated before `operator+` compares the shapes. -/
theorem sub_mismatch_empty :
    sampleA.rows ≠ (Matrix.empty : Matrix ℚ).rows ∧
    operatorAdd sampleA Matrix.empty = .error .invalid_argument ∧
    operatorSub sampleA Matrix.empty = .error .bad_array_new_length := by
  refine ⟨by decide, ?_, ?_⟩
  · simp [operatorAdd, Matrix.empty, sampleA]
  · simp [operatorSub, operatorScale, Matrix.empty, Matrix.sized, newArray, sizeMul]

/-- C4: `Matrix()` and `Matrix()` have the same shape, yet `Matrix() + Matrix()` raises
`std::bad_array_new_length` instead of returning a matrix of that shape. -/
theorem operatorAdd_empty :
    operatorAdd (Matrix.empty : Matrix ℚ) Matrix.empty = .error .bad_array_new_length := by
  simp [operatorAdd, Matrix.empty, Matrix.sized, newArray, sizeMul]

/-- C5: `Matrix() - Matrix()` raises `std::bad_array_new_length`, already in its operand
`Matrix() * (-1.0)`, instead of returning the difference of two same-shaped matrices. -/
theorem operatorSub_empty :
    operatorScale (Matrix.empty : Matrix ℚ) (-1) = .error .bad_array_new_length ∧
    operatorSub (Matrix.empty : Matrix ℚ) Matrix.empty = .error .bad_array_new_length := by
  constructor <;>
    simp [operatorSub, operatorScale, Matrix.empty, Matrix.sized, newArray, sizeMul]

/-- C6: for `A = B = Matrix()` there are no `S = A + B` and `D = S - B` at all, so
`((A + B) - B) == A` is not evaluated to true. -/
theorem add_sub_empty :
    ¬ ∃ S D, operatorAdd (Matrix.empty : Matrix ℚ) Matrix.empty = .ok S ∧
      operatorSub S Matrix.empty = .ok D ∧
      operatorEq false D (Matrix.empty : Matrix ℚ) = .ok true := by
  rintro ⟨S, D, h, _⟩
  simp [operatorAdd, Matrix.empty, Matrix.sized, newArray, sizeMul] at h

/-- C7: scalar multiplication fails on `Matrix()`: `Matrix() * 1.0` and `Matrix() * 0.0`
raise `std::bad_array_new_length`, and so does the zero-filled `Matrix(0, 0)` they are
compared with. -/
theorem operatorScale_empty :
    operatorScale (Matrix.empty : Matrix ℚ) 1 = .error .bad_array_new_length ∧
    operatorScale (Matrix.empty : Matrix ℚ) 0 = .error .bad_array_new_length ∧
    (Matrix.sized 0 0 : Except Error (Matrix ℚ)) = .error .bad_array_new_length := by
  refine ⟨?_, ?_, ?_⟩ <;>
    simp [operatorScale, Matrix.empty, Matrix.sized, newArray, sizeMul]

/-- C8: for `n = 0` the matrix `I` cannot be built: `Matrix(0, 0)` raises
`std::bad_array_new_length`, although the `0 × 0` matrix `F = Matrix()` exists and satisfies
the shape invariant. -/
theorem identity_zero :
    (identity 0 : Except Error (Matrix ℚ)) = .error .bad_array_new_length ∧
    (Matrix.sized 0 0 : Except Error (Matrix ℚ)) = .error .bad_array_new_length ∧
    (Matrix.empty : Matrix ℚ).rows = 0 ∧ (Matrix.empty : Matrix ℚ).columns = 0 ∧
    (Matrix.empty : Matrix ℚ).WellFormed := by
  refine ⟨?_, ?_, rfl, rfl, rfl⟩ <;>
    simp [identity, Matrix.sized, newArray, sizeMul]

/-- C9: `A == B` is true exactly when `A` and `B` have the same rows, the same columns and
equal elements at every position (exact scalar equality); `A == A` always; `A == B` iff
`B == A`; differing shapes give `A != B`; `A != B` is the negation of `A == B`.  The pointer
test of `operator==` can only succeed for one and the same matrix. -/
theorem operatorEq_correct (A B : Matrix K) (hA : A.WellFormed) (hB : B.WellFormed)
    (samePMem : Bool) (hsame : samePMem = true → A = B) :
    (operatorEq samePMem A B = .ok true ↔
      (A.rows = B.rows ∧ A.columns = B.columns ∧
        ∀ i j, i < A.rows → j < A.columns → A.elem i j = B.elem i j)) ∧
    (∀ s, operatorEq s A A = .ok true) ∧
    (operatorEq samePMem A B = .ok true ↔ operatorEq samePMem B A = .ok true) ∧
    ((A.rows ≠ B.rows ∨ A.columns ≠ B.columns) → operatorNe samePMem A B = .ok true) ∧
    (∃ r, operatorEq samePMem A B = .ok r ∧ operatorNe samePMem A B = .ok (!r)) := by
  have hiff := operatorEq_iff_eq samePMem A B hA hB hsame
  refine ⟨?_, ?_, ?_, ?_, ?_⟩
  · rw [hiff]
    constructor
    · intro h
      rw [h]
      exact ⟨rfl, rfl, fun _ _ _ _ => rfl⟩
    · intro ⟨h1, h2, h3⟩
      exact eq_of_elems A B hA hB h1 h2 h3
  · intro s
    exact (operatorEq_iff_eq s A A hA hA (fun _ => rfl)).mpr rfl
  · rw [hiff, operatorEq_iff_eq samePMem B A hB hA (fun h => (hsame h).symm)]
    exact eq_comm
  · intro hshape
    obtain ⟨r, hr⟩ := operatorEq_total samePMem A B hA hB
    have hne : A ≠ B := by
      intro h
      rw [h] at hshape
      simp at hshape
    have hrf : r = false := by
      cases r with
      | false => rfl
      | true => exact absurd (hiff.mp hr) hne
    simp only [operatorNe, hr, hrf]
    rfl
  · obtain ⟨r, hr⟩ := operatorEq_total samePMem A B hA hB
    exact ⟨r, hr, by simp only [operatorNe, hr]⟩

/-- C9, at `sampleA` and `sampleB`, two distinct matrices. -/
theorem operatorEq_correct_witness :
    operatorNe false sampleA sampleB = .ok true ∧ operatorEq false sampleA sampleA = .ok true :=
  have h := operatorEq_correct sampleA sampleB (by decide) (by decide) false (by simp)
  ⟨h.2.2.2.1 (by decide), h.2.1 false⟩

/-- C10: `get(i, j)` raises the range error exactly when `i > rows` or `j > columns` (the
index is compared with `rows` and `columns` themselves); for `i < rows` and `j < columns`
it returns the buffer element at offset `i * columns + j`; `data(i)` raises the range error
exactly when `i > rows` and otherwise designates offset `i * columns`. -/
theorem get_data_bounds (m : Matrix K) (i j : Nat) :
    (m.get i j = .error .range_error ↔ (m.rows < i ∨ m.columns < j)) ∧
    (m.WellFormed → i < m.rows → j < m.columns →
      ∃ h : i * m.columns + j < m.pMem.length,
        m.get i j = .ok (m.pMem.get ⟨i * m.columns + j, h⟩)) ∧
    (m.data i = .error .range_error ↔ m.rows < i) ∧
    (¬ m.rows < i → m.data i = .ok (i * m.columns)) := by
  refine ⟨?_, ?_, ?_, ?_⟩
  · by_cases hg : m.rows < i ∨ m.columns < j
    · simp only [Matrix.get, hg, if_true]
    · simp only [Matrix.get, hg, if_false, iff_false]
      exact read_ne_range_error m _
  · intro hm hi hj
    have hoff : i * m.columns + j < m.pMem.length := by
      rw [hm]; exact offset_lt hi hj
    have hg : ¬ (m.rows < i ∨ m.columns < j) := by omega
    refine ⟨hoff, ?_⟩
    simp only [Matrix.get, hg, if_false]
    exact read_of_lt m _ hoff
  · by_cases hg : m.rows < i
    · simp only [Matrix.data, hg, if_true]
    · simp [Matrix.data, hg]
  · intro hg
    simp only [Matrix.data, hg, if_false]

/-- C10, at the 2 × 3 matrix `sampleWide`: `get(1, 2)` is the cell at offset 5, `get(2, 3)`
passes the guard, `get(3, 0)` raises the range error. -/
theorem get_data_bounds_witness :
    (∃ h : 1 * sampleWide.columns + 2 < sampleWide.pMem.length,
      sampleWide.get 1 2 = .ok (sampleWide.pMem.get ⟨1 * sampleWide.columns + 2, h⟩)) ∧
    sampleWide.get 2 3 ≠ .error .range_error ∧
    sampleWide.get 3 0 = .error .range_error ∧
    sampleWide.data 2 = .ok 6 :=
  ⟨(get_data_bounds sampleWide 1 2).2.1 (by decide) (by decide) (by decide),
    fun h => absurd ((get_data_bounds sampleWide 2 3).1.mp h) (by decide),
    (get_data_bounds sampleWide 3 0).1.mpr (by decide),
    (get_data_bounds sampleWide 2 0).2.2.2 (by decide)⟩

/-! ### Accessors and constructors -/

theorem offset_inj {c i j i' j' : Nat} (hj : j < c) (hj' : j' < c)
    (h : i * c + j = i' * c + j') : i = i' ∧ j = j' := by
  obtain ⟨d1, d2⟩ := offset_div_mod c i j hj
  obtain ⟨e1, e2⟩ := offset_div_mod c i' j' hj'
  rw [h] at d1 d2
  exact ⟨by rw [← d1, e1], by rw [← d2, e2]⟩

theorem stdCopy_length (src dst cells : List K) (cnt : Nat)
    (h : stdCopy src cnt dst = .ok cells) : cells.length = dst.length := by
  unfold stdCopy at h
  by_cases hc : cnt ≤ src.length ∧ cnt ≤ dst.length
  · rw [if_pos hc] at h
    have h' := Except.ok.inj h
    rw [← h']
    simp only [List.length_append, List.length_take, List.length_drop]
    omega
  · rw [if_neg hc] at h
    simp at h

theorem stdCopy_whole (src : List K) (dst : List K) (h : src.length = dst.length) :
    stdCopy src dst.length dst = .ok src := by
  have hc : dst.length ≤ src.length ∧ dst.length ≤ dst.length := by omega
  rw [stdCopy, if_pos hc, ← h]
  simp [h]

/-- C11: for a matrix with `r` rows and `c` columns, a value `v` and an in-bounds `(i, j)`:
`set(v, i, j)` succeeds, afterwards `get(i, j)` returns `v`, `get(i', j')` is unchanged at
every other in-bounds position, and `size()` is unchanged. -/
theorem set_get_frame (m : Matrix K) (hm : m.WellFormed) (v : K) (i j : Nat)
    (hi : i < m.rows) (hj : j < m.columns) :
    ∃ m', m.set v i j = .ok m' ∧ m'.get i j = .ok v ∧
      (∀ i' j', i' < m.rows → j' < m.columns → (i', j') ≠ (i, j) →
        m'.get i' j' = m.get i' j') ∧
      m'.size = m.size := by
  have hoff : i * m.columns + j < m.pMem.length := by
    rw [hm]; exact offset_lt hi hj
  refine ⟨⟨m.rows, m.columns, m.pMem.set (i * m.columns + j) v⟩,
    write_ok m _ v hoff, ?_, ?_, rfl⟩
  · have hg : ¬ (m.rows < i ∨ m.columns < j) := by omega
    simp only [Matrix.get, hg, if_false, Matrix.read]
    rw [List.getElem?_set_self hoff]
  · intro i' j' hi' hj' hne
    have hg : ¬ (m.rows < i' ∨ m.columns < j') := by omega
    have hoffne : i * m.columns + j ≠ i' * m.columns + j' := by
      intro h
      obtain ⟨h1, h2⟩ := offset_inj hj hj' h
      exact hne (by rw [h1, h2])
    simp only [Matrix.get, hg, if_false, Matrix.read]
    rw [List.getElem?_set_ne hoffne]

/-- C11, at `sampleWide` and the write `set(9, 1, 1)`. -/
theorem set_get_frame_witness :
    ∃ m', sampleWide.set 9 1 1 = .ok m' ∧ m'.get 1 1 = .ok 9 ∧
      (∀ i' j', i' < 2 → j' < 3 → (i', j') ≠ (1, 1) →
        m'.get i' j' = sampleWide.get i' j') ∧
      m'.size = sampleWide.size :=
  set_get_frame sampleWide (by decide) 9 1 1 (by decide) (by decide)

theorem newArray_ok (len : Nat) (h : 0 < len) :
    (newArray len : Except Error (List K)) = .ok (List.replicate len 0) := by
  have hne : ¬ len = 0 := by omega
  simp only [newArray, if_neg hne]

theorem newArray_length (len : Nat) (cells : List K) (h : newArray len = .ok cells) :
    cells.length = len := by
  unfold newArray at h
  by_cases h0 : len = 0
  · rw [if_pos h0] at h
    simp at h
  · rw [if_neg h0] at h
    rw [← Except.ok.inj h]
    simp

/-- The constructor from a value sequence raises the invalid-argument error exactly when the
sequence is empty, the constructor from a pointer and a length exactly when the pointer is
null; a non-empty sequence, and a pointer designating at least `m ≥ 1` cells, give a column
with `rows = length`, `columns = 1` and `get(i, 0)` the `i`-th source value. -/
theorem construction_correct (vec : List K) (mem : Option (List K)) (m : Nat) :
    (Matrix.fromVector vec = .error .invalid_argument ↔ vec = []) ∧
    (Matrix.fromPointer mem m = .error .invalid_argument ↔ mem = none) ∧
    (vec ≠ [] → ∃ M, Matrix.fromVector vec = .ok M ∧ M.rows = vec.length ∧ M.columns = 1 ∧
      ∀ i (h : i < vec.length), M.get i 0 = .ok (vec.get ⟨i, h⟩)) ∧
    (∀ src, mem = some src → fits m 1 → m ≤ src.length →
      ∃ M, Matrix.fromPointer mem m = .ok M ∧ M.rows = m ∧ M.columns = 1 ∧
        ∀ i (h : i < m) (h' : i < src.length), M.get i 0 = .ok (src.get ⟨i, h'⟩)) := by
  refine ⟨?_, ?_, ?_, ?_⟩
  · cases vec with
    | nil => simp [Matrix.fromVector]
    | cons a l => simp [Matrix.fromVector]
  · cases mem with
    | none => simp [Matrix.fromPointer]
    | some src =>
      simp only [Matrix.fromPointer]
      cases hn : (newArray (sizeMul m 1) : Except Error (List K)) with
      | error e =>
        unfold newArray at hn
        by_cases h0 : sizeMul m 1 = 0
        · rw [if_pos h0] at hn
          rw [← Except.error.inj hn]
          simp
        · rw [if_neg h0] at hn
          simp at hn
      | ok buffer =>
        simp only [stdCopy]
        by_cases hc : m ≤ src.length ∧ m ≤ buffer.length
        · rw [if_pos hc]; simp
        · rw [if_neg hc]; simp
  · intro hne
    have hemp : vec.isEmpty = false := by
      cases vec with
      | nil => exact absurd rfl hne
      | cons a l => rfl
    refine ⟨⟨vec.length, 1, vec⟩, by simp [Matrix.fromVector, hemp], rfl, rfl, ?_⟩
    intro i h
    have hg : ¬ (vec.length < i ∨ 1 < 0) := by omega
    simp only [Matrix.get, hg, if_false]
    have hoff : i * 1 + 0 < vec.length := by omega
    have hidx : i * 1 + 0 = i := by omega
    rw [read_of_lt ⟨vec.length, 1, vec⟩ (i * 1 + 0) hoff]
    simp [hidx]
  · intro src hmem hfit hlen
    subst hmem
    have hc : m ≤ src.length ∧ m ≤ (List.replicate (m * 1) (0 : K)).length := by
      simp [hlen]
    refine ⟨⟨m, 1, src.take m⟩, ?_, rfl, rfl, ?_⟩
    · simp only [Matrix.fromPointer, sizeMul_fits hfit, newArray_ok (m * 1) hfit.1, stdCopy]
      rw [if_pos hc]
      simp
    · intro i h h'
      have hg : ¬ (m < i ∨ 1 < 0) := by omega
      simp only [Matrix.get, hg, if_false, Matrix.read]
      have hidx : i * 1 + 0 = i := by omega
      rw [hidx, List.getElem?_take, if_pos h, List.getElem?_eq_getElem h']
      rfl

/-- C12: the pointer constructor called with a non-null pointer and the length 0 raises
`std::bad_array_new_length` instead of returning a column with `rows = 0`; the constructor
from a sequence rejects the empty sequence with the invalid-argument error. -/
theorem fromPointer_zero_length :
    Matrix.fromPointer (some sampleCells) 0 = .error .bad_array_new_length ∧
    Matrix.fromVector ([] : List ℚ) = .error .invalid_argument := by
  constructor
  · simp [Matrix.fromPointer, newArray, sizeMul]
  · simp [Matrix.fromVector]

/-! ### The shape invariant -/

theorem fromVector_shape (vec : List K) (M : Matrix K) (h : Matrix.fromVector vec = .ok M) :
    M.rows = vec.length ∧ M.columns = 1 ∧ M.WellFormed := by
  unfold Matrix.fromVector at h
  by_cases he : vec.isEmpty = true
  · rw [if_pos he] at h
    simp at h
  · rw [if_neg he] at h
    have h' := Except.ok.inj h
    rw [← h']
    simp [Matrix.WellFormed]

theorem write_length (m m' : Matrix K) (off : Nat) (x : K) (h : m.write off x = .ok m') :
    m'.pMem.length = m.pMem.length := by
  unfold Matrix.write at h
  by_cases hlt : off < m.pMem.length
  · rw [if_pos hlt] at h
    rw [← Except.ok.inj h]
    simp
  · rw [if_neg hlt] at h
    simp at h

theorem sized_length (r c : Nat) (res : Matrix K) (h : Matrix.sized r c = .ok res) :
    res.pMem.length = sizeMul r c := by
  unfold Matrix.sized at h
  cases hn : (newArray (sizeMul r c) : Except Error (List K)) with
  | error e => rw [hn] at h; simp at h
  | ok cells =>
    rw [hn] at h
    rw [← Except.ok.inj h]
    exact newArray_length _ _ hn

theorem sizeMul_small {r c : Nat} (h : r * c < sizeMax) : sizeMul r c = r * c :=
  Nat.mod_eq_of_lt h

/-- A matrix returned by `Matrix(r, c)` satisfies the shape invariant when `r * c` does not
wrap, and its cells are zero. -/
theorem sized_wellFormed (r c : Nat) (res : Matrix K) (hsmall : r * c < sizeMax)
    (h : Matrix.sized r c = .ok res) :
    res.WellFormed ∧ res.pMem = List.replicate (r * c) 0 := by
  have hlen := sized_length r c res h
  obtain ⟨e1, e2⟩ := sized_shape r c res h
  refine ⟨by rw [Matrix.WellFormed, hlen, e1, e2, sizeMul_small hsmall], ?_⟩
  unfold Matrix.sized newArray at h
  by_cases h0 : sizeMul r c = 0
  · rw [if_pos h0] at h
    simp at h
  · rw [if_neg h0] at h
    simp only [] at h
    rw [← Except.ok.inj h, sizeMul_small hsmall]

theorem zeros_wellFormed (m n : Nat) : (Matrix.zeros m n : Matrix K).WellFormed := by
  simp [Matrix.zeros, Matrix.WellFormed]

theorem fromPointer_wellFormed (mem : Option (List K)) (m : Nat) (M : Matrix K)
    (hsmall : m < sizeMax) (h : Matrix.fromPointer mem m = .ok M) : M.WellFormed := by
  cases mem with
  | none => simp [Matrix.fromPointer] at h
  | some src =>
    simp only [Matrix.fromPointer] at h
    cases hn : (newArray (sizeMul m 1) : Except Error (List K)) with
    | error e => rw [hn] at h; simp at h
    | ok buffer =>
      rw [hn] at h
      simp only [] at h
      cases hcopy : stdCopy src m buffer with
      | error e => rw [hcopy] at h; simp at h
      | ok cells =>
        rw [hcopy] at h
        rw [← Except.ok.inj h]
        have hlen := stdCopy_length _ _ _ _ hcopy
        have hbuf := newArray_length _ _ hn
        have hm : sizeMul m 1 = m * 1 := sizeMul_small (by omega)
        simp only [Matrix.WellFormed, hlen, hbuf, hm]

theorem copy_wellFormed (A M : Matrix K) (hsmall : A.rows * A.columns < sizeMax)
    (h : A.copy = .ok M) : M.WellFormed := by
  simp only [Matrix.copy] at h
  cases hn : (newArray (sizeMul A.rows A.columns) : Except Error (List K)) with
  | error e => rw [hn] at h; simp at h
  | ok buffer =>
    rw [hn] at h
    simp only [] at h
    cases hcopy : stdCopy A.pMem (sizeMul A.rows A.columns) buffer with
    | error e => rw [hcopy] at h; simp at h
    | ok cells =>
      rw [hcopy] at h
      rw [← Except.ok.inj h]
      have hlen := stdCopy_length _ _ _ _ hcopy
      have hbuf := newArray_length _ _ hn
      simp only [Matrix.WellFormed, hlen, hbuf, sizeMul_small hsmall]

/-- Copying a matrix with at least one cell returns an equal matrix. -/
theorem copy_spec (A : Matrix K) (hA : A.WellFormed) (hfit : fits A.rows A.columns) :
    A.copy = .ok A := by
  have h := stdCopy_whole A.pMem (List.replicate (A.rows * A.columns) (0 : K))
    (by rw [hA]; simp)
  simp only [List.length_replicate] at h
  simp only [Matrix.copy, sizeMul_fits hfit, newArray_ok _ hfit.1, h]

theorem assign_wellFormed (sameObject : Bool) (A B M : Matrix K) (hA : A.WellFormed)
    (hsmall : B.rows * B.columns < sizeMax) (h : A.assign sameObject B = .ok M) :
    M.WellFormed := by
  cases sameObject with
  | true =>
    simp only [Matrix.assign, if_true] at h
    rw [← Except.ok.inj h]
    exact hA
  | false =>
    simp only [Matrix.assign, Bool.false_eq_true, if_false] at h
    by_cases hshape : A.rows ≠ B.rows ∨ A.columns ≠ B.columns
    · rw [if_pos hshape] at h
      cases hn : (newArray (sizeMul B.rows B.columns) : Except Error (List K)) with
      | error e => rw [hn] at h; simp at h
      | ok buffer =>
        rw [hn] at h
        simp only [] at h
        cases hcopy : stdCopy B.pMem (sizeMul B.rows B.columns) buffer with
        | error e => rw [hcopy] at h; simp at h
        | ok cells =>
          rw [hcopy] at h
          rw [← Except.ok.inj h]
          have hlen := stdCopy_length _ _ _ _ hcopy
          have hbuf := newArray_length _ _ hn
          simp only [Matrix.WellFormed, hlen, hbuf, sizeMul_small hsmall]
    · rw [if_neg hshape] at h
      cases hcopy : stdCopy B.pMem (sizeMul A.rows A.columns) A.pMem with
      | error e => rw [hcopy] at h; simp at h
      | ok cells =>
        rw [hcopy] at h
        rw [← Except.ok.inj h]
        have hlen := stdCopy_length _ _ _ _ hcopy
        simp only [Matrix.WellFormed, hlen]
        exact hA

/-- Assigning a matrix with at least one cell makes the receiver equal to it. -/
theorem assign_spec (sameObject : Bool) (A B : Matrix K) (hA : A.WellFormed)
    (hB : B.WellFormed) (hfit : fits B.rows B.columns) :
    A.assign sameObject B = .ok (if sameObject then A else B) := by
  cases sameObject with
  | true => simp [Matrix.assign]
  | false =>
    simp only [Matrix.assign, Bool.false_eq_true, if_false]
    by_cases hshape : A.rows ≠ B.rows ∨ A.columns ≠ B.columns
    · rw [if_pos hshape]
      have h := stdCopy_whole B.pMem (List.replicate (B.rows * B.columns) (0 : K))
        (by rw [hB]; simp)
      simp only [List.length_replicate] at h
      simp only [sizeMul_fits hfit, newArray_ok _ hfit.1, h]
    · rw [if_neg hshape]
      have hr : A.rows = B.rows := by tauto
      have hc : A.columns = B.columns := by tauto
      have h := stdCopy_whole B.pMem A.pMem (by rw [hA, hB, hr, hc])
      rw [hA, hr, hc] at h
      rw [hr, hc, sizeMul_fits hfit, h]

/-- The loops of the operators write into the result without changing its shape or the
length of its buffer. -/
theorem fill_wellFormed (body : Nat → Matrix K → Except Error (Matrix K)) (r c len : Nat)
    (hbody : ∀ i (st st' : Matrix K), body i st = .ok st' →
      st'.rows = st.rows ∧ st'.columns = st.columns ∧ st'.pMem.length = st.pMem.length)
    (lo hi : Nat) (res M : Matrix K) (hres : res.rows = r ∧ res.columns = c ∧
      res.pMem.length = len) (h : forM lo hi body res = .ok M) :
    M.rows = r ∧ M.columns = c ∧ M.pMem.length = len := by
  refine iterM_preserves body
    (fun st : Matrix K => st.rows = r ∧ st.columns = c ∧ st.pMem.length = len)
    ?_ _ _ _ _ h hres
  intro i st st' hst ⟨p1, p2, p3⟩
  obtain ⟨e1, e2, e3⟩ := hbody i st st' hst
  exact ⟨e1.trans p1, e2.trans p2, e3.trans p3⟩

theorem operatorAdd_wellFormed (A B C : Matrix K) (hsmall : A.rows * A.columns < sizeMax)
    (h : operatorAdd A B = .ok C) : C.WellFormed := by
  unfold operatorAdd at h
  by_cases hshape : A.rows ≠ B.rows ∨ A.columns ≠ B.columns
  · rw [if_pos hshape] at h
    simp at h
  · rw [if_neg hshape] at h
    cases hz : (Matrix.sized A.rows A.columns : Except Error (Matrix K)) with
    | error e => rw [hz] at h; simp at h
    | ok res =>
      rw [hz] at h
      simp only [] at h
      obtain ⟨e1, e2⟩ := sized_shape _ _ res hz
      obtain ⟨g1, g2, g3⟩ := fill_wellFormed _ A.rows A.columns (A.rows * A.columns)
        (by
          intro i st st' hst
          cases h1 : A.read i with
          | error e => rw [h1] at hst; simp at hst
          | ok a =>
            rw [h1] at hst
            cases h2 : B.read i with
            | error e => rw [h2] at hst; simp at hst
            | ok b =>
              rw [h2] at hst
              obtain ⟨w1, w2⟩ := write_shape st st' _ _ hst
              exact ⟨w1, w2, write_length st st' _ _ hst⟩)
        _ _ res C ⟨e1, e2, by rw [sized_length _ _ res hz, sizeMul_small hsmall]⟩ h
      rw [Matrix.WellFormed, g1, g2, g3]

theorem operatorScale_wellFormed (A C : Matrix K) (alpha : K)
    (hsmall : A.rows * A.columns < sizeMax) (h : operatorScale A alpha = .ok C) :
    C.WellFormed := by
  unfold operatorScale at h
  cases hz : (Matrix.sized A.rows A.columns : Except Error (Matrix K)) with
  | error e => rw [hz] at h; simp at h
  | ok res =>
    rw [hz] at h
    simp only [] at h
    obtain ⟨e1, e2⟩ := sized_shape _ _ res hz
    obtain ⟨g1, g2, g3⟩ := fill_wellFormed _ A.rows A.columns (A.rows * A.columns)
      (by
        intro i st st' hst
        cases h1 : A.read i with
        | error e => rw [h1] at hst; simp at hst
        | ok a =>
          rw [h1] at hst
          obtain ⟨w1, w2⟩ := write_shape st st' _ _ hst
          exact ⟨w1, w2, write_length st st' _ _ hst⟩)
      _ _ res C ⟨e1, e2, by rw [sized_length _ _ res hz, sizeMul_small hsmall]⟩ h
    rw [Matrix.WellFormed, g1, g2, g3]

theorem mulCell_shape (lhs rhs : Matrix K) (i j k : Nat) (st st' : Matrix K)
    (h : mulCell lhs rhs i j k st = .ok st') :
    st'.rows = st.rows ∧ st'.columns = st.columns ∧ st'.pMem.length = st.pMem.length := by
  unfold mulCell at h
  cases h1 : lhs.get i k with
  | error e => rw [h1] at h; simp at h
  | ok a =>
    rw [h1] at h
    cases h2 : rhs.get k j with
    | error e => rw [h2] at h; simp at h
    | ok b =>
      rw [h2] at h
      cases h3 : st.read (i * rhs.columns + j) with
      | error e => rw [h3] at h; simp at h
      | ok cur =>
        rw [h3] at h
        obtain ⟨w1, w2⟩ := write_shape st st' _ _ h
        exact ⟨w1, w2, write_length st st' _ _ h⟩

theorem operatorMul_wellFormed (A B C : Matrix K) (hsmall : A.rows * B.columns < sizeMax)
    (h : operatorMul A B = .ok C) : C.WellFormed := by
  unfold operatorMul at h
  by_cases hinner : A.columns ≠ B.rows
  · rw [if_pos hinner] at h
    simp at h
  · rw [if_neg hinner] at h
    cases hz : (Matrix.sized A.rows B.columns : Except Error (Matrix K)) with
    | error e => rw [hz] at h; simp at h
    | ok res =>
      rw [hz] at h
      simp only [] at h
      obtain ⟨e1, e2⟩ := sized_shape _ _ res hz
      obtain ⟨g1, g2, g3⟩ := fill_wellFormed _ A.rows B.columns (A.rows * B.columns)
        (by
          intro i st st' hst
          have hrow := fill_wellFormed _ st.rows st.columns st.pMem.length
            (by
              intro j st1 st1' hst1
              have hcell := fill_wellFormed _ st1.rows st1.columns st1.pMem.length
                (fun k st2 st2' hst2 => mulCell_shape A B i j k st2 st2' hst2)
                _ _ st1 st1' ⟨rfl, rfl, rfl⟩ hst1
              exact hcell)
            _ _ st st' ⟨rfl, rfl, rfl⟩ hst
          exact hrow)
        _ _ res C ⟨e1, e2, by rw [sized_length _ _ res hz, sizeMul_small hsmall]⟩ h
      rw [Matrix.WellFormed, g1, g2, g3]

theorem operatorSub_wellFormed (A B C : Matrix K) (hsmall : A.rows * A.columns < sizeMax)
    (h : operatorSub A B = .ok C) : C.WellFormed := by
  unfold operatorSub at h
  cases hs : operatorScale B (-1) with
  | error e => rw [hs] at h; simp at h
  | ok N =>
    rw [hs] at h
    exact operatorAdd_wellFormed A N C hsmall h

theorem uniform_spec (draws : Nat → K) (A : Matrix K) (hA : A.WellFormed) :
    ∃ M, A.uniform_ draws = .ok M ∧ M.rows = A.rows ∧ M.columns = A.columns ∧
      M.WellFormed ∧ ∀ k, k < A.rows * A.columns → M.pMem.getD k 0 = draws k := by
  obtain ⟨M, hrun, h1, h2, h3, h4⟩ := forM_invariant
    (fun i (res : Matrix K) => res.write i (draws i))
    (fun i res => res.rows = A.rows ∧ res.columns = A.columns ∧
      res.pMem.length = A.rows * A.columns ∧ ∀ k, k < i → res.pMem.getD k 0 = draws k)
    0 (A.rows * A.columns) A (Nat.zero_le _)
    ⟨rfl, rfl, hA, fun k hk => absurd hk (Nat.not_lt_zero k)⟩
    (by
      intro i res _ hi ⟨e1, e2, e3, e4⟩
      refine ⟨⟨res.rows, res.columns, res.pMem.set i (draws i)⟩,
        write_ok res i _ (by rw [e3]; exact hi), e1, e2, by simp [e3], ?_⟩
      intro k hk
      show (res.pMem.set i (draws i)).getD k 0 = draws k
      rw [getD_set _ _ _ _ (by rw [e3]; exact hi)]
      by_cases hki : k = i
      · rw [if_pos hki, hki]
      · rw [if_neg hki]
        exact e4 k (by omega))
  exact ⟨M, hrun, h1, h2, by rw [Matrix.WellFormed, h3, h1, h2], h4⟩

theorem solve_shape (A b x : Matrix K) (h : solve A b = .ok x) :
    x.rows = max A.rows A.columns ∧ x.columns = 1 ∧ x.WellFormed := by
  unfold solve at h
  by_cases hrows : A.rows ≠ b.rows
  · rw [if_pos hrows] at h
    simp at h
  · rw [if_neg hrows] at h
    simp only [Matrix.size] at h
    cases h1 : loadCoefficients A (max A.rows A.columns) ⟨fun _ _ => 0⟩ with
    | error e => rw [h1] at h; simp at h
    | ok s1 =>
      rw [h1] at h
      simp only at h
      cases h2 : loadRhs b (max A.rows A.columns) s1 with
      | error e => rw [h2] at h; simp at h
      | ok s2 =>
        rw [h2] at h
        simp only at h
        obtain ⟨g1, g2, g3⟩ := fromVector_shape _ _ h
        refine ⟨?_, g2, g3⟩
        rw [g1]
        simp

/-- The shape invariant `buffer length = rows * columns` holds for every matrix produced by a
constructor that does not fail (empty, dimensioned, from a sequence, from a pointer and a
length, copy) and for every matrix that results from an in-bounds `set`, `uniform_`,
copy-assignment, `operator+`, `operator-`, both `operator*` and `solve` applied to matrices
satisfying it, as long as no product of two dimensions reaches the range of `std::size_t`;
`Matrix()` has no rows, no columns and an empty buffer, `Matrix(m, n)` then has `m * n`
cells, all zero. -/
theorem shape_invariant (A B : Matrix K) (hA : A.WellFormed) (hB : B.WellFormed)
    (hsA : A.rows * A.columns < sizeMax) (hsB : B.rows * B.columns < sizeMax)
    (hsAB : A.rows * B.columns < sizeMax) :
    ((Matrix.empty : Matrix K).WellFormed ∧ (Matrix.empty : Matrix K).rows = 0 ∧
      (Matrix.empty : Matrix K).columns = 0 ∧ (Matrix.empty : Matrix K).pMem = []) ∧
    (∀ m n (M : Matrix K), m * n < sizeMax → Matrix.sized m n = .ok M →
      M.WellFormed ∧ M.pMem = List.replicate (m * n) 0) ∧
    (∀ (vec : List K) (M : Matrix K), Matrix.fromVector vec = .ok M → M.WellFormed) ∧
    (∀ (mem : Option (List K)) (m : Nat) (M : Matrix K), m < sizeMax →
      Matrix.fromPointer mem m = .ok M → M.WellFormed) ∧
    (∀ M, A.copy = .ok M → M.WellFormed) ∧
    (∀ v i j, i < A.rows → j < A.columns → ∃ M, A.set v i j = .ok M ∧ M.WellFormed) ∧
    (∀ draws, ∃ M, A.uniform_ draws = .ok M ∧ M.WellFormed) ∧
    (∀ sameObject M, A.assign sameObject B = .ok M → M.WellFormed) ∧
    (∀ C, operatorAdd A B = .ok C → C.WellFormed) ∧
    (∀ C, operatorSub A B = .ok C → C.WellFormed) ∧
    (∀ C, operatorMul A B = .ok C → C.WellFormed) ∧
    (∀ alpha C, operatorScale A alpha = .ok C → C.WellFormed) ∧
    (∀ x, solve A B = .ok x → x.WellFormed) := by
  refine ⟨⟨rfl, rfl, rfl, rfl⟩, fun m n M hs h => sized_wellFormed m n M hs h,
    fun vec M h => (fromVector_shape vec M h).2.2,
    fun mem m M hs h => fromPointer_wellFormed mem m M hs h,
    fun M h => copy_wellFormed A M hsA h, ?_, ?_,
    fun sameObject M h => assign_wellFormed sameObject A B M hA hsB h,
    fun C h => operatorAdd_wellFormed A B C hsA h,
    fun C h => operatorSub_wellFormed A B C hsA h,
    fun C h => operatorMul_wellFormed A B C hsAB h,
    fun alpha C h => operatorScale_wellFormed A C alpha hsA h,
    fun x h => (solve_shape A B x h).2.2⟩
  · intro v i j hi hj
    have hoff : i * A.columns + j < A.pMem.length := by
      rw [hA]; exact offset_lt hi hj
    refine ⟨_, write_ok A _ v hoff, ?_⟩
    simp only [Matrix.WellFormed, List.length_set]
    exact hA
  · intro draws
    obtain ⟨M, h1, _, _, h2, _⟩ := uniform_spec draws A hA
    exact ⟨M, h1, h2⟩

/-- C13: `Matrix(2^62 + 1, 4)` does not fail and has 4 cells, not `(2^62 + 1) * 4`: the
product `rows * columns` handed to `new` wraps in `std::size_t`, and the matrix returned
violates the shape invariant; `get(1, 0)` passes its guard and reads at offset 4, outside the
buffer. -/
theorem sized_wraps :
    (Matrix.sized (2 ^ 62 + 1) 4 : Except Error (Matrix ℚ)) =
      .ok ⟨2 ^ 62 + 1, 4, [0, 0, 0, 0]⟩ ∧
    ¬ (⟨2 ^ 62 + 1, 4, [0, 0, 0, 0]⟩ : Matrix ℚ).WellFormed ∧
    (⟨2 ^ 62 + 1, 4, [0, 0, 0, 0]⟩ : Matrix ℚ).get 1 0 = .error .out_of_buffer := by
  have hmul : sizeMul (2 ^ 62 + 1) 4 = 4 := by decide
  refine ⟨?_, ?_, ?_⟩
  · simp only [Matrix.sized, hmul, newArray]
    rfl
  · simp [Matrix.WellFormed]
  · simp [Matrix.get, Matrix.read]

/-! ### The solver on singular and empty systems -/

/-- C14: for every `n ≥ 1`, every square `n × n` matrix `A`, singular or not, and every
`n × 1` column `b`, `solve(A, b)` raises no error and returns a matrix of shape `(n, 1)`:
no statement of `solve` looks at the pivot before dividing by it. -/
theorem solve_total (n : Nat) (hn : 1 ≤ n) (A b : Matrix K) (hA : A.WellFormed)
    (hb : b.WellFormed) (hAr : A.rows = n) (hAc : A.columns = n) (hbr : b.rows = n)
    (hbc : b.columns = 1) :
    ∃ x, solve A b = .ok x ∧ x.rows = n ∧ x.columns = 1 ∧ x.WellFormed := by
  obtain ⟨s0, _, _, hrun⟩ := solve_run n hn A b hA hb hAr hAc hbr hbc
  exact ⟨_, hrun, rfl, rfl, ofCells_wellFormed _ _ _⟩

/-- C14, at the singular system `x + 2y = 3`, `2x + 4y = 5`, whose second pivot is zero. -/
theorem solve_total_witness :
    (sampleSingular.toSquare 2).det = 0 ∧ pivotAt 2 1 sampleSingularSys = 0 ∧
      ∃ x, solve sampleSingular sampleB = .ok x ∧ x.rows = 2 ∧ x.columns = 1 ∧
        x.WellFormed :=
  ⟨by
      rw [Matrix.det_fin_two]
      simp [Matrix.toSquare, Matrix.elem, sampleSingular]
      norm_num,
    by
      simp [pivotAt, systemAt, forLoop, iter, pivotStep, searchPivot, swapRows,
        eliminateBelow, eliminateRow, Sys.put, sampleSingularSys]
      norm_num,
    solve_total 2 (by decide) sampleSingular sampleB (by decide) (by decide) rfl rfl rfl rfl⟩

/-! ### The solver on a non-square matrix -/

theorem iterM_error {σ : Type} (body : Nat → σ → Except Error σ) (P : Nat → σ → Prop)
    (e : Error) :
    ∀ (cnt lo : Nat) (s : σ) (k : Nat), lo ≤ k → k < lo + cnt → P lo s →
      (∀ i s, lo ≤ i → i < k → P i s → ∃ s', body i s = .ok s' ∧ P (i + 1) s') →
      (∀ s, P k s → body k s = .error e) →
      iterM body lo cnt s = .error e
  | 0, lo, s, k, h1, h2, _, _, _ => by omega
  | cnt + 1, lo, s, k, h1, h2, h0, hstep, hfail => by
    by_cases hk : k = lo
    · subst hk
      simp only [iterM, hfail s h0]
    · obtain ⟨s1, hb, hp⟩ := hstep lo s (le_refl _) (by omega) h0
      simp only [iterM, hb]
      exact iterM_error body P e cnt (lo + 1) s1 k (by omega) (by omega) hp
        (fun i s hlo hik hP => hstep i s (by omega) hik hP) hfail

theorem forM_error {σ : Type} (body : Nat → σ → Except Error σ) (P : Nat → σ → Prop)
    (e : Error) (lo hi k : Nat) (s : σ) (h1 : lo ≤ k) (h2 : k < hi) (h0 : P lo s)
    (hstep : ∀ i s, lo ≤ i → i < k → P i s → ∃ s', body i s = .ok s' ∧ P (i + 1) s')
    (hfail : ∀ s, P k s → body k s = .error e) :
    forM lo hi body s = .error e :=
  iterM_error body P e (hi - lo) lo s k h1 (by omega) h0 hstep hfail

theorem loadCoefficients_fail (A : Matrix K) (n i0 j0 : Nat) (e : Error) (s : Sys K)
    (hi0 : i0 < n) (hj0 : j0 < n)
    (hok : ∀ i j, (i < i0 ∧ j < n) ∨ (i = i0 ∧ j < j0) → ∃ a, A.get i j = .ok a)
    (hfail : A.get i0 j0 = .error e) :
    loadCoefficients A n s = .error e := by
  unfold loadCoefficients
  apply forM_error _ (fun _ _ => True) e 0 n i0 s (Nat.zero_le _) hi0 trivial
  · intro i si _ hi _
    obtain ⟨s', h, _⟩ := forM_invariant
      (fun j (sys : Sys K) =>
        match A.get i j with
        | .ok a => .ok (sys.put i j a)
        | .error e => .error e)
      (fun _ _ => True) 0 n si (Nat.zero_le _) trivial
      (by
        intro j sj _ hj _
        obtain ⟨a, ha⟩ := hok i j (Or.inl ⟨hi, hj⟩)
        exact ⟨sj.put i j a, by beta_reduce; rw [ha], trivial⟩)
    exact ⟨s', h, trivial⟩
  · intro si _
    apply forM_error _ (fun _ _ => True) e 0 n j0 si (Nat.zero_le _) hj0 trivial
    · intro j sj _ hj _
      obtain ⟨a, ha⟩ := hok i0 j (Or.inr ⟨rfl, hj⟩)
      exact ⟨sj.put i0 j a, by rw [ha], trivial⟩
    · intro sj _
      beta_reduce
      rw [hfail]

theorem solve_fail (A b : Matrix K) (e : Error) (hrows : A.rows = b.rows)
    (h : loadCoefficients A (max A.rows A.columns) ⟨fun _ _ => 0⟩ = .error e) :
    solve A b = .error e := by
  have hne : ¬ A.rows ≠ b.rows := by simp [hrows]
  unfold solve
  rw [if_neg hne]
  simp only [Matrix.size, h]

theorem get_in_buffer (A : Matrix K) (i j : Nat) (hi : i ≤ A.rows) (hj : j ≤ A.columns)
    (hoff : i * A.columns + j < A.pMem.length) : ∃ a, A.get i j = .ok a := by
  have hg : ¬ (A.rows < i ∨ A.columns < j) := by omega
  exact ⟨_, by simp only [Matrix.get, hg, if_false]; exact read_of_lt A _ hoff⟩

theorem get_past_buffer (A : Matrix K) (i j : Nat) (hi : i ≤ A.rows) (hj : j ≤ A.columns)
    (hoff : A.pMem.length ≤ i * A.columns + j) : A.get i j = .error .out_of_buffer := by
  have hg : ¬ (A.rows < i ∨ A.columns < j) := by omega
  simp only [Matrix.get, hg, if_false]
  exact read_of_le A _ hoff

theorem solve_nonsquare (A b : Matrix K) (hA : A.WellFormed) (hns : A.rows ≠ A.columns)
    (hrows : b.rows = A.rows) :
    solve A b =
      if 1 ≤ A.columns ∧ A.columns + 2 ≤ A.rows then .error .range_error
      else .error .out_of_buffer := by
  obtain ⟨r, c, cells⟩ := A
  simp only [Matrix.WellFormed] at hA
  simp only at hns hrows
  simp only
  by_cases htall : 1 ≤ c ∧ c + 2 ≤ r
  · rw [if_pos htall]
    apply solve_fail _ _ _ hrows.symm
    have hmax : max r c = r := by omega
    simp only [hmax]
    apply loadCoefficients_fail _ r 0 (c + 1) _ _ (by omega) (by omega)
    · intro i j hij
      have hi : i = 0 := by omega
      have hj : j < c + 1 := by omega
      subst hi
      apply get_in_buffer _ 0 j (Nat.zero_le _) (by show j ≤ c; omega)
      show 0 * c + j < cells.length
      have h2 : 2 * c ≤ r * c := Nat.mul_le_mul_right c (by omega)
      rw [hA]
      omega
    · have hg : r < 0 ∨ c < c + 1 := by omega
      simp only [Matrix.get, hg, if_true]
  · rw [if_neg htall]
    apply solve_fail _ _ _ hrows.symm
    by_cases hwide : r < c
    · have hmax : max r c = c := by omega
      simp only [hmax]
      apply loadCoefficients_fail _ c r 0 _ _ hwide (by omega)
      · intro i j hij
        have hi : i < r := by omega
        have hj : j < c := by omega
        apply get_in_buffer _ i j (le_of_lt hi) (le_of_lt hj)
        show i * c + j < cells.length
        rw [hA]
        exact offset_lt hi hj
      · apply get_past_buffer _ r 0 (le_refl _) (Nat.zero_le _)
        show cells.length ≤ r * c + 0
        rw [hA]
        omega
    · have hmax : max r c = r := by omega
      simp only [hmax]
      by_cases hc0 : c = 0
      · subst hc0
        apply loadCoefficients_fail _ r 0 0 _ _ (by omega) (by omega)
        · intro i j hij
          omega
        · apply get_past_buffer _ 0 0 (Nat.zero_le _) (Nat.zero_le _)
          show cells.length ≤ 0 * 0 + 0
          rw [hA]
          omega
      · have hr : r = c + 1 := by omega
        subst hr
        apply loadCoefficients_fail _ (c + 1) c c _ _ (by omega) (by omega)
        · intro i j hij
          apply get_in_buffer _ i j (by show i ≤ c + 1; omega) (by show j ≤ c; omega)
          show i * c + j < cells.length
          rw [hA]
          have hsplit : (c + 1) * c = c * c + c := by ring
          rcases hij with ⟨h1, h2⟩ | ⟨h1, h2⟩
          · have h3 : (i + 1) * c ≤ c * c := Nat.mul_le_mul_right c (by omega)
            have h4 : (i + 1) * c = i * c + c := by ring
            omega
          · rw [h1]
            omega
        · apply get_past_buffer _ c c (by show c ≤ c + 1; omega) (le_refl _)
          show cells.length ≤ c * c + c
          rw [hA]
          have hsplit : (c + 1) * c = c * c + c := by ring
          omega

theorem solveVia_get (A b : Matrix K) : solveVia A.get b.get A b = solve A b := rfl

theorem getPast_ok (past : Nat → K) (m : Matrix K) (i j : Nat) (hi : i ≤ m.rows)
    (hj : j ≤ m.columns) : ∃ a, m.getPast past i j = .ok a := by
  have hg : ¬ (m.rows < i ∨ m.columns < j) := by omega
  unfold Matrix.getPast
  rw [if_neg hg]
  cases m.pMem[i * m.columns + j]? with
  | none => exact ⟨_, rfl⟩
  | some x => exact ⟨_, rfl⟩

theorem getPast_range (past : Nat → K) (m : Matrix K) (i j : Nat)
    (h : m.rows < i ∨ m.columns < j) : m.getPast past i j = .error .range_error := by
  unfold Matrix.getPast
  rw [if_pos h]

theorem loadCoefficientsVia_fail (getA : Nat → Nat → Except Error K) (n i0 j0 : Nat)
    (e : Error) (s : Sys K) (hi0 : i0 < n) (hj0 : j0 < n)
    (hok : ∀ i j, (i < i0 ∧ j < n) ∨ (i = i0 ∧ j < j0) → ∃ a, getA i j = .ok a)
    (hfail : getA i0 j0 = .error e) :
    loadCoefficientsVia getA n s = .error e := by
  unfold loadCoefficientsVia
  apply forM_error _ (fun _ _ => True) e 0 n i0 s (Nat.zero_le _) hi0 trivial
  · intro i si _ hi _
    obtain ⟨s', h, _⟩ := forM_invariant
      (fun j (sys : Sys K) =>
        match getA i j with
        | .ok a => .ok (sys.put i j a)
        | .error e => .error e)
      (fun _ _ => True) 0 n si (Nat.zero_le _) trivial
      (by
        intro j sj _ hj _
        obtain ⟨a, ha⟩ := hok i j (Or.inl ⟨hi, hj⟩)
        exact ⟨sj.put i j a, by beta_reduce; rw [ha], trivial⟩)
    exact ⟨s', h, trivial⟩
  · intro si _
    apply forM_error _ (fun _ _ => True) e 0 n j0 si (Nat.zero_le _) hj0 trivial
    · intro j sj _ hj _
      obtain ⟨a, ha⟩ := hok i0 j (Or.inr ⟨rfl, hj⟩)
      exact ⟨sj.put i0 j a, by rw [ha], trivial⟩
    · intro sj _
      beta_reduce
      rw [hfail]

theorem loadCoefficientsVia_ok (getA : Nat → Nat → Except Error K) (n : Nat) (s : Sys K)
    (hok : ∀ i j, i < n → j < n → ∃ a, getA i j = .ok a) :
    ∃ s', loadCoefficientsVia getA n s = .ok s' := by
  unfold loadCoefficientsVia
  obtain ⟨s', h, _⟩ := forM_invariant
    (fun i (sys : Sys K) => forM 0 n
      (fun j sys =>
        match getA i j with
        | .ok a => .ok (sys.put i j a)
        | .error e => .error e) sys)
    (fun _ _ => True) 0 n s (Nat.zero_le _) trivial
    (by
      intro i si _ hi _
      obtain ⟨s1, h1, _⟩ := forM_invariant
        (fun j (sys : Sys K) =>
          match getA i j with
          | .ok a => .ok (sys.put i j a)
          | .error e => .error e)
        (fun _ _ => True) 0 n si (Nat.zero_le _) trivial
        (by
          intro j sj _ hj _
          obtain ⟨a, ha⟩ := hok i j hi hj
          exact ⟨sj.put i j a, by beta_reduce; rw [ha], trivial⟩)
      exact ⟨s1, h1, trivial⟩)
  exact ⟨s', h⟩

theorem loadRhsVia_ok (getB : Nat → Nat → Except Error K) (n : Nat) (s : Sys K)
    (hok : ∀ i, i < n → ∃ x, getB i 0 = .ok x) :
    ∃ s', loadRhsVia getB n s = .ok s' := by
  unfold loadRhsVia
  obtain ⟨s', h, _⟩ := forM_invariant
    (fun i (sys : Sys K) =>
      match getB i 0 with
      | .ok x => .ok (sys.put i n x)
      | .error e => .error e)
    (fun _ _ => True) 0 n s (Nat.zero_le _) trivial
    (by
      intro i si _ hi _
      obtain ⟨x, hx⟩ := hok i hi
      exact ⟨si.put i n x, by beta_reduce; rw [hx], trivial⟩)
  exact ⟨s', h⟩

theorem solveVia_fail (getA getB : Nat → Nat → Except Error K) (A b : Matrix K) (e : Error)
    (hrows : A.rows = b.rows)
    (h : loadCoefficientsVia getA (max A.rows A.columns) ⟨fun _ _ => 0⟩ = .error e) :
    solveVia getA getB A b = .error e := by
  have hne : ¬ A.rows ≠ b.rows := by simp [hrows]
  unfold solveVia
  rw [if_neg hne]
  simp only [Matrix.size, h]

/-- With accessors that return a value for every index pair the loops use, `solve` returns
a column of `n = max(A.rows, A.columns)` rows when `n ≥ 1`. -/
theorem solveVia_ok (getA getB : Nat → Nat → Except Error K) (A b : Matrix K)
    (hrows : A.rows = b.rows) (hn : 1 ≤ max A.rows A.columns)
    (hA : ∀ i j, i < max A.rows A.columns → j < max A.rows A.columns →
      ∃ a, getA i j = .ok a)
    (hB : ∀ i, i < max A.rows A.columns → ∃ x, getB i 0 = .ok x) :
    ∃ x, solveVia getA getB A b = .ok x ∧ x.rows = max A.rows A.columns ∧ x.columns = 1 ∧
      x.WellFormed := by
  have hne : ¬ A.rows ≠ b.rows := by simp [hrows]
  obtain ⟨s1, h1⟩ := loadCoefficientsVia_ok getA (max A.rows A.columns) ⟨fun _ _ => 0⟩ hA
  obtain ⟨s2, h2⟩ := loadRhsVia_ok getB (max A.rows A.columns) s1 hB
  have hrun : solveVia getA getB A b = Matrix.fromVector ((List.range (max A.rows A.columns)).map
      (backSubstitute (max A.rows A.columns)
        (forwardElimination (max A.rows A.columns) s2)).2) := by
    unfold solveVia
    rw [if_neg hne]
    simp only [Matrix.size, h1, h2]
  have hemp : ((List.range (max A.rows A.columns)).map
      (backSubstitute (max A.rows A.columns)
        (forwardElimination (max A.rows A.columns) s2)).2).isEmpty = false := by
    cases hm : max A.rows A.columns with
    | zero => omega
    | succ k => simp [List.range_succ]
  refine ⟨_, by rw [hrun, Matrix.fromVector, hemp]; rfl, ?_, rfl, ?_⟩
  · simp
  · simp [Matrix.WellFormed]

/-- C15 as amended: for a non-square matrix `A` and a `b` with `b.rows == A.rows`, `solve`
takes `n = max(A.rows, A.columns)` and never raises the invalid-argument error.  When the
two dimensions of `A` differ by two or more, a `get` call raises a range error (`get`
accepts an index equal to the bound, not one beyond it).  When they differ by exactly one,
no error is reported and an `n × 1` matrix is returned, whatever the reads past the end of
the buffers return.  Except when `A.columns ≥ 1` and `A.rows ≥ A.columns + 2`, a `get`
call of the run does read past the end of the buffer of `A`. -/
theorem solve_nonsquare_outcome (pastA pastB : Nat → K) (A b : Matrix K)
    (hns : A.rows ≠ A.columns) (hrows : b.rows = A.rows) :
    solvePast pastA pastB A b ≠ .error .invalid_argument ∧
    ((A.rows + 2 ≤ A.columns ∨ A.columns + 2 ≤ A.rows) →
      solvePast pastA pastB A b = .error .range_error) ∧
    ((A.rows + 1 = A.columns ∨ A.columns + 1 = A.rows) →
      ∃ x, solvePast pastA pastB A b = .ok x ∧ x.rows = max A.rows A.columns ∧
        x.columns = 1 ∧ x.WellFormed) ∧
    (A.WellFormed → ¬ (1 ≤ A.columns ∧ A.columns + 2 ≤ A.rows) →
      solve A b = .error .out_of_buffer) := by
  have hfar : (A.rows + 2 ≤ A.columns ∨ A.columns + 2 ≤ A.rows) →
      solvePast pastA pastB A b = .error .range_error := by
    intro hfar
    apply solveVia_fail _ _ _ _ _ hrows.symm
    rcases hfar with hwide | htall
    · have hmax : max A.rows A.columns = A.columns := by omega
      rw [hmax]
      apply loadCoefficientsVia_fail _ A.columns (A.rows + 1) 0 _ _ (by omega) (by omega)
      · intro i j hij
        exact getPast_ok pastA A i j (by omega) (by omega)
      · exact getPast_range pastA A _ _ (Or.inl (by omega))
    · have hmax : max A.rows A.columns = A.rows := by omega
      rw [hmax]
      apply loadCoefficientsVia_fail _ A.rows 0 (A.columns + 1) _ _ (by omega) (by omega)
      · intro i j hij
        exact getPast_ok pastA A i j (by omega) (by omega)
      · exact getPast_range pastA A _ _ (Or.inr (by omega))
  have hnear : (A.rows + 1 = A.columns ∨ A.columns + 1 = A.rows) →
      ∃ x, solvePast pastA pastB A b = .ok x ∧ x.rows = max A.rows A.columns ∧
        x.columns = 1 ∧ x.WellFormed := by
    intro hnear
    apply solveVia_ok _ _ A b hrows.symm (by omega)
    · intro i j hi hj
      exact getPast_ok pastA A i j (by omega) (by omega)
    · intro i hi
      exact getPast_ok pastB b i 0 (by omega) (Nat.zero_le _)
  refine ⟨?_, hfar, hnear, ?_⟩
  · by_cases hcase : A.rows + 2 ≤ A.columns ∨ A.columns + 2 ≤ A.rows
    · rw [hfar hcase]
      simp
    · obtain ⟨x, hx, _⟩ := hnear (by omega)
      rw [hx]
      simp
  · intro hA htall
    rw [solve_nonsquare A b hA hns hrows, if_neg htall]

/-- C15 as amended, at the 2 × 3 matrix `sampleWide` and the column `sampleB`, with zeros
after both buffers: a 3 × 1 matrix is returned, and a read leaves the buffer of
`sampleWide`. -/
theorem solve_nonsquare_outcome_witness :
    (∃ x, solvePast (fun _ => 0) (fun _ => 0) sampleWide sampleB = .ok x ∧ x.rows = 3 ∧
      x.columns = 1 ∧ x.WellFormed) ∧
    solve sampleWide sampleB = .error .out_of_buffer :=
  have h := solve_nonsquare_outcome (fun _ => 0) (fun _ => 0) sampleWide sampleB
    (by decide) rfl
  ⟨h.2.2.1 (Or.inl rfl), h.2.2.2 (by decide) (by decide)⟩

/-- C15 fails as stated: `sampleTall` is 3 × 1, the rows of the right-hand side match, and
`solve` reports a range error, raised by `A.get(0, 2)`. -/
theorem solve_nonsquare_counterexample :
    sampleTall.rows ≠ sampleTall.columns ∧ sampleTall.rows = sampleTall.rows ∧
      solve sampleTall sampleTall = .error .range_error ∧
      sampleTall.get 0 2 = .error .range_error :=
  ⟨by decide, rfl,
    by simp [solve, loadCoefficients, forM, iterM, Matrix.get, Matrix.read, Matrix.size,
      sampleTall],
    by simp [Matrix.get, sampleTall]⟩

/-! ### The norm -/

theorem norm_sum (sqrt : K → K) (m : Matrix K) (hm : m.WellFormed) :
    m.norm sqrt =
      .ok (sqrt (∑ k in Finset.range (m.rows * m.columns), (m.pMem.getD k 0) ^ 2)) := by
  obtain ⟨acc, hrun, hacc⟩ := forM_invariant
    (fun i (innerProduct : K) =>
      match m.read i with
      | .ok x => .ok (innerProduct + x ^ 2)
      | .error e => .error e)
    (fun i acc => acc = ∑ k in Finset.range i, (m.pMem.getD k 0) ^ 2)
    0 (m.rows * m.columns) 0 (Nat.zero_le _) (by simp)
    (by
      intro i acc _ hi hacc
      refine ⟨acc + (m.pMem.getD i 0) ^ 2, ?_, ?_⟩
      · beta_reduce
        rw [read_getD m i (by rw [hm]; exact hi)]
      · beta_reduce
        rw [Finset.sum_range_succ, hacc])
  simp only [Matrix.norm, hrun, hacc]

/-- C16: with `std::sqrt` returning the non-negative root of every value that has one, `norm()`
is `sqrt` of the sum of the squares of the `rows * columns` buffer cells, hence the
non-negative root `y` of that sum; two matrices with the same buffer have the same norm,
whatever their shapes; the norm of `column[3, 4]` is 5. -/
theorem norm_correct (sqrt : K → K) (hsqrt : ∀ x z : K, 0 ≤ z → z * z = x → sqrt x = z)
    (m m' : Matrix K) (hm : m.WellFormed) (hm' : m'.WellFormed) :
    m.norm sqrt =
      .ok (sqrt (∑ k in Finset.range (m.rows * m.columns), (m.pMem.getD k 0) ^ 2)) ∧
    (∀ y, 0 ≤ y → y * y = ∑ k in Finset.range (m.rows * m.columns), (m.pMem.getD k 0) ^ 2 →
      m.norm sqrt = .ok y) ∧
    (m.pMem = m'.pMem → m.norm sqrt = m'.norm sqrt) ∧
    (∀ M : Matrix K, Matrix.fromVector [3, 4] = .ok M → M.norm sqrt = .ok 5) := by
  refine ⟨norm_sum sqrt m hm, ?_, ?_, ?_⟩
  · intro y hy hroot
    rw [norm_sum sqrt m hm, hsqrt _ y hy hroot]
  · intro hbuf
    have hlen : m.rows * m.columns = m'.rows * m'.columns := by
      rw [← hm, ← hm', hbuf]
    rw [norm_sum sqrt m hm, norm_sum sqrt m' hm', hlen, hbuf]
  · intro M hM
    have hM' : M = ⟨2, 1, [3, 4]⟩ := by
      have h := Except.ok.inj hM.symm
      rw [h]
      simp
    have hw : (⟨2, 1, [3, 4]⟩ : Matrix K).WellFormed := by simp [Matrix.WellFormed]
    rw [hM', norm_sum sqrt _ hw]
    have hroot : (5 : K) * 5 = ∑ k in Finset.range (2 * 1), (([3, 4] : List K).getD k 0) ^ 2 := by
      simp [Finset.sum_range_succ]
      norm_num
    rw [hsqrt _ 5 (by norm_num) hroot]

/-- C16, over the rationals with `Rat.sqrt`: the norm of `column[3, 4]` is 5, also when
the same buffer is shaped as a row. -/
theorem norm_correct_witness :
    sampleColumn34.norm Rat.sqrt = .ok 5 ∧
      sampleColumn34.norm Rat.sqrt = sampleRow34.norm Rat.sqrt :=
  have h := norm_correct Rat.sqrt
    (fun x z hz hx => by rw [← hx, Rat.sqrt_eq, abs_of_nonneg hz])
    sampleColumn34 sampleRow34 (by decide) (by decide)
  ⟨h.2.1 5 (by norm_num) (by simp [sampleColumn34, Finset.sum_range_succ]; norm_num),
    h.2.2.1 rfl⟩

/-! ### Pivot choice and the zeros below the diagonal -/

/-- C18: for every system that `solve` starts from, singular or not: once pivot step `i` is
done, every entry `sys[j][k]` with `k ≤ i` and `j > k` is zero; it stays zero in every later
state of the pivot loop, also right after the partial swap of a later step; when the forward
elimination ends the coefficient part is upper triangular. -/
theorem lower_zero_invariant (n : Nat) (s0 : Sys K) :
    (∀ i, i < n → ∀ j k, k ≤ i → k < j → j < n → (systemAt n (i + 1) s0).cell j k = 0) ∧
    (∀ i m, i < m → m ≤ n → ∀ j k, k ≤ i → k < j → j < n →
      (systemAt n m s0).cell j k = 0) ∧
    (∀ i m p, i < m → m < n → ∀ j k, k ≤ i → k < j → j < n →
      (swapRows (systemAt n m s0) n m p).cell j k = 0) ∧
    (∀ j k, k < j → j < n → (forwardElimination n s0).cell j k = 0) := by
  have hz := systemAt_lowerZero n s0
  refine ⟨?_, ?_, ?_, ?_⟩
  · intro i hi j k hk hkj hj
    exact hz (i + 1) (by omega) j k (by omega) hkj hj
  · intro i m him hm j k hk hkj hj
    exact hz m hm j k (by omega) hkj hj
  · intro i m p him hm j k hk hkj hj
    rw [swapRows_spec, if_neg (by omega)]
    exact hz m (by omega) j k (by omega) hkj hj
  · intro j k hkj hj
    exact hz n (le_refl _) j k (by omega) hkj hj

/-- C18, at `sampleSingularSys`: the entry below the first pivot is zero after step 0 and
when the forward elimination ends. -/
theorem lower_zero_invariant_witness :
    (systemAt 2 1 sampleSingularSys).cell 1 0 = 0 ∧
      (forwardElimination 2 sampleSingularSys).cell 1 0 = 0 :=
  have h := lower_zero_invariant 2 sampleSingularSys
  ⟨h.1 0 (by decide) 1 0 (by decide) (by decide) (by decide),
    h.2.2.2 1 0 (by decide) (by decide)⟩

/-! ### The bound check of `get`, and the empty system -/

/-- C19: the bound check of `get` does not imply an in-bounds read: for a matrix with `r`
rows and `c` columns and every `j ≤ c`, `get(r, j)` raises no range error although its
offset `r * c + j` is at or past the buffer length (the read leaves the buffer); and for
`c ≥ 1` and `i + 1 < r`, `get(i, c)` raises no error and returns the element at position
`(i + 1, 0)`. -/
theorem get_guard_lenient (m : Matrix K) (hm : m.WellFormed) :
    (∀ j, j ≤ m.columns →
      m.get m.rows j ≠ .error .range_error ∧ m.pMem.length ≤ m.rows * m.columns + j ∧
        m.get m.rows j = .error .out_of_buffer) ∧
    (∀ i, 1 ≤ m.columns → i + 1 < m.rows →
      m.get i m.columns = .ok (m.elem (i + 1) 0) ∧
        m.get (i + 1) 0 = .ok (m.elem (i + 1) 0)) := by
  constructor
  · intro j hj
    have hlen : m.pMem.length ≤ m.rows * m.columns + j := by rw [hm]; omega
    have hget := get_past_buffer m m.rows j (le_refl _) hj hlen
    refine ⟨?_, hlen, hget⟩
    rw [hget]
    simp
  · intro i hc hi
    have hnext := get_eq_elem m hm (i + 1) 0 hi (by omega)
    refine ⟨?_, hnext⟩
    have hg : ¬ (m.rows < i ∨ m.columns < m.columns) := by omega
    have hoff : i * m.columns + m.columns = (i + 1) * m.columns + 0 := by ring
    have hlt : (i + 1) * m.columns + 0 < m.pMem.length := by
      rw [hm]; exact offset_lt hi (by omega)
    simp only [Matrix.get, hg, if_false, Matrix.elem]
    rw [hoff]
    exact read_getD m _ hlt

/-- C19, at the 2 × 3 matrix `sampleWide`: `get(2, 3)` passes the guard and leaves the
buffer, `get(0, 3)` returns 4, the element at `(1, 0)`. -/
theorem get_guard_lenient_witness :
    sampleWide.get 2 3 ≠ .error .range_error ∧ sampleWide.get 2 3 = .error .out_of_buffer ∧
      sampleWide.get 0 3 = .ok (sampleWide.elem 1 0) ∧ sampleWide.elem 1 0 = 4 :=
  have h := get_guard_lenient sampleWide (by decide)
  ⟨(h.1 3 (by decide)).1, (h.1 3 (by decide)).2.2, (h.2 0 (by decide) (by decide)).1, rfl⟩

/-- C20: for every `A` with 0 rows and 0 columns and every `b` with 0 rows, `solve(A, b)`
passes its row-count test and then raises the invalid-argument error of the constructor from
an empty value sequence; no 0 × 1 matrix is returned. -/
theorem solve_empty (A b : Matrix K) (hr : A.rows = 0) (hc : A.columns = 0)
    (hb : b.rows = 0) :
    ¬ A.rows ≠ b.rows ∧ solve A b = .error .invalid_argument ∧
      Matrix.fromVector ([] : List K) = .error .invalid_argument ∧
      ∀ x, solve A b ≠ .ok x := by
  have hrows : ¬ A.rows ≠ b.rows := by simp [hr, hb]
  have hsolve : solve A b = .error .invalid_argument := by
    unfold solve
    rw [if_neg hrows]
    simp [Matrix.size, hr, hc, loadCoefficients, loadRhs, forM, iterM, Matrix.fromVector]
  refine ⟨hrows, hsolve, by simp [Matrix.fromVector], ?_⟩
  intro x
  rw [hsolve]
  simp

/-- C20, at the default-constructed matrix for both arguments. -/
theorem solve_empty_witness :
    solve (Matrix.empty : Matrix ℚ) Matrix.empty = .error .invalid_argument :=
  (solve_empty (Matrix.empty : Matrix ℚ) Matrix.empty rfl rfl rfl).2.1

end Claims

end MatrixLib
